import Mathlib

/-!
Minesweeper board engine (`main.cc`)

A shallow embedding of the `Board` class of `main.cc` together with proofs of
its specified properties.

* `int`, `short` and `char` values are integers.  Where the source does arithmetic on
  them the result is wrapped to the width of the type (`wrapInt`, `wrapShort`,
  `wrapChar`), which is what the increment of a `short`, the conversion of `'0' + n` to
  `char` and, on the usual targets, an overflowing `int` give.
* `vector<vector<T>>` is a list of rows.  A read outside the stored cells yields 0
  and a write outside them is dropped; the source only indexes after `isValid`, and in
  the constructor with draws from `[0, _side - 1]`.
* The random draws of the constructor are a parameter: the list of values that
  `dis(seed)` returns, in order.
* What `printf` writes in `playerInput` is collected as a list of lines.
* The recursion of `revealMineCountNearInput` is driven by a depth budget; running
  out of budget is `none`.  The budget used at top level is proved sufficient, and a
  larger one gives the same board (`reveal_returns`).
* For the claims about which cells are indexed, the operations are stated a second time
  with a log of every read and write of a grid (`revealLog`, `playerInputLog`, ...); each
  logged operation is proved to compute the board of the plain one.
-/

set_option autoImplicit false

namespace Minesweeper

/-! Machine integers -/

/-- Two's-complement value of an `int` (32 bit). -/
def wrapInt (x : Int) : Int := (x + 2147483648) % 4294967296 - 2147483648

/-- Two's-complement value of a `short` (16 bit). -/
def wrapShort (x : Int) : Int := (x + 32768) % 65536 - 32768

/-- Two's-complement value of a `char` (8 bit). -/
def wrapChar (x : Int) : Int := (x + 128) % 256 - 128

/-- Character code of `'-'`, the hidden symbol. -/
abbrev chHidden : Int := 45

/-- Character code of `'#'`, the marked symbol. -/
abbrev chMarked : Int := 35

/-- Character code of `'0'`. -/
abbrev chZero : Int := 48

/-! Grids -/

/-- A `vector<vector<T>>` of integer-valued cells, stored row by row. -/
abbrev Grid := List (List Int)

/-- Whether `g[row][col]` is a stored cell. -/
def Grid.InRange (g : Grid) (row col : Int) : Prop :=
  0 ≤ row ∧ 0 ≤ col ∧ row.toNat < List.length g ∧ col.toNat < (List.getD g row.toNat []).length

instance (g : Grid) (row col : Int) : Decidable (g.InRange row col) := by
  unfold Grid.InRange; infer_instance

/-- The read `g[row][col]`. -/
def Grid.get (g : Grid) (row col : Int) : Int :=
  if 0 ≤ row ∧ 0 ≤ col then List.getD (List.getD g row.toNat []) col.toNat 0 else 0

/-- The write `g[row][col] = v`. -/
def Grid.set (g : Grid) (row col : Int) (v : Int) : Grid :=
  if 0 ≤ row ∧ 0 ≤ col then
    List.set g row.toNat (List.set (List.getD g row.toNat []) col.toNat v)
  else g

/-- The grid `vector<vector<T>>(n, vector<T>(n, v))`. -/
def Grid.fill (n : Int) (v : Int) : Grid :=
  List.replicate n.toNat (List.replicate n.toNat v)

/-- A grid of `n` rows of `n` cells each. -/
def Grid.Square (g : Grid) (n : Int) : Prop :=
  0 ≤ n ∧ g.length = n.toNat ∧ ∀ r ∈ g, r.length = n.toNat

instance (g : Grid) (n : Int) : Decidable (g.Square n) := by
  unfold Grid.Square; infer_instance

/-! The board -/

/-- The data members of `Board`. -/
structure Board where
  _side : Int
  _mines : Int
  _mine_board : Grid
  _board : Grid
deriving DecidableEq, Repr

namespace Board

/-- The function `Board::isValid`. -/
def isValid (b : Board) (row col : Int) : Bool :=
  decide (row ≥ 0) && decide (col ≥ 0) && decide (row < b._side) && decide (col < b._side)

/-- The function `Board::getMines`. -/
def getMines (b : Board) : Int := b._mines

/-- The function `Board::incrementCount`. -/
def incrementCount (b : Board) (row col : Int) : Board :=
  if b.isValid row col && b._mine_board.get row col != -1 then
    { b with _mine_board :=
        b._mine_board.set row col (wrapShort (b._mine_board.get row col + 1)) }
  else b

/-- The function `Board::placeMineHere`: the two nested `for` loops run over
`row-1, row, row+1` and `col-1, col, col+1`. -/
def placeMineHere (b : Board) (row col : Int) : Board :=
  let b0 : Board := { b with _mine_board := b._mine_board.set row col (-1) }
  [row - 1, row, row + 1].foldl
    (fun acc nrow => [col - 1, col, col + 1].foldl (fun acc2 ncol => acc2.incrementCount nrow ncol) acc)
    b0

/-- The switch on `difficulty` and the two grid constructions at the start of
`Board::Board`.  Any other difficulty leaves `_side` and `_mines` uninitialised. -/
def init (difficulty : Int) : Option Board :=
  let dims : Option (Int × Int) :=
    if difficulty = 0 then some (9, 10)
    else if difficulty = 1 then some (16, 40)
    else if difficulty = 2 then some (24, 99)
    else none
  match dims with
  | some (side, mines) =>
      some { _side := side, _mines := mines,
             _mine_board := Grid.fill side 0, _board := Grid.fill side chHidden }
  | none => none

/-- The placement loop of `Board::Board`, `for (int i=0; i<_mines; ++i)`, fed with the
successive values of `dis(seed)`.  Every pass draws `row` and then `col`; a pass that
hits a mine does `--i` before the `++i` of the loop.  The loop has not finished when
the draws run out first. -/
def placeLoop : List Int → Board → Int → Option Board
  | [], b, i => if i < b._mines then none else some b
  | [_], b, i => if i < b._mines then none else some b
  | row :: col :: rest, b, i =>
      if i < b._mines then
        if b._mine_board.get row col = -1 then
          placeLoop rest b (i - 1 + 1)
        else
          placeLoop rest (b.placeMineHere row col) (i + 1)
      else some b

/-- The function `Board::Board(int difficulty)`, with the random draws as a parameter. -/
def new (difficulty : Int) (draws : List Int) : Option Board :=
  match init difficulty with
  | some b => placeLoop draws b 0
  | none => none

/-- The function `Board::playerMarkMine`. -/
def playerMarkMine (b : Board) (row col : Int) : Board :=
  if !b.isValid row col then b
  else if b._board.get row col = chMarked then
    let b1 : Board := { b with _board := b._board.set row col chHidden }
    if b1._mine_board.get row col = -1 then { b1 with _mines := wrapInt (b1._mines + 1) } else b1
  else
    let b1 : Board := { b with _board := b._board.set row col chMarked }
    if b1._mine_board.get row col = -1 then { b1 with _mines := wrapInt (b1._mines - 1) } else b1

/-- The function `Board::revealMineCountNearInput` with a bound on the recursion depth. -/
def revealAux : Nat → Board → Int → Int → Option Board
  | 0, _, _, _ => none
  | fuel + 1, b, row, col =>
      if !b.isValid row col || b._mine_board.get row col = -1 || b._board.get row col ≠ chHidden then
        some b
      else if b._mine_board.get row col ≠ 0 then
        some { b with _board := b._board.set row col (wrapChar (chZero + b._mine_board.get row col)) }
      else
        let b0 : Board := { b with _board := b._board.set row col chZero }
        match revealAux fuel b0 (row + 1) col with
        | none => none
        | some b1 =>
          match revealAux fuel b1 row (col + 1) with
          | none => none
          | some b2 =>
            match revealAux fuel b2 (row - 1) col with
            | none => none
            | some b3 => revealAux fuel b3 row (col - 1)

/-- Number of `'-'` entries stored in the player board. -/
def hiddenCount (b : Board) : Nat :=
  (b._board.map (fun r => r.count chHidden)).sum

/-- The function `Board::revealMineCountNearInput`.  Every nested call follows a write that turns a
hidden cell into `'0'`, so the depth never exceeds the number of hidden cells plus one. -/
def revealMineCountNearInput (b : Board) (row col : Int) : Option Board :=
  revealAux (b.hiddenCount + 1) b row col

/-- The line `playerInput` prints for an out-of-bounds position. -/
def msgOutOfBounds : String := "Input row and col out of bounds. Try again.\n"

/-- The line `playerInput` prints for a marked cell. -/
def msgMarked : String := " Input has been marked.\n"

/-- The line `playerInput` prints for a mine. -/
def msgMine : String := "You trigger a mine, game over.\n"

/-- What a call of `Board::playerInput` produces: the returned `int`, the lines it
printed, and the board afterwards. -/
structure InputResult where
  ret : Int
  out : List String
  board : Board
deriving DecidableEq, Repr

/-- The function `Board::playerInput`. -/
def playerInput (b : Board) (row col : Int) : Option InputResult :=
  if !b.isValid row col then
    some { ret := 0, out := [Board.msgOutOfBounds], board := b }
  else if b._board.get row col = chMarked then
    some { ret := 0, out := [Board.msgMarked], board := b }
  else if b._mine_board.get row col = -1 then
    some { ret := 1, out := [Board.msgMine], board := b }
  else
    match b.revealMineCountNearInput row col with
    | none => none
    | some b1 => some { ret := 0, out := [], board := b1 }

end Board

/-! Vocabulary of the specification -/

/-- All positions `(row, col)` with `0 ≤ row, col < n`, row by row. -/
def cellList (n : Int) : List (Int × Int) :=
  (List.range n.toNat).flatMap fun (r : Nat) =>
    (List.range n.toNat).map fun (c : Nat) => ((r : Int), (c : Int))

/-- The up-to-8 positions at Chebyshev distance 1 from `(row, col)`. -/
def neighbours (row col : Int) : List (Int × Int) :=
  [(row - 1, col - 1), (row - 1, col), (row - 1, col + 1), (row, col - 1), (row, col + 1),
   (row + 1, col - 1), (row + 1, col), (row + 1, col + 1)]

namespace Board

/-- The MineGrid value at a position. -/
def mineAt (b : Board) (p : Int × Int) : Int := b._mine_board.get p.1 p.2

/-- The VisibleGrid symbol at a position. -/
def visAt (b : Board) (p : Int × Int) : Int := b._board.get p.1 p.2

/-- Number of in-bounds cells holding a mine (`-1`). -/
def mineCount (b : Board) : Nat :=
  (cellList b._side).countP fun p => b.mineAt p = -1

/-- Number of entries equal to `-1` stored in the MineGrid, row by row. -/
def storedMines (b : Board) : Nat :=
  (b._mine_board.map (fun r => r.count (-1))).sum

/-- Number of in-bounds mine cells currently shown as marked. -/
def markedMines (b : Board) : Nat :=
  (cellList b._side).countP fun p => b.mineAt p = -1 ∧ b.visAt p = chMarked

/-- Number of mines among the in-bounds neighbours of `(row, col)`. -/
def mineNeighbours (b : Board) (row col : Int) : Nat :=
  (neighbours row col).countP fun q => b.isValid q.1 q.2 && b.mineAt q = -1

/-- The MineGrid invariant: every in-bounds non-mine cell holds the number of mines
among its neighbours. -/
def Consistent (b : Board) : Prop :=
  ∀ p ∈ cellList b._side, b.mineAt p ≠ -1 → b.mineAt p = (b.mineNeighbours p.1 p.2 : Int)

instance (b : Board) : Decidable b.Consistent := by unfold Consistent; infer_instance

/-- The board before any mine is placed: `n` by `n`, all counts 0, all cells hidden. -/
def blank (n mines : Int) : Board :=
  { _side := n, _mines := mines, _mine_board := Grid.fill n 0, _board := Grid.fill n chHidden }

/-- MineGrids obtained from the all-zero grid by successive `placeMineHere` calls, each on
an in-bounds cell that is not yet a mine. -/
inductive Built (n mines : Int) : Board → Prop
  | zero : Built n mines (blank n mines)
  | place (b : Board) (row col : Int) : Built n mines b → b.isValid row col = true →
      b.mineAt (row, col) ≠ -1 → Built n mines (b.placeMineHere row col)

end Board

/-- Orthogonal adjacency: `q` is one of the four cells the flood fill visits from `p`. -/
def Adj (p q : Int × Int) : Prop :=
  q = (p.1 + 1, p.2) ∨ q = (p.1, p.2 + 1) ∨ q = (p.1 - 1, p.2) ∨ q = (p.1, p.2 - 1)

instance (p q : Int × Int) : Decidable (Adj p q) := by unfold Adj; infer_instance

namespace Board

/-- A cell the flood fill writes when it gets there: in bounds, not a mine, hidden. -/
def Open (b : Board) (p : Int × Int) : Prop :=
  b.isValid p.1 p.2 = true ∧ b.mineAt p ≠ -1 ∧ b.visAt p = chHidden

instance (b : Board) (p : Int × Int) : Decidable (b.Open p) := by unfold Open; infer_instance

/-- Relation `Reach b s c`: there is a path `s = p0, p1, ..., pk = c` of orthogonally adjacent,
in-bounds, hidden, non-mine cells in which `p0 .. p(k-1)` all have count 0. -/
inductive Reach (b : Board) : Int × Int → Int × Int → Prop
  | here (p : Int × Int) : b.Open p → Reach b p p
  | step (p q c : Int × Int) : b.Open p → b.mineAt p = 0 → Adj p q → Reach b q c → Reach b p c

/-- Relation `IsPath b s c path`: the list `path` runs from `s` to `c` through orthogonally adjacent,
in-bounds, hidden, non-mine cells, and every cell of it before the last has count 0. -/
def IsPath (b : Board) (s c : Int × Int) (path : List (Int × Int)) : Prop :=
  path.head? = some s ∧ path.getLast? = some c ∧ path.Chain' Adj ∧ (∀ p ∈ path, b.Open p) ∧
    ∀ p ∈ path.dropLast, b.mineAt p = 0

/-- Relation `ZeroConn b s c`: there is a path from `s` to `c` of orthogonally adjacent in-bounds
cells that all have count 0. -/
inductive ZeroConn (b : Board) : Int × Int → Int × Int → Prop
  | here (p : Int × Int) : b.isValid p.1 p.2 = true → b.mineAt p = 0 → ZeroConn b p p
  | step (p q c : Int × Int) : b.isValid p.1 p.2 = true → b.mineAt p = 0 → Adj p q →
      ZeroConn b q c → ZeroConn b p c

/-- The 4-connected zero-count region containing `s`. -/
def zeroRegion (b : Board) (s : Int × Int) : Set (Int × Int) := {c | b.ZeroConn s c}

/-- The in-bounds nonzero cells orthogonally bordering the zero-count region of `s`. -/
def border (b : Board) (s : Int × Int) : Set (Int × Int) :=
  {c | b.isValid c.1 c.2 = true ∧ b.mineAt c ≠ 0 ∧ ∃ z, b.ZeroConn s z ∧ Adj z c}

/-- Every in-bounds cell is hidden. -/
def AllHidden (b : Board) : Prop := ∀ p ∈ cellList b._side, b.visAt p = chHidden

instance (b : Board) : Decidable b.AllHidden := by unfold AllHidden; infer_instance

/-- Relation `Ext b b1`: `b1` is `b` with some in-bounds hidden non-mine cells overwritten by the
character of their count, and nothing else changed. -/
structure Ext (b b1 : Board) : Prop where
  side : b1._side = b._side
  mines : b1._mines = b._mines
  mine_board : b1._mine_board = b._mine_board
  inRange : ∀ x y, b1._board.InRange x y ↔ b._board.InRange x y
  vis : ∀ p, b1.visAt p = b.visAt p ∨
    (b.Open p ∧ b1.visAt p = wrapChar (chZero + b.mineAt p))
  hidden : b1.hiddenCount ≤ b.hiddenCount

/-- Relation `Closed b b1`: every zero-count cell revealed between `b` and `b1` has all its
orthogonal neighbours that were open in `b` revealed in `b1`. -/
def Closed (b b1 : Board) : Prop :=
  ∀ p q, b.Open p → ¬ b1.Open p → b.mineAt p = 0 → Adj p q → b.Open q → ¬ b1.Open q

/-- What one call of the flood fill started at `s` achieves, from `b` to `b1`. -/
structure RevealOk (b : Board) (s : Int × Int) (b1 : Board) : Prop where
  ext : Ext b b1
  sound : ∀ p, b1.visAt p ≠ b.visAt p → b.Reach s p
  start : ¬ b1.Open s
  closed : Closed b b1

/-- What a sequence of flood-fill calls started at the cells `S` achieves. -/
structure MultiOk (b : Board) (S : List (Int × Int)) (b1 : Board) : Prop where
  ext : Ext b b1
  sound : ∀ p, b1.visAt p ≠ b.visAt p → ∃ s ∈ S, b.Reach s p
  start : ∀ s ∈ S, ¬ b1.Open s
  closed : Closed b b1

/-- Every in-bounds non-mine cell holds a value in 0..8. -/
def DigitOk (b : Board) : Prop :=
  ∀ p, b.isValid p.1 p.2 = true → b.mineAt p ≠ -1 → 0 ≤ b.mineAt p ∧ b.mineAt p ≤ 8

end Board

/-- A call the session loop can make on the board. -/
inductive Op where
  | mark (row col : Int) : Op
  | input (row col : Int) : Op
deriving DecidableEq, Repr

/-- The board after one call. -/
def Board.applyOp (b : Board) : Op → Option Board
  | Op.mark row col => some (b.playerMarkMine row col)
  | Op.input row col => (b.playerInput row col).map fun r => r.board

/-- The board after a sequence of calls, made in order. -/
def Board.run (b : Board) : List Op → Option Board
  | [] => some b
  | op :: ops => (b.applyOp op).bind fun b1 => b1.run ops

/-- The nine positions visited by the loops of `placeMineHere`, in loop order. -/
def block (row col : Int) : List (Int × Int) :=
  [(row - 1, col - 1), (row - 1, col), (row - 1, col + 1), (row, col - 1), (row, col),
   (row, col + 1), (row + 1, col - 1), (row + 1, col), (row + 1, col + 1)]

/-- The function `incrementCount` applied to a list of positions in turn. -/
def Board.incAll (ps : List (Int × Int)) (b : Board) : Board :=
  ps.foldl (fun acc p => acc.incrementCount p.1 p.2) b

/-- The bookkeeping invariant of a game on the MineGrid `M` of side `n`: the grids keep
their shape and content, and the counter plus the number of marked mines is the number of
mines. -/
def Board.Tracked (M : Grid) (n : Int) (b : Board) : Prop :=
  b._side = n ∧ b._mine_board = M ∧
    (∀ x y, b.isValid x y = true → b._board.InRange x y) ∧
    b._mines + (b.markedMines : Int) = (b.mineCount : Int) ∧ (b.mineCount : Int) ≤ 2147483647

/-- The 3 x 3 board with one mine in the corner (0,0). -/
def corner : Board := (Board.blank 3 1).placeMineHere 0 0

/-- Draws for a beginner board: the second pair repeats the first and is rejected. -/
def beginnerDraws : List Int :=
  [0, 0, 0, 0, 1, 1, 2, 2, 3, 3, 4, 4, 5, 5, 6, 6, 7, 7, 8, 8, 0, 8]

/-- The beginner board constructed from `beginnerDraws`. -/
def beginnerBoard : Board :=
  { _side := 9, _mines := 10,
    _mine_board :=
      [[-1, 2, 1, 0, 0, 0, 0, 1, -1],
       [2, -1, 2, 1, 0, 0, 0, 1, 1],
       [1, 2, -1, 2, 1, 0, 0, 0, 0],
       [0, 1, 2, -1, 2, 1, 0, 0, 0],
       [0, 0, 1, 2, -1, 2, 1, 0, 0],
       [0, 0, 0, 1, 2, -1, 2, 1, 0],
       [0, 0, 0, 0, 1, 2, -1, 2, 1],
       [0, 0, 0, 0, 0, 1, 2, -1, 2],
       [0, 0, 0, 0, 0, 0, 1, 2, -1]],
    _board := Grid.fill 9 chHidden }

/-- The 3 x 3 board with one mine in the middle. -/
def demo : Board :=
  (Board.blank 3 1).placeMineHere 1 1


/-- The function `placeMineHere` applied to a list of cells in turn, first cell first. -/
def Board.placeAll (cells : List (Int × Int)) (b : Board) : Board :=
  cells.foldl (fun acc p => acc.placeMineHere p.1 p.2) b

/-- The display invariant of a game on the MineGrid `M` of side `n`: the grids keep their
shape and content, and every in-bounds VisibleGrid cell is hidden, marked, or the digit of
the count of a non-mine cell. -/
def Board.Shown (M : Grid) (n : Int) (b : Board) : Prop :=
  b._side = n ∧ b._mine_board = M ∧ b._board.Square n ∧
    ∀ p : Int × Int, b.isValid p.1 p.2 = true →
      b.visAt p = chHidden ∨ b.visAt p = chMarked ∨
        (b.mineAt p ≠ -1 ∧ 0 ≤ b.mineAt p ∧ b.mineAt p ≤ 8 ∧ b.visAt p = chZero + b.mineAt p)

/-! Logged operations: every indexing of a grid is recorded -/

/-- One indexing of a grid: which grid, read or write, and at which position. -/
inductive Access where
  | readMine (p : Int × Int) : Access
  | writeMine (p : Int × Int) : Access
  | readVis (p : Int × Int) : Access
  | writeVis (p : Int × Int) : Access
deriving DecidableEq, Repr

/-- The position an access indexes. -/
def Access.pos : Access → Int × Int
  | Access.readMine p => p
  | Access.writeMine p => p
  | Access.readVis p => p
  | Access.writeVis p => p

/-- The positions a log writes in VisibleGrid, in order. -/
def visWrites : List Access → List (Int × Int)
  | [] => []
  | Access.writeVis p :: rest => p :: visWrites rest
  | Access.readMine _ :: rest => visWrites rest
  | Access.writeMine _ :: rest => visWrites rest
  | Access.readVis _ :: rest => visWrites rest

namespace Board

/-- The function `Board::revealMineCountNearInput` with a bound on the recursion depth, as
`revealAux`, returning also the log of its grid accesses.  The `||` of the guard evaluates
left to right and stops at the first true operand. -/
def revealLog : Nat → Board → Int → Int → Option (Board × List Access)
  | 0, _, _, _ => none
  | fuel + 1, b, row, col =>
      if !b.isValid row col then some (b, [])
      else if b._mine_board.get row col = -1 then some (b, [Access.readMine (row, col)])
      else if b._board.get row col ≠ chHidden then
        some (b, [Access.readMine (row, col), Access.readVis (row, col)])
      else if b._mine_board.get row col ≠ 0 then
        some ({ b with _board := b._board.set row col (wrapChar (chZero + b._mine_board.get row col)) },
          [Access.readMine (row, col), Access.readVis (row, col), Access.readMine (row, col),
           Access.readMine (row, col), Access.writeVis (row, col)])
      else
        let b0 : Board := { b with _board := b._board.set row col chZero }
        match revealLog fuel b0 (row + 1) col with
        | none => none
        | some (b1, l1) =>
          match revealLog fuel b1 row (col + 1) with
          | none => none
          | some (b2, l2) =>
            match revealLog fuel b2 (row - 1) col with
            | none => none
            | some (b3, l3) =>
              match revealLog fuel b3 row (col - 1) with
              | none => none
              | some (b4, l4) =>
                some (b4, [Access.readMine (row, col), Access.readVis (row, col),
                  Access.readMine (row, col), Access.writeVis (row, col)] ++ l1 ++ l2 ++ l3 ++ l4)

/-- The function `Board::revealMineCountNearInput` with its access log. -/
def revealMineCountNearInputLog (b : Board) (row col : Int) : Option (Board × List Access) :=
  revealLog (b.hiddenCount + 1) b row col

/-- Every write of the flood fill shows: no in-bounds non-mine value `v` has
`'0' + v = '-'`.  Counts in 0..8 are such values. -/
def WritesReveal (b : Board) : Prop :=
  ∀ p : Int × Int, b.isValid p.1 p.2 = true → b.mineAt p ≠ -1 →
    wrapChar (chZero + b.mineAt p) ≠ chHidden

/-- What a logged run of the flood fill from `b` to `b1` satisfies. -/
structure LogOk (b b1 : Board) (log : List Access) : Prop where
  ext : Ext b b1
  valid : ∀ a ∈ log, b.isValid a.pos.1 a.pos.2 = true
  wasOpen : ∀ p ∈ visWrites log, b.Open p
  once : b.WritesReveal → (visWrites log).Nodup ∧ ∀ p ∈ visWrites log, ¬ b1.Open p

end Board

/-- A 2 x 2 board whose MineGrid holds the value -3 at (0,1), for which `'0' + (-3)` is
`'-'`. -/
def dashBoard : Board :=
  { _side := 2, _mines := 0, _mine_board := [[0, -3], [0, 0]], _board := Grid.fill 2 chHidden }

namespace Board

/-- The function `Board::incrementCount` with its access log.  The `&&` reads the cell only
when `isValid` is true; `++` reads and writes it. -/
def incrementCountLog (b : Board) (row col : Int) : Board × List Access :=
  if b.isValid row col then
    if b._mine_board.get row col != -1 then
      ({ b with _mine_board :=
           b._mine_board.set row col (wrapShort (b._mine_board.get row col + 1)) },
        [Access.readMine (row, col), Access.readMine (row, col), Access.writeMine (row, col)])
    else (b, [Access.readMine (row, col)])
  else (b, [])

/-- The function `Board::placeMineHere` with its access log. -/
def placeMineHereLog (b : Board) (row col : Int) : Board × List Access :=
  let b0 : Board := { b with _mine_board := b._mine_board.set row col (-1) }
  [row - 1, row, row + 1].foldl
    (fun acc nrow => [col - 1, col, col + 1].foldl
      (fun acc2 ncol =>
        ((acc2.1.incrementCountLog nrow ncol).1, acc2.2 ++ (acc2.1.incrementCountLog nrow ncol).2))
      acc)
    (b0, [Access.writeMine (row, col)])

/-- The logged `incrementCount` applied to a list of positions in turn. -/
def incAllLog (ps : List (Int × Int)) (acc : Board × List Access) : Board × List Access :=
  ps.foldl
    (fun acc2 q =>
      ((acc2.1.incrementCountLog q.1 q.2).1, acc2.2 ++ (acc2.1.incrementCountLog q.1 q.2).2))
    acc

/-- The function `Board::playerMarkMine` with its access log. -/
def playerMarkMineLog (b : Board) (row col : Int) : Board × List Access :=
  if !b.isValid row col then (b, [])
  else if b._board.get row col = chMarked then
    let b1 : Board := { b with _board := b._board.set row col chHidden }
    if b1._mine_board.get row col = -1 then
      ({ b1 with _mines := wrapInt (b1._mines + 1) },
        [Access.readVis (row, col), Access.writeVis (row, col), Access.readMine (row, col)])
    else (b1, [Access.readVis (row, col), Access.writeVis (row, col), Access.readMine (row, col)])
  else
    let b1 : Board := { b with _board := b._board.set row col chMarked }
    if b1._mine_board.get row col = -1 then
      ({ b1 with _mines := wrapInt (b1._mines - 1) },
        [Access.readVis (row, col), Access.writeVis (row, col), Access.readMine (row, col)])
    else (b1, [Access.readVis (row, col), Access.writeVis (row, col), Access.readMine (row, col)])

/-- The function `Board::playerInput` with its access log. -/
def playerInputLog (b : Board) (row col : Int) : Option (InputResult × List Access) :=
  if !b.isValid row col then
    some ({ ret := 0, out := [Board.msgOutOfBounds], board := b }, [])
  else if b._board.get row col = chMarked then
    some ({ ret := 0, out := [Board.msgMarked], board := b }, [Access.readVis (row, col)])
  else if b._mine_board.get row col = -1 then
    some ({ ret := 1, out := [Board.msgMine], board := b },
      [Access.readVis (row, col), Access.readMine (row, col)])
  else
    match b.revealMineCountNearInputLog row col with
    | none => none
    | some (b1, log) =>
      some ({ ret := 0, out := [], board := b1 },
        [Access.readVis (row, col), Access.readMine (row, col)] ++ log)

/-- The position lies in `[0, _side) x [0, _side)`, which is what `isValid` tests. -/
def InGrid (b : Board) (p : Int × Int) : Prop :=
  b.isValid p.1 p.2 = true ∧ (0 ≤ p.1 ∧ p.1 < b._side) ∧ (0 ≤ p.2 ∧ p.2 < b._side)

instance (b : Board) (p : Int × Int) : Decidable (b.InGrid p) := by unfold InGrid; infer_instance

end Board

/-! Grid reads and writes -/

theorem getD_set_list {α : Type} (l : List α) (i j : Nat) (v d : α) :
    (l.set i v).getD j d = if j = i ∧ i < l.length then v else l.getD j d := by
  simp only [List.getD_eq_getElem?_getD, List.getElem?_set]
  by_cases h : i = j
  · subst h
    by_cases h2 : i < l.length
    · simp [h2]
    · have : l[i]? = none := by simp; omega
      simp [h2, this]
  · have : ¬ j = i := fun h' => h h'.symm
    simp [h, this]

theorem Grid.get_set (g : Grid) (r c v x y : Int) :
    (g.set r c v).get x y = if x = r ∧ y = c ∧ g.InRange r c then v else g.get x y := by
  unfold Grid.set Grid.get Grid.InRange
  by_cases hrc : 0 ≤ r ∧ 0 ≤ c
  · by_cases hxy : 0 ≤ x ∧ 0 ≤ y
    · rw [if_pos hrc, if_pos hxy, if_pos hxy, getD_set_list]
      by_cases h1 : x.toNat = r.toNat ∧ r.toNat < List.length g
      · have hx : x = r := by omega
        rw [if_pos h1, getD_set_list]
        subst hx
        by_cases h2 : y.toNat = c.toNat ∧ c.toNat < (List.getD g x.toNat []).length
        · have hy : y = c := by omega
          rw [if_pos h2, if_pos ⟨rfl, hy, hrc.1, hrc.2, h1.2, h2.2⟩]
        · have hn : ¬ (x = x ∧ y = c ∧ 0 ≤ x ∧ 0 ≤ c ∧ x.toNat < List.length g ∧
              c.toNat < (List.getD g x.toNat []).length) := by
            rintro ⟨-, hy, -, -, -, h3⟩
            exact h2 ⟨by rw [hy], h3⟩
          rw [if_neg h2, if_neg hn]
      · have hn : ¬ (x = r ∧ y = c ∧ 0 ≤ r ∧ 0 ≤ c ∧ r.toNat < List.length g ∧
            c.toNat < (List.getD g r.toNat []).length) := by
          rintro ⟨hx, -, -, -, h3, -⟩
          exact h1 ⟨by rw [hx], h3⟩
        rw [if_neg h1, if_neg hn]
    · have hn : ¬ (x = r ∧ y = c ∧ 0 ≤ r ∧ 0 ≤ c ∧ r.toNat < List.length g ∧
          c.toNat < (List.getD g r.toNat []).length) := by
        rintro ⟨hx, hy, -⟩
        exact hxy (by omega)
      rw [if_pos hrc, if_neg hxy, if_neg hxy, if_neg hn]
  · have hn : ¬ (x = r ∧ y = c ∧ 0 ≤ r ∧ 0 ≤ c ∧ r.toNat < List.length g ∧
        c.toNat < (List.getD g r.toNat []).length) := by
      rintro ⟨-, -, h1, h2, -⟩
      exact hrc ⟨h1, h2⟩
    rw [if_neg hrc, if_neg hn]

theorem Grid.get_ne_zero {g : Grid} {x y : Int} (h : g.get x y ≠ 0) : g.InRange x y := by
  unfold Grid.get at h
  unfold Grid.InRange
  by_cases hxy : 0 ≤ x ∧ 0 ≤ y
  · rw [if_pos hxy] at h
    refine ⟨hxy.1, hxy.2, ?_, ?_⟩
    · by_contra hlt
      apply h
      have : List.getD g x.toNat [] = [] := by
        rw [List.getD_eq_getElem?_getD, List.getElem?_eq_none (by omega)]; rfl
      rw [this]; rfl
    · by_contra hlt
      apply h
      rw [List.getD_eq_getElem?_getD, List.getElem?_eq_none (by omega)]; rfl
  · rw [if_neg hxy] at h
    exact absurd rfl h

theorem Grid.length_set (g : Grid) (r c v : Int) : List.length (g.set r c v) = List.length g := by
  unfold Grid.set
  split <;> simp

theorem Grid.inRange_set (g : Grid) (r c v x y : Int) :
    (g.set r c v).InRange x y ↔ g.InRange x y := by
  unfold Grid.InRange
  rw [Grid.length_set]
  have key : (List.getD (g.set r c v) x.toNat []).length = (List.getD g x.toNat []).length := by
    unfold Grid.set
    by_cases hrc : 0 ≤ r ∧ 0 ≤ c
    · rw [if_pos hrc, getD_set_list]
      by_cases h1 : x.toNat = r.toNat ∧ r.toNat < List.length g
      · rw [if_pos h1, List.length_set, h1.1]
      · rw [if_neg h1]
    · rw [if_neg hrc]
  rw [key]

theorem Grid.square_set {g : Grid} {n : Int} (h : g.Square n) (r c v : Int) :
    (g.set r c v).Square n := by
  obtain ⟨h0, h1, h2⟩ := h
  refine ⟨h0, by rw [Grid.length_set, h1], ?_⟩
  intro row hrow
  unfold Grid.set at hrow
  by_cases hrc : 0 ≤ r ∧ 0 ≤ c
  · rw [if_pos hrc] at hrow
    by_cases hlt : r.toNat < List.length g
    · rcases List.mem_or_eq_of_mem_set hrow with hm | he
      · exact h2 row hm
      · rw [he, List.length_set]
        apply h2
        rw [List.getD_eq_getElem?_getD, List.getElem?_eq_getElem hlt]
        exact List.getElem_mem hlt
    · rw [List.set_eq_of_length_le (by omega)] at hrow
      exact h2 row hrow
  · rw [if_neg hrc] at hrow
    exact h2 row hrow

theorem Grid.inRange_of_square {g : Grid} {n : Int} (h : g.Square n) (x y : Int) :
    g.InRange x y ↔ 0 ≤ x ∧ 0 ≤ y ∧ x < n ∧ y < n := by
  obtain ⟨h0, h1, h2⟩ := h
  unfold Grid.InRange
  rw [h1]
  constructor
  · rintro ⟨hx, hy, hxn, hyn⟩
    have hlt : x.toNat < List.length g := by omega
    have hm : List.getD g x.toNat [] ∈ g := by
      rw [List.getD_eq_getElem?_getD, List.getElem?_eq_getElem hlt]
      exact List.getElem_mem hlt
    rw [h2 _ hm] at hyn
    omega
  · rintro ⟨hx, hy, hxn, hyn⟩
    have hlt : x.toNat < List.length g := by omega
    have hm : List.getD g x.toNat [] ∈ g := by
      rw [List.getD_eq_getElem?_getD, List.getElem?_eq_getElem hlt]
      exact List.getElem_mem hlt
    rw [h2 _ hm]
    omega

theorem Grid.square_fill (n v : Int) (hn : 0 ≤ n) : (Grid.fill n v).Square n := by
  refine ⟨hn, by simp [Grid.fill], ?_⟩
  intro r hr
  unfold Grid.fill at hr
  rw [List.eq_of_mem_replicate hr]
  simp

theorem Grid.get_fill (n v x y : Int) :
    (Grid.fill n v).get x y = if 0 ≤ x ∧ 0 ≤ y ∧ x < n ∧ y < n then v else 0 := by
  unfold Grid.get Grid.fill
  by_cases hxy : 0 ≤ x ∧ 0 ≤ y
  · rw [if_pos hxy]
    simp only [List.getD_eq_getElem?_getD, List.getElem?_replicate]
    by_cases hx : x.toNat < n.toNat
    · by_cases hy : y.toNat < n.toNat
      · have : 0 ≤ x ∧ 0 ≤ y ∧ x < n ∧ y < n := by omega
        simp [hx, hy, this]
      · have : ¬ (0 ≤ x ∧ 0 ≤ y ∧ x < n ∧ y < n) := by omega
        simp [hx, hy, this, List.getElem?_replicate]
    · have : ¬ (0 ≤ x ∧ 0 ≤ y ∧ x < n ∧ y < n) := by omega
      simp [hx, this]
  · have : ¬ (0 ≤ x ∧ 0 ≤ y ∧ x < n ∧ y < n) := by omega
    rw [if_neg hxy, if_neg this]

theorem mem_cellList (n : Int) (p : Int × Int) :
    p ∈ cellList n ↔ 0 ≤ p.1 ∧ 0 ≤ p.2 ∧ p.1 < n ∧ p.2 < n := by
  obtain ⟨x, y⟩ := p
  unfold cellList
  simp only [List.mem_flatMap, List.mem_range, List.mem_map, Prod.mk.injEq]
  constructor
  · rintro ⟨a, ha, b, hb, rfl, rfl⟩
    omega
  · rintro ⟨hx, hy, hxn, hyn⟩
    exact ⟨x.toNat, by omega, y.toNat, by omega, by omega, by omega⟩

theorem nodup_cellList (n : Int) : (cellList n).Nodup := by
  unfold cellList
  rw [List.nodup_flatMap]
  constructor
  · intro r _
    apply List.Nodup.map _ (List.nodup_range _)
    intro a b hab
    simpa using hab
  · apply List.Pairwise.imp _ (List.nodup_range n.toNat)
    intro a b hab
    simp only [Function.onFun, List.disjoint_left, List.mem_map, List.mem_range]
    rintro p ⟨c, _, rfl⟩ ⟨d, _, h⟩
    simp only [Prod.mk.injEq, Nat.cast_inj] at h
    exact hab h.1.symm

/-! Placing mines -/

namespace Board

theorem isValid_iff (b : Board) (row col : Int) :
    b.isValid row col = true ↔ 0 ≤ row ∧ 0 ≤ col ∧ row < b._side ∧ col < b._side := by
  unfold isValid
  simp only [Bool.and_eq_true, decide_eq_true_eq, ge_iff_le]
  tauto

theorem mem_cellList_iff (b : Board) (p : Int × Int) :
    p ∈ cellList b._side ↔ b.isValid p.1 p.2 = true := by
  rw [mem_cellList, isValid_iff]

theorem placeMineHere_eq (b : Board) (row col : Int) :
    b.placeMineHere row col =
      incAll (block row col) { b with _mine_board := b._mine_board.set row col (-1) } := rfl

theorem incrementCount_side (b : Board) (row col : Int) :
    (b.incrementCount row col)._side = b._side := by
  unfold incrementCount; split <;> rfl

theorem incrementCount_mines (b : Board) (row col : Int) :
    (b.incrementCount row col)._mines = b._mines := by
  unfold incrementCount; split <;> rfl

theorem incrementCount_board (b : Board) (row col : Int) :
    (b.incrementCount row col)._board = b._board := by
  unfold incrementCount; split <;> rfl

theorem incrementCount_square (b : Board) (row col : Int) (h : b._mine_board.Square b._side) :
    (b.incrementCount row col)._mine_board.Square (b.incrementCount row col)._side := by
  rw [incrementCount_side]
  unfold incrementCount
  split
  · exact Grid.square_set h _ _ _
  · exact h

theorem incrementCount_mineAt (b : Board) (row col : Int) (h : b._mine_board.Square b._side)
    (p : Int × Int) :
    (b.incrementCount row col).mineAt p =
      if p = (row, col) ∧ b.isValid row col = true ∧ b.mineAt p ≠ -1 then
        wrapShort (b.mineAt p + 1)
      else b.mineAt p := by
  obtain ⟨x, y⟩ := p
  unfold incrementCount mineAt
  by_cases hc : (b.isValid row col && b._mine_board.get row col != -1) = true
  · rw [if_pos hc]
    simp only [Bool.and_eq_true, bne_iff_ne, ne_eq] at hc
    simp only [Grid.get_set, Prod.mk.injEq]
    have hr : b._mine_board.InRange row col :=
      (Grid.inRange_of_square h row col).2 ((isValid_iff b row col).1 hc.1)
    by_cases hxy : x = row ∧ y = col
    · obtain ⟨rfl, rfl⟩ := hxy
      rw [if_pos ⟨rfl, rfl, hr⟩, if_pos ⟨⟨rfl, rfl⟩, hc.1, hc.2⟩]
    · rw [if_neg (fun h' => hxy ⟨h'.1, h'.2.1⟩), if_neg (fun h' => hxy h'.1)]
  · rw [if_neg hc]
    simp only [Bool.and_eq_true, bne_iff_ne, ne_eq, not_and, not_not] at hc
    by_cases hxy : x = row ∧ y = col
    · obtain ⟨rfl, rfl⟩ := hxy
      rw [if_neg]
      rintro ⟨-, hv, hm⟩
      exact hm (hc hv)
    · rw [if_neg (fun h' => hxy (by simpa using h'.1))]

theorem incAll_side (ps : List (Int × Int)) (b : Board) : (incAll ps b)._side = b._side := by
  induction ps generalizing b with
  | nil => rfl
  | cons q qs ih =>
    show (incAll qs (b.incrementCount q.1 q.2))._side = _
    rw [ih, incrementCount_side]

theorem incAll_mines (ps : List (Int × Int)) (b : Board) : (incAll ps b)._mines = b._mines := by
  induction ps generalizing b with
  | nil => rfl
  | cons q qs ih =>
    show (incAll qs (b.incrementCount q.1 q.2))._mines = _
    rw [ih, incrementCount_mines]

theorem incAll_board (ps : List (Int × Int)) (b : Board) : (incAll ps b)._board = b._board := by
  induction ps generalizing b with
  | nil => rfl
  | cons q qs ih =>
    show (incAll qs (b.incrementCount q.1 q.2))._board = _
    rw [ih, incrementCount_board]

theorem incAll_square (ps : List (Int × Int)) (b : Board) (h : b._mine_board.Square b._side) :
    (incAll ps b)._mine_board.Square b._side := by
  induction ps generalizing b with
  | nil => exact h
  | cons q qs ih =>
    show (incAll qs (b.incrementCount q.1 q.2))._mine_board.Square _
    have := ih (b.incrementCount q.1 q.2) (incrementCount_square b q.1 q.2 h)
    rwa [incrementCount_side] at this

theorem isValid_congr {b b' : Board} (h : b'._side = b._side) (row col : Int) :
    b'.isValid row col = b.isValid row col := by
  unfold isValid; rw [h]

theorem incAll_mineAt (ps : List (Int × Int)) (hnd : ps.Nodup) (b : Board)
    (h : b._mine_board.Square b._side) (p : Int × Int) :
    (incAll ps b).mineAt p =
      if p ∈ ps ∧ b.isValid p.1 p.2 = true ∧ b.mineAt p ≠ -1 then wrapShort (b.mineAt p + 1)
      else b.mineAt p := by
  induction ps generalizing b with
  | nil => simp [incAll]
  | cons q qs ih =>
    obtain ⟨hq, hqs⟩ := List.nodup_cons.1 hnd
    show (incAll qs (b.incrementCount q.1 q.2)).mineAt p = _
    rw [ih hqs _ (incrementCount_square b q.1 q.2 h), incrementCount_mineAt b q.1 q.2 h,
      isValid_congr (incrementCount_side b q.1 q.2)]
    by_cases hpq : p = q
    · subst hpq
      by_cases hv : b.isValid p.1 p.2 = true ∧ b.mineAt p ≠ -1
      · rw [if_neg (fun h' => hq h'.1), if_pos ⟨rfl, hv⟩, if_pos ⟨List.mem_cons_self _ _, hv⟩]
      · rw [if_neg (fun h' => hq h'.1), if_neg (fun h' => hv h'.2), if_neg (fun h' => hv h'.2)]
    · have e1 : ¬ (p = (q.1, q.2) ∧ b.isValid q.1 q.2 = true ∧ b.mineAt p ≠ -1) :=
        fun h' => hpq h'.1
      rw [if_neg e1]
      by_cases hm : p ∈ qs ∧ b.isValid p.1 p.2 = true ∧ b.mineAt p ≠ -1
      · rw [if_pos hm, if_pos ⟨List.mem_cons_of_mem _ hm.1, hm.2⟩]
      · rw [if_neg hm, if_neg]
        rintro ⟨hmem, hrest⟩
        rcases List.mem_cons.1 hmem with h1 | h1
        · exact hpq h1
        · exact hm ⟨h1, hrest⟩

theorem nodup_block (row col : Int) : (block row col).Nodup := by
  unfold block
  simp only [List.nodup_cons, List.mem_cons, Prod.mk.injEq, List.mem_singleton, List.not_mem_nil,
    List.nodup_nil, not_or, not_and, not_false_eq_true, and_true, or_false]
  omega

theorem mem_block (row col : Int) (p : Int × Int) :
    p ∈ block row col ↔
      row - 1 ≤ p.1 ∧ p.1 ≤ row + 1 ∧ col - 1 ≤ p.2 ∧ p.2 ≤ col + 1 := by
  obtain ⟨x, y⟩ := p
  unfold block
  simp only [List.mem_cons, Prod.mk.injEq, List.mem_singleton, List.not_mem_nil, or_false]
  omega

theorem placeMineHere_side (b : Board) (row col : Int) :
    (b.placeMineHere row col)._side = b._side := by
  rw [placeMineHere_eq, incAll_side]

theorem placeMineHere_mines (b : Board) (row col : Int) :
    (b.placeMineHere row col)._mines = b._mines := by
  rw [placeMineHere_eq, incAll_mines]

theorem placeMineHere_board (b : Board) (row col : Int) :
    (b.placeMineHere row col)._board = b._board := by
  rw [placeMineHere_eq, incAll_board]

theorem placeMineHere_square (b : Board) (row col : Int) (h : b._mine_board.Square b._side) :
    (b.placeMineHere row col)._mine_board.Square b._side := by
  rw [placeMineHere_eq]
  exact incAll_square _ _ (Grid.square_set h _ _ _)

/-- Cell by cell, `placeMineHere` writes `-1` at the target and adds one to every other
in-bounds non-mine cell of the surrounding 3 x 3 block. -/
theorem placeMineHere_mineAt (b : Board) (row col : Int) (h : b._mine_board.Square b._side)
    (hv : b.isValid row col = true) (p : Int × Int) :
    (b.placeMineHere row col).mineAt p =
      if p = (row, col) then -1
      else if p ∈ block row col ∧ b.isValid p.1 p.2 = true ∧ b.mineAt p ≠ -1 then
        wrapShort (b.mineAt p + 1)
      else b.mineAt p := by
  rw [placeMineHere_eq, incAll_mineAt _ (nodup_block row col) _ (Grid.square_set h _ _ _)]
  have hr : b._mine_board.InRange row col :=
    (Grid.inRange_of_square h row col).2 ((isValid_iff b row col).1 hv)
  have e0 : ∀ q : Int × Int,
      mineAt { b with _mine_board := b._mine_board.set row col (-1) } q =
        if q = (row, col) then -1 else b.mineAt q := by
    intro q
    obtain ⟨x, y⟩ := q
    unfold mineAt
    simp only [Grid.get_set, Prod.mk.injEq]
    by_cases hxy : x = row ∧ y = col
    · rw [if_pos ⟨hxy.1, hxy.2, hr⟩, if_pos hxy]
    · rw [if_neg (fun h' => hxy ⟨h'.1, h'.2.1⟩), if_neg hxy]
  have e1 : isValid { b with _mine_board := b._mine_board.set row col (-1) } p.1 p.2 =
      b.isValid p.1 p.2 := rfl
  rw [e0, e1]
  by_cases hp : p = (row, col)
  · simp [hp]
  · simp only [hp, if_false]

theorem countP_same {α : Type} (L : List α) (P P' : α → Bool)
    (h : ∀ q ∈ L, P' q = P q) : L.countP P' = L.countP P := by
  induction L with
  | nil => simp
  | cons x xs ih =>
    rw [List.countP_cons, List.countP_cons, ih (fun q hq => h q (List.mem_cons_of_mem _ hq)),
      h x (List.mem_cons_self _ _)]

theorem countP_add_point {α : Type} (L : List α) (hnd : L.Nodup)
    (P P' : α → Bool) (a : α) (hmem : a ∈ L) (ha : P a = false) (ha' : P' a = true)
    (h : ∀ q ∈ L, q ≠ a → P' q = P q) :
    L.countP P' = L.countP P + 1 := by
  induction L with
  | nil => simp at hmem
  | cons x xs ih =>
    obtain ⟨hx, hxs⟩ := List.nodup_cons.1 hnd
    rw [List.countP_cons, List.countP_cons]
    rcases List.mem_cons.1 hmem with hax | hax
    · subst hax
      rw [countP_same xs P P' (fun q hq => h q (List.mem_cons_of_mem _ hq)
        (fun hqa => hx (hqa ▸ hq)))]
      simp [ha, ha']
    · have hxa : x ≠ a := fun hxa => hx (hxa ▸ hax)
      rw [ih hxs hax (fun q hq => h q (List.mem_cons_of_mem _ hq)),
        h x (List.mem_cons_self _ _) hxa]
      omega

theorem nodup_neighbours (row col : Int) : (neighbours row col).Nodup := by
  unfold neighbours
  simp only [List.nodup_cons, List.mem_cons, Prod.mk.injEq, List.mem_singleton, List.not_mem_nil,
    List.nodup_nil, not_or, not_and, not_false_eq_true, and_true, or_false]
  omega

theorem mem_neighbours (row col : Int) (p : Int × Int) :
    p ∈ neighbours row col ↔
      row - 1 ≤ p.1 ∧ p.1 ≤ row + 1 ∧ col - 1 ≤ p.2 ∧ p.2 ≤ col + 1 ∧ p ≠ (row, col) := by
  obtain ⟨x, y⟩ := p
  unfold neighbours
  simp only [List.mem_cons, Prod.mk.injEq, List.mem_singleton, List.not_mem_nil, or_false, ne_eq,
    not_and]
  omega

theorem mineNeighbours_le (b : Board) (row col : Int) : b.mineNeighbours row col ≤ 8 := by
  unfold mineNeighbours
  exact le_trans (List.countP_le_length _) (by simp [neighbours])

theorem consistent_iff (b : Board) :
    b.Consistent ↔ ∀ row col, b.isValid row col = true → b.mineAt (row, col) ≠ -1 →
      b.mineAt (row, col) = (b.mineNeighbours row col : Int) := by
  unfold Consistent
  constructor
  · intro h row col hv hm
    exact h (row, col) ((mem_cellList_iff b _).2 hv) hm
  · intro h p hp hm
    exact h p.1 p.2 ((mem_cellList_iff b _).1 hp) hm

theorem wrapShort_small (v : Int) (h0 : -32768 ≤ v) (h1 : v ≤ 32767) : wrapShort v = v := by
  unfold wrapShort; omega

/-- After `placeMineHere` on an in-bounds non-mine cell of a consistent grid, the mines are
the old mines and the new one. -/
theorem placeMineHere_mine_iff (b : Board) (row col : Int) (hs : b._mine_board.Square b._side)
    (hc : b.Consistent) (hv : b.isValid row col = true) (q : Int × Int)
    (hq : b.isValid q.1 q.2 = true) :
    (b.placeMineHere row col).mineAt q = -1 ↔ q = (row, col) ∨ b.mineAt q = -1 := by
  rw [placeMineHere_mineAt b row col hs hv]
  by_cases h1 : q = (row, col)
  · simp [h1]
  · rw [if_neg h1]
    by_cases h2 : b.mineAt q = -1
    · simp [h2]
    · have hb := (consistent_iff b).1 hc q.1 q.2 hq h2
      have hle := mineNeighbours_le b q.1 q.2
      have hq' : b.mineAt q = (b.mineNeighbours q.1 q.2 : Int) := hb
      by_cases h3 : q ∈ block row col
      · rw [if_pos ⟨h3, hq, h2⟩, wrapShort_small _ (by omega) (by omega)]
        constructor
        · intro h; omega
        · rintro (h | h)
          · exact absurd h h1
          · exact absurd h h2
      · rw [if_neg (fun h' => h3 h'.1)]
        simp [h1, h2]

theorem placeMineHere_mineNeighbours (b : Board) (row col : Int)
    (hs : b._mine_board.Square b._side) (hc : b.Consistent) (hv : b.isValid row col = true)
    (hm : b.mineAt (row, col) ≠ -1) (x y : Int) :
    (b.placeMineHere row col).mineNeighbours x y =
      b.mineNeighbours x y + if (row, col) ∈ neighbours x y then 1 else 0 := by
  unfold mineNeighbours
  have hq : ∀ q : Int × Int, q ≠ (row, col) →
      ((b.placeMineHere row col).isValid q.1 q.2 &&
        decide ((b.placeMineHere row col).mineAt q = -1)) =
      (b.isValid q.1 q.2 && decide (b.mineAt q = -1)) := by
    intro q hne
    rw [isValid_congr (placeMineHere_side b row col)]
    by_cases hq : b.isValid q.1 q.2 = true
    · have := placeMineHere_mine_iff b row col hs hc hv q hq
      rw [hq, Bool.true_and, Bool.true_and, decide_eq_decide, this]
      simp [hne]
    · simp [hq]
  by_cases hmem : (row, col) ∈ neighbours x y
  · rw [if_pos hmem]
    apply countP_add_point _ (nodup_neighbours x y) _ _ (row, col) hmem
    · simp [hm]
    · have := (placeMineHere_mine_iff b row col hs hc hv (row, col) hv).2 (Or.inl rfl)
      rw [isValid_congr (placeMineHere_side b row col)]
      simp [hv, this]
    · intro q _ hne
      exact hq q hne
  · rw [if_neg hmem, Nat.add_zero]
    apply countP_same
    intro q hqm
    exact hq q (fun h => hmem (h ▸ hqm))

theorem placeMineHere_consistent (b : Board) (row col : Int)
    (hs : b._mine_board.Square b._side) (hc : b.Consistent) (hv : b.isValid row col = true)
    (hm : b.mineAt (row, col) ≠ -1) : (b.placeMineHere row col).Consistent := by
  rw [consistent_iff]
  intro x y hxy hne
  rw [isValid_congr (placeMineHere_side b row col)] at hxy
  have hiff := placeMineHere_mine_iff b row col hs hc hv (x, y) hxy
  have h1 : (x, y) ≠ (row, col) := fun h => hne (hiff.2 (Or.inl h))
  have h2 : b.mineAt (x, y) ≠ -1 := fun h => hne (hiff.2 (Or.inr h))
  have hb := (consistent_iff b).1 hc x y hxy h2
  have hle := mineNeighbours_le b x y
  rw [placeMineHere_mineNeighbours b row col hs hc hv hm, placeMineHere_mineAt b row col hs hv,
    if_neg h1]
  have hmem : (row, col) ∈ neighbours x y ↔ (x, y) ∈ block row col := by
    rw [mem_neighbours, mem_block]
    constructor
    · rintro ⟨a, b', c, d, -⟩
      simp only at a b' c d ⊢
      omega
    · rintro ⟨a, b', c, d⟩
      simp only at a b' c d ⊢
      refine ⟨by omega, by omega, by omega, by omega, fun h => h1 h.symm⟩
  by_cases h3 : (x, y) ∈ block row col
  · rw [if_pos ⟨h3, hxy, h2⟩, if_pos (hmem.2 h3), wrapShort_small _ (by omega) (by omega), hb]
    push_cast; rfl
  · rw [if_neg (fun h' => h3 h'.1), if_neg (fun h' => h3 (hmem.1 h')), hb]
    simp

theorem placeMineHere_mineCount (b : Board) (row col : Int)
    (hs : b._mine_board.Square b._side) (hc : b.Consistent) (hv : b.isValid row col = true)
    (hm : b.mineAt (row, col) ≠ -1) : (b.placeMineHere row col).mineCount = b.mineCount + 1 := by
  unfold mineCount
  rw [placeMineHere_side]
  have hin : (row, col) ∈ cellList b._side := (mem_cellList_iff b _).2 hv
  apply countP_add_point _ (nodup_cellList _) _ _ (row, col) hin
  · simpa using hm
  · simpa using (placeMineHere_mine_iff b row col hs hc hv (row, col) hv).2 (Or.inl rfl)
  · intro q hq hne
    rw [decide_eq_decide, placeMineHere_mine_iff b row col hs hc hv q ((mem_cellList_iff b _).1 hq)]
    simp [hne]

theorem map_getD_range {α : Type} (l : List α) (d : α) :
    (List.range l.length).map (fun i => l.getD i d) = l := by
  apply List.ext_getElem
  · simp
  · intro i h1 h2
    simp [List.getD_eq_getElem?_getD, List.getElem?_eq_getElem h2]

/-- On a square MineGrid the in-bounds mine positions are the stored `-1` entries. -/
theorem mineCount_eq_storedMines (b : Board) (h : b._mine_board.Square b._side) :
    b.mineCount = b.storedMines := by
  obtain ⟨h0, h1, h2⟩ := h
  unfold mineCount storedMines cellList
  rw [List.countP_flatMap]
  conv_rhs => rw [← map_getD_range b._mine_board [], List.map_map, h1]
  congr 1
  apply List.map_congr_left
  intro r hr
  rw [List.mem_range] at hr
  have hrow : (List.getD b._mine_board r []).length = b._side.toNat := by
    apply h2
    rw [List.getD_eq_getElem?_getD, List.getElem?_eq_getElem (by omega)]
    exact List.getElem_mem _
  simp only [Function.comp_apply]
  rw [List.countP_map, List.count_eq_countP]
  conv_rhs => rw [← map_getD_range (List.getD b._mine_board r []) 0, List.countP_map, hrow]
  apply countP_same
  intro c _
  simp only [Function.comp_apply, mineAt, Grid.get]
  rw [if_pos ⟨Int.natCast_nonneg r, Int.natCast_nonneg c⟩, Int.toNat_ofNat, Int.toNat_ofNat]
  generalize List.getD (List.getD b._mine_board r []) c 0 = v
  by_cases hv : v = -1
  · rw [hv]; rfl
  · rw [decide_eq_false hv]
    exact (beq_eq_false_iff_ne.2 hv).symm

theorem blank_mineAt (n mines : Int) (p : Int × Int) (hp : (blank n mines).isValid p.1 p.2 = true) :
    (blank n mines).mineAt p = 0 := by
  have := (isValid_iff _ _ _).1 hp
  unfold mineAt blank
  simp only [Grid.get_fill]
  split <;> rfl

theorem blank_consistent (n mines : Int) : (blank n mines).Consistent := by
  rw [consistent_iff]
  intro row col hv _
  rw [blank_mineAt n mines (row, col) hv]
  unfold mineNeighbours
  rw [List.countP_eq_zero.2]
  · rfl
  · intro q _
    by_cases hq : (blank n mines).isValid q.1 q.2 = true
    · simp [blank_mineAt n mines q hq]
    · simp [hq]

theorem blank_mineCount (n mines : Int) : (blank n mines).mineCount = 0 := by
  unfold mineCount
  rw [List.countP_eq_zero]
  intro q hq
  have := blank_mineAt n mines q ((mem_cellList_iff _ _).1 hq)
  simp [this]

/-- What every grid built by `placeMineHere` calls satisfies. -/
theorem Built.inv {n mines : Int} {b : Board} (h : Built n mines b) :
    b._side = n ∧ b._mines = mines ∧ b._board = Grid.fill n chHidden ∧ b.Consistent ∧
      (0 ≤ n → b._mine_board.Square n) := by
  induction h with
  | zero => exact ⟨rfl, rfl, rfl, blank_consistent n mines, fun hn => Grid.square_fill n 0 hn⟩
  | place b row col _ hv hm ih =>
    obtain ⟨h1, h2, h3, h4, h5⟩ := ih
    have hn : 0 ≤ n := by
      have := (isValid_iff _ _ _).1 hv
      omega
    have hs : b._mine_board.Square b._side := h1 ▸ h5 hn
    refine ⟨by rw [placeMineHere_side, h1], by rw [placeMineHere_mines, h2],
      by rw [placeMineHere_board, h3], placeMineHere_consistent b row col hs h4 hv hm, fun _ => ?_⟩
    have := placeMineHere_square b row col hs
    rwa [h1] at this

theorem init_built (difficulty : Int) (b : Board) (h : init difficulty = some b) :
    ∃ side mines, b = blank side mines ∧
      (side, mines) = (if difficulty = 0 then ((9 : Int), (10 : Int))
        else if difficulty = 1 then (16, 40) else (24, 99)) ∧
      (difficulty = 0 ∨ difficulty = 1 ∨ difficulty = 2) := by
  unfold init at h
  by_cases h0 : difficulty = 0
  · subst h0
    exact ⟨9, 10, (Option.some.inj h).symm, rfl, Or.inl rfl⟩
  · by_cases h1 : difficulty = 1
    · subst h1
      exact ⟨16, 40, (Option.some.inj h).symm, rfl, Or.inr (Or.inl rfl)⟩
    · by_cases h2 : difficulty = 2
      · subst h2
        exact ⟨24, 99, (Option.some.inj h).symm, rfl, Or.inr (Or.inr rfl)⟩
      · simp [h0, h1, h2] at h

/-- The placement loop keeps a built grid built, with `i` mines placed so far, and ends
with `_mines` of them. -/
theorem placeLoop_inv (n mines : Int) (draws : List Int) (b : Board) (i : Int) :
    Built n mines b → (b.mineCount : Int) = i → i ≤ mines →
      (∀ x ∈ draws, 0 ≤ x ∧ x ≤ n - 1) → ∀ b', placeLoop draws b i = some b' →
      Built n mines b' ∧ (b'.mineCount : Int) = mines := by
  induction draws, b, i using placeLoop.induct with
  | case1 b i hlt =>
    intro _ _ _ _ b' h
    simp [placeLoop, hlt] at h
  | case2 b i hlt =>
    intro hb hi hle _ b' h
    have hm := hb.inv.2.1
    simp only [placeLoop, hlt, if_false, Option.some.injEq] at h
    subst h
    exact ⟨hb, by omega⟩
  | case3 x b i hlt =>
    intro _ _ _ _ b' h
    simp [placeLoop, hlt] at h
  | case4 x b i hlt =>
    intro hb hi hle _ b' h
    have hm := hb.inv.2.1
    simp only [placeLoop, hlt, if_false, Option.some.injEq] at h
    subst h
    exact ⟨hb, by omega⟩
  | case5 row col rest b i hlt hmine ih =>
    intro hb hi hle hr b' h
    have hm := hb.inv.2.1
    have hrest : ∀ x ∈ rest, 0 ≤ x ∧ x ≤ n - 1 := fun x hx =>
      hr x (List.mem_cons_of_mem _ (List.mem_cons_of_mem _ hx))
    rw [placeLoop, if_pos hlt, if_pos hmine] at h
    exact ih hb (by omega) (by omega) hrest b' h
  | case6 row col rest b i hlt hmine ih =>
    intro hb hi hle hr b' h
    obtain ⟨hside, hm, -, hc, hsq⟩ := hb.inv
    have hrest : ∀ x ∈ rest, 0 ≤ x ∧ x ≤ n - 1 := fun x hx =>
      hr x (List.mem_cons_of_mem _ (List.mem_cons_of_mem _ hx))
    rw [placeLoop, if_pos hlt, if_neg hmine] at h
    have hrow := hr row (List.mem_cons_self _ _)
    have hcol := hr col (List.mem_cons_of_mem _ (List.mem_cons_self _ _))
    have hv : b.isValid row col = true := by
      rw [isValid_iff, hside]; omega
    have hs : b._mine_board.Square b._side := hside ▸ hsq (by omega)
    refine ih (Built.place b row col hb hv hmine) ?_ (by omega) hrest b' h
    rw [placeMineHere_mineCount b row col hs hc hv hmine]
    push_cast; omega
  | case7 row col rest b i hlt =>
    intro hb hi hle _ b' h
    have hm := hb.inv.2.1
    simp only [placeLoop, hlt, if_false, Option.some.injEq] at h
    subst h
    exact ⟨hb, by omega⟩

end Board

/-! The flood fill -/

theorem count_set_row (l : List Int) (j : Nat) (v a : Int) (hj : j < l.length) :
    (l.set j v).count a + (if l.getD j 0 = a then 1 else 0) =
      l.count a + (if v = a then 1 else 0) := by
  induction l generalizing j with
  | nil => simp at hj
  | cons x xs ih =>
    cases j with
    | zero =>
      simp only [List.set_cons_zero, List.count_cons, List.getD_cons_zero, beq_iff_eq]
      omega
    | succ k =>
      have := ih k (by simpa using hj)
      simp only [List.set_cons_succ, List.count_cons, List.getD_cons_succ, beq_iff_eq]
      omega

theorem count_set_grid (g : List (List Int)) (i j : Nat) (v a : Int) (hi : i < g.length)
    (hj : j < (g.getD i []).length) :
    ((g.set i ((g.getD i []).set j v)).map (fun r => r.count a)).sum +
        (if (g.getD i []).getD j 0 = a then 1 else 0) =
      (g.map (fun r => r.count a)).sum + (if v = a then 1 else 0) := by
  induction g generalizing i with
  | nil => simp at hi
  | cons x xs ih =>
    cases i with
    | zero =>
      simp only [List.getD_cons_zero, List.set_cons_zero, List.map_cons, List.sum_cons] at hj ⊢
      have := count_set_row x j v a hj
      omega
    | succ k =>
      simp only [List.getD_cons_succ, List.set_cons_succ, List.map_cons, List.sum_cons] at hj ⊢
      have := ih k (by simpa using hi) hj
      omega

theorem Grid.count_set (g : Grid) (r c v a : Int) (h : g.InRange r c) :
    ((g.set r c v).map (fun row => row.count a)).sum + (if g.get r c = a then 1 else 0) =
      (g.map (fun row => row.count a)).sum + (if v = a then 1 else 0) := by
  obtain ⟨h0, h1, h2, h3⟩ := h
  have h01 : 0 ≤ r ∧ 0 ≤ c := ⟨h0, h1⟩
  unfold Grid.set Grid.get
  rw [if_pos h01, if_pos h01]
  exact count_set_grid g r.toNat c.toNat v a h2 h3

namespace Board

/-- The board after the write `_board[row][col] = v`. -/
theorem visAt_write (b : Board) (p : Int × Int) (v : Int) (hp : b.visAt p ≠ 0) (q : Int × Int) :
    visAt { b with _board := b._board.set p.1 p.2 v } q = if q = p then v else b.visAt q := by
  have hr : b._board.InRange p.1 p.2 := Grid.get_ne_zero hp
  unfold visAt
  simp only [Grid.get_set]
  by_cases hq : q = p
  · subst hq
    rw [if_pos ⟨rfl, rfl, hr⟩, if_pos rfl]
  · rw [if_neg hq, if_neg]
    rintro ⟨h1, h2, -⟩
    exact hq (Prod.ext h1 h2)

theorem hiddenCount_write (b : Board) (p : Int × Int) (v : Int) (hp : b.visAt p = chHidden) :
    hiddenCount { b with _board := b._board.set p.1 p.2 v } + 1 =
      b.hiddenCount + (if v = chHidden then 1 else 0) := by
  have hr : b._board.InRange p.1 p.2 := Grid.get_ne_zero (by rw [show b._board.get p.1 p.2 = chHidden from hp]; decide)
  have := Grid.count_set b._board p.1 p.2 v chHidden hr
  rw [if_pos (show b._board.get p.1 p.2 = chHidden from hp)] at this
  exact this

theorem Ext.refl (b : Board) : Ext b b :=
  ⟨rfl, rfl, rfl, fun _ _ => Iff.rfl, fun _ => Or.inl rfl, le_refl _⟩

theorem Ext.open_mono {b b1 : Board} (h : Ext b b1) {p : Int × Int} (hp : b1.Open p) : b.Open p := by
  obtain ⟨h1, h2, h3⟩ := hp
  rcases h.vis p with hv | hv
  · refine ⟨?_, ?_, ?_⟩
    · rw [← isValid_congr h.side]; exact h1
    · unfold mineAt at h2 ⊢; rw [← h.mine_board]; exact h2
    · rw [← hv]; exact h3
  · exact hv.1

theorem Ext.mineAt_eq {b b1 : Board} (h : Ext b b1) (p : Int × Int) : b1.mineAt p = b.mineAt p := by
  unfold mineAt; rw [h.mine_board]

theorem Ext.trans {b b1 b2 : Board} (h1 : Ext b b1) (h2 : Ext b1 b2) : Ext b b2 := by
  refine ⟨h2.side.trans h1.side, h2.mines.trans h1.mines, h2.mine_board.trans h1.mine_board,
    fun x y => (h2.inRange x y).trans (h1.inRange x y), ?_, le_trans h2.hidden h1.hidden⟩
  intro p
  rcases h2.vis p with hv | ⟨ho, hv⟩
  · rcases h1.vis p with hv1 | hv1
    · exact Or.inl (hv.trans hv1)
    · exact Or.inr ⟨hv1.1, hv.trans hv1.2⟩
  · exact Or.inr ⟨h1.open_mono ho, by rw [hv, h1.mineAt_eq]⟩

/-- Writing the character of its count to an open cell. -/
theorem Ext.write (b : Board) (p : Int × Int) (hp : b.Open p) :
    Ext b { b with _board := b._board.set p.1 p.2 (wrapChar (chZero + b.mineAt p)) } := by
  have hne : b.visAt p ≠ 0 := by rw [hp.2.2]; decide
  refine ⟨rfl, rfl, rfl, fun x y => Grid.inRange_set _ _ _ _ _ _, ?_, ?_⟩
  · intro q
    rw [visAt_write b p _ hne]
    by_cases hq : q = p
    · subst hq
      rw [if_pos rfl]
      exact Or.inr ⟨hp, rfl⟩
    · rw [if_neg hq]
      exact Or.inl rfl
  · have := hiddenCount_write b p (wrapChar (chZero + b.mineAt p)) hp.2.2
    split at this <;> omega

theorem Ext.open_of_same {b b1 : Board} (h : Ext b b1) {p : Int × Int} (hp : b.Open p)
    (hv : b1.visAt p = b.visAt p) : b1.Open p :=
  ⟨by rw [isValid_congr h.side]; exact hp.1, by rw [h.mineAt_eq]; exact hp.2.1,
    by rw [hv]; exact hp.2.2⟩

theorem Ext.digitOk {b b1 : Board} (h : Ext b b1) (hd : b.DigitOk) : b1.DigitOk := by
  intro p hv hm
  rw [h.mineAt_eq] at hm ⊢
  rw [isValid_congr h.side] at hv
  exact hd p hv hm

theorem Reach.mono {b b1 : Board} (h : Ext b b1) {s p : Int × Int} (hr : b1.Reach s p) :
    b.Reach s p := by
  induction hr with
  | here p hp => exact Reach.here p (h.open_mono hp)
  | step p q c hp hz hadj _ ih =>
    exact Reach.step p q c (h.open_mono hp) (by rw [← h.mineAt_eq]; exact hz) hadj ih

theorem Reach.head_open {b : Board} {s p : Int × Int} (hr : b.Reach s p) : b.Open s := by
  cases hr with
  | here _ hp => exact hp
  | step _ _ _ hp _ _ _ => exact hp

theorem Reach.last_open {b : Board} {s p : Int × Int} (hr : b.Reach s p) : b.Open p := by
  induction hr with
  | here _ hp => exact hp
  | step _ _ _ _ _ _ _ ih => exact ih

/-- The relation `Reach` is the existence of a path in the sense of `IsPath`. -/
theorem reach_iff_path (b : Board) (s c : Int × Int) :
    b.Reach s c ↔ ∃ path, b.IsPath s c path := by
  constructor
  · intro h
    induction h with
    | here p hp =>
      exact ⟨[p], rfl, rfl, List.chain'_singleton p, by simpa using hp, by simp⟩
    | step p q c hp hz hadj _ ih =>
      obtain ⟨path, h1, h2, h3, h4, h5⟩ := ih
      cases path with
      | nil => simp at h1
      | cons x xs =>
        simp only [List.head?_cons, Option.some.injEq] at h1
        subst h1
        refine ⟨p :: x :: xs, rfl, ?_, List.Chain'.cons hadj h3, ?_, ?_⟩
        · rw [List.getLast?_cons_cons]; exact h2
        · intro r hr
          rcases List.mem_cons.1 hr with rfl | hr
          · exact hp
          · exact h4 r hr
        · intro r hr
          rw [List.dropLast_cons₂] at hr
          rcases List.mem_cons.1 hr with rfl | hr
          · exact hz
          · exact h5 r hr
  · rintro ⟨path, h⟩
    induction path generalizing s with
    | nil => obtain ⟨h1, -⟩ := h; simp at h1
    | cons x xs ih =>
      obtain ⟨h1, h2, h3, h4, h5⟩ := h
      simp only [List.head?_cons, Option.some.injEq] at h1
      subst h1
      cases xs with
      | nil =>
        simp only [List.getLast?_singleton, Option.some.injEq] at h2
        subst h2
        exact Reach.here x (h4 x (List.mem_cons_self _ _))
      | cons y ys =>
        rw [List.getLast?_cons_cons] at h2
        rw [List.dropLast_cons₂] at h5
        have hadj : Adj x y := (List.chain'_cons.1 h3).1
        have hch : List.Chain' Adj (y :: ys) := (List.chain'_cons.1 h3).2
        exact Reach.step x y c (h4 x (List.mem_cons_self _ _)) (h5 x (List.mem_cons_self _ _))
          hadj (ih y ⟨rfl, h2, hch, fun p hp => h4 p (List.mem_cons_of_mem _ hp),
            fun p hp => h5 p (List.mem_cons_of_mem _ hp)⟩)

theorem MultiOk.nil (b : Board) : MultiOk b [] b :=
  ⟨Ext.refl b, fun _ hp => absurd rfl hp, fun _ hs => absurd hs (List.not_mem_nil _),
    fun _ _ hp hnp _ _ _ => absurd hp hnp⟩

theorem MultiOk.snoc {b b1 b2 : Board} {S : List (Int × Int)} {t : Int × Int}
    (h1 : MultiOk b S b1) (h2 : RevealOk b1 t b2) : MultiOk b (t :: S) b2 := by
  refine ⟨h1.ext.trans h2.ext, ?_, ?_, ?_⟩
  · intro p hp
    by_cases hc : b2.visAt p = b1.visAt p
    · obtain ⟨s, hs, hr⟩ := h1.sound p (by rw [← hc]; exact hp)
      exact ⟨s, List.mem_cons_of_mem _ hs, hr⟩
    · exact ⟨t, List.mem_cons_self _ _, Reach.mono h1.ext (h2.sound p hc)⟩
  · intro s hs
    rcases List.mem_cons.1 hs with rfl | hs
    · exact h2.start
    · exact fun ho => h1.start s hs (h2.ext.open_mono ho)
  · intro p q hp hnp hz hadj hq hq2
    by_cases hp1 : b1.Open p
    · by_cases hq1 : b1.Open q
      · exact h2.closed p q hp1 hnp (by rw [h1.ext.mineAt_eq]; exact hz) hadj hq1 hq2
      · exact hq1 (h2.ext.open_mono hq2)
    · exact h1.closed p q hp hp1 hz hadj hq (h2.ext.open_mono hq2)

theorem wrapChar_digit (v : Int) (h0 : 0 ≤ v) (h8 : v ≤ 8) : wrapChar (chZero + v) = chZero + v := by
  show wrapChar (48 + v) = 48 + v
  unfold wrapChar; omega

theorem revealAux_stop (fuel : Nat) (b : Board) (row col : Int) (h : ¬ b.Open (row, col)) :
    revealAux (fuel + 1) b row col = some b := by
  rw [revealAux, if_pos]
  unfold Open mineAt visAt at h
  simp only [Bool.or_eq_true, Bool.not_eq_true', decide_eq_true_eq]
  by_contra hc
  simp only [not_or, Bool.not_eq_false, ne_eq, not_not] at hc
  exact h ⟨hc.1.1, hc.1.2, hc.2⟩

theorem not_stop_of_open {b : Board} {row col : Int} (h : b.Open (row, col)) :
    ¬ ((!b.isValid row col || decide (b._mine_board.get row col = -1) ||
      decide (b._board.get row col ≠ chHidden)) = true) := by
  obtain ⟨h1, h2, h3⟩ := h
  unfold mineAt at h2
  unfold visAt at h3
  simp only at h1 h2 h3
  simp [h1, h2, h3]

theorem revealAux_nonzero (fuel : Nat) (b : Board) (row col : Int) (h : b.Open (row, col))
    (hz : b.mineAt (row, col) ≠ 0) :
    revealAux (fuel + 1) b row col =
      some { b with _board := b._board.set row col (wrapChar (chZero + b.mineAt (row, col))) } := by
  have hz1 : b._mine_board.get row col ≠ 0 := hz
  rw [revealAux, if_neg (not_stop_of_open h), if_pos hz1]
  rfl

theorem revealAux_zero (fuel : Nat) (b : Board) (row col : Int) (h : b.Open (row, col))
    (hz : b.mineAt (row, col) = 0) :
    revealAux (fuel + 1) b row col =
      (revealAux fuel { b with _board := b._board.set row col chZero } (row + 1) col).bind fun b1 =>
      (revealAux fuel b1 row (col + 1)).bind fun b2 =>
      (revealAux fuel b2 (row - 1) col).bind fun b3 => revealAux fuel b3 row (col - 1) := by
  have hz1 : ¬ b._mine_board.get row col ≠ 0 := not_not.2 hz
  rw [revealAux, if_neg (not_stop_of_open h), if_neg hz1]
  dsimp only
  cases revealAux fuel { b with _board := b._board.set row col chZero } (row + 1) col with
  | none => rfl
  | some b1 =>
    simp only [Option.some_bind, Option.bind_eq_bind]
    cases revealAux fuel b1 row (col + 1) with
    | none => rfl
    | some b2 =>
      simp only [Option.some_bind]
      cases revealAux fuel b2 (row - 1) col with
      | none => rfl
      | some b3 => rfl

theorem Ext.write_zero (b : Board) (p : Int × Int) (hp : b.Open p) (hz : b.mineAt p = 0) :
    Ext b { b with _board := b._board.set p.1 p.2 chZero } := by
  have := Ext.write b p hp
  rw [hz] at this
  exact this

/-- Whatever the budget, a flood-fill call that returns has only overwritten open cells. -/
theorem revealAux_ext : ∀ (fuel : Nat) (b : Board) (row col : Int) (b1 : Board),
    revealAux fuel b row col = some b1 → Ext b b1 := by
  intro fuel
  induction fuel with
  | zero => intro b row col b1 h; simp [revealAux] at h
  | succ f ih =>
    intro b row col b1 h
    by_cases ho : b.Open (row, col)
    · by_cases hz : b.mineAt (row, col) = 0
      · rw [revealAux_zero f b row col ho hz] at h
        obtain ⟨c1, h1, h⟩ := Option.bind_eq_some.1 h
        obtain ⟨c2, h2, h⟩ := Option.bind_eq_some.1 h
        obtain ⟨c3, h3, h4⟩ := Option.bind_eq_some.1 h
        exact (((Ext.write_zero b (row, col) ho hz).trans (ih _ _ _ _ h1)).trans
          (ih _ _ _ _ h2)).trans ((ih _ _ _ _ h3).trans (ih _ _ _ _ h4))
      · rw [revealAux_nonzero f b row col ho hz] at h
        rw [← Option.some.inj h]
        exact Ext.write b (row, col) ho
    · rw [revealAux_stop f b row col ho] at h
      rw [← Option.some.inj h]
      exact Ext.refl b

/-- With enough budget for the hidden cells, a flood-fill call returns. -/
theorem revealAux_total : ∀ (fuel : Nat) (b : Board) (row col : Int),
    b.hiddenCount < fuel → ∃ b1, revealAux fuel b row col = some b1 := by
  intro fuel
  induction fuel with
  | zero => intro b row col h; omega
  | succ f ih =>
    intro b row col hlt
    by_cases ho : b.Open (row, col)
    · by_cases hz : b.mineAt (row, col) = 0
      · rw [revealAux_zero f b row col ho hz]
        have hw := hiddenCount_write b (row, col) chZero ho.2.2
        rw [if_neg (by decide)] at hw
        obtain ⟨c1, h1⟩ := ih { b with _board := b._board.set row col chZero } (row + 1) col
          (by simp only at hw; omega)
        have e1 := (revealAux_ext _ _ _ _ _ h1).hidden
        obtain ⟨c2, h2⟩ := ih c1 row (col + 1) (by simp only at hw; omega)
        have e2 := (revealAux_ext _ _ _ _ _ h2).hidden
        obtain ⟨c3, h3⟩ := ih c2 (row - 1) col (by simp only at hw; omega)
        have e3 := (revealAux_ext _ _ _ _ _ h3).hidden
        obtain ⟨c4, h4⟩ := ih c3 row (col - 1) (by simp only at hw; omega)
        exact ⟨c4, by rw [h1, Option.some_bind, h2, Option.some_bind, h3, Option.some_bind, h4]⟩
      · exact ⟨_, revealAux_nonzero f b row col ho hz⟩
    · exact ⟨_, revealAux_stop f b row col ho⟩

/-- A budget that suffices can be raised without changing the result. -/
theorem revealAux_mono : ∀ (fuel : Nat) (b : Board) (row col : Int) (b1 : Board),
    revealAux fuel b row col = some b1 → ∀ k, revealAux (fuel + k) b row col = some b1 := by
  intro fuel
  induction fuel with
  | zero => intro b row col b1 h; simp [revealAux] at h
  | succ f ih =>
    intro b row col b1 h k
    rw [show f + 1 + k = (f + k) + 1 by omega]
    by_cases ho : b.Open (row, col)
    · by_cases hz : b.mineAt (row, col) = 0
      · rw [revealAux_zero f b row col ho hz] at h
        obtain ⟨c1, h1, h⟩ := Option.bind_eq_some.1 h
        obtain ⟨c2, h2, h⟩ := Option.bind_eq_some.1 h
        obtain ⟨c3, h3, h4⟩ := Option.bind_eq_some.1 h
        rw [revealAux_zero (f + k) b row col ho hz, ih _ _ _ _ h1 k, Option.some_bind,
          ih _ _ _ _ h2 k, Option.some_bind, ih _ _ _ _ h3 k, Option.some_bind, ih _ _ _ _ h4 k]
      · rw [revealAux_nonzero f b row col ho hz] at h
        rw [revealAux_nonzero (f + k) b row col ho hz, h]
    · rw [revealAux_stop f b row col ho] at h
      rw [revealAux_stop (f + k) b row col ho, h]

theorem not_open_of_vis {b : Board} {p : Int × Int} (h : b.visAt p ≠ chHidden) : ¬ b.Open p :=
  fun ho => h ho.2.2

/-- With counts in 0..8, a flood-fill call that returns has done what `RevealOk` says. -/
theorem revealAux_ok : ∀ (fuel : Nat) (b : Board) (row col : Int) (b1 : Board), b.DigitOk →
    revealAux fuel b row col = some b1 → RevealOk b (row, col) b1 := by
  intro fuel
  induction fuel with
  | zero => intro b row col b1 _ h; simp [revealAux] at h
  | succ f ih =>
    intro b row col b1 hd h
    by_cases ho : b.Open (row, col)
    · have hne : b.visAt (row, col) ≠ 0 := by rw [ho.2.2]; decide
      by_cases hz : b.mineAt (row, col) = 0
      · rw [revealAux_zero f b row col ho hz] at h
        obtain ⟨c1, h1, h⟩ := Option.bind_eq_some.1 h
        obtain ⟨c2, h2, h⟩ := Option.bind_eq_some.1 h
        obtain ⟨c3, h3, h4⟩ := Option.bind_eq_some.1 h
        have e0 := Ext.write_zero b (row, col) ho hz
        have hd0 := e0.digitOk hd
        have r1 := ih _ _ _ _ hd0 h1
        have hd1 := r1.ext.digitOk hd0
        have r2 := ih _ _ _ _ hd1 h2
        have hd2 := r2.ext.digitOk hd1
        have r3 := ih _ _ _ _ hd2 h3
        have hd3 := r3.ext.digitOk hd2
        have r4 := ih _ _ _ _ hd3 h4
        have m := (((MultiOk.nil _).snoc r1).snoc r2).snoc r3 |>.snoc r4
        have hv0 : ∀ q, visAt { b with _board := b._board.set row col chZero } q =
            if q = (row, col) then chZero else b.visAt q := visAt_write b (row, col) chZero hne
        have hs0 : ¬ Open { b with _board := b._board.set row col chZero } (row, col) :=
          not_open_of_vis (by rw [hv0, if_pos rfl]; decide)
        refine ⟨e0.trans m.ext, ?_, fun h' => hs0 (m.ext.open_mono h'), ?_⟩
        · intro p hp
          by_cases hps : p = (row, col)
          · rw [hps]; exact Reach.here _ ho
          · by_cases hc : b1.visAt p = visAt { b with _board := b._board.set row col chZero } p
            · rw [hc, hv0, if_neg hps] at hp
              exact absurd rfl hp
            · obtain ⟨s, hs, hr⟩ := m.sound p hc
              have hadj : Adj (row, col) s := by
                simp only [List.mem_cons, List.mem_singleton, List.not_mem_nil, or_false] at hs
                unfold Adj
                tauto
              exact Reach.step _ s p ho hz hadj (Reach.mono e0 hr)
        · intro p q hp hnp hpz hadj hq hq1
          by_cases hps : p = (row, col)
          · subst hps
            have hmem : q ∈ [(row, col - 1), (row - 1, col), (row, col + 1), (row + 1, col)] := by
              simp only [List.mem_cons, List.mem_singleton, List.not_mem_nil, or_false]
              unfold Adj at hadj
              tauto
            exact m.start q hmem hq1
          · have hp0 : Open { b with _board := b._board.set row col chZero } p :=
              e0.open_of_same hp (by rw [hv0, if_neg hps])
            have hq0 : Open { b with _board := b._board.set row col chZero } q := by
              by_contra hq0
              exact hq0 (m.ext.open_mono hq1)
            exact m.closed p q hp0 hnp (by rw [e0.mineAt_eq]; exact hpz) hadj hq0 hq1
      · rw [revealAux_nonzero f b row col ho hz] at h
        have hb1 := Option.some.inj h
        have hv0 : ∀ q, b1.visAt q =
            if q = (row, col) then wrapChar (chZero + b.mineAt (row, col)) else b.visAt q := by
          intro q; rw [← hb1]; exact visAt_write b (row, col) _ hne q
        have e0 : Ext b b1 := by rw [← hb1]; exact Ext.write b (row, col) ho
        have hdig := hd (row, col) ho.1 ho.2.1
        refine ⟨e0, ?_, ?_, ?_⟩
        · intro p hp
          by_cases hps : p = (row, col)
          · rw [hps]; exact Reach.here _ ho
          · rw [hv0, if_neg hps] at hp
            exact absurd rfl hp
        · apply not_open_of_vis
          rw [hv0, if_pos rfl, wrapChar_digit _ hdig.1 hdig.2]
          show (48 : Int) + _ ≠ 45
          omega
        · intro p q hp hnp hpz _ _ _
          by_cases hps : p = (row, col)
          · rw [hps] at hpz; exact hz hpz
          · exact hnp (e0.open_of_same hp (by rw [hv0, if_neg hps]))
    · rw [revealAux_stop f b row col ho] at h
      rw [← Option.some.inj h]
      exact ⟨Ext.refl b, fun _ hp => absurd rfl hp, ho, fun _ _ hp hnp _ _ _ => absurd hp hnp⟩

theorem Consistent.toDigitOk {b : Board} (hc : b.Consistent) : b.DigitOk := by
  intro p hv hm
  have h := (consistent_iff b).1 hc p.1 p.2 hv hm
  have hle := mineNeighbours_le b p.1 p.2
  have h' : b.mineAt p = (b.mineNeighbours p.1 p.2 : Int) := h
  omega

/-- The top-level flood fill returns, and its result is the one every sufficient budget
gives. -/
theorem reveal_returns (b : Board) (row col : Int) :
    ∃ b1, b.revealMineCountNearInput row col = some b1 ∧ Ext b b1 ∧
      ∀ fuel, b.hiddenCount < fuel → revealAux fuel b row col = some b1 := by
  obtain ⟨b1, h⟩ := revealAux_total (b.hiddenCount + 1) b row col (Nat.lt_succ_self _)
  refine ⟨b1, h, revealAux_ext _ _ _ _ _ h, fun fuel hf => ?_⟩
  have := revealAux_mono _ _ _ _ _ h (fuel - (b.hiddenCount + 1))
  rwa [show b.hiddenCount + 1 + (fuel - (b.hiddenCount + 1)) = fuel by omega] at this

theorem RevealOk.complete {b b1 : Board} {s : Int × Int} (h : RevealOk b s b1) {p : Int × Int}
    (hr : b.Reach s p) : ¬ b1.Open p := by
  have key : ∀ s p, b.Reach s p → ¬ b1.Open s → ¬ b1.Open p := by
    intro s p hr
    induction hr with
    | here _ _ => exact id
    | step p q c hp hz hadj hqc ih =>
      intro hnp
      exact ih (h.closed p q hp hnp hz hadj hqc.head_open)
  exact key s p hr h.start

theorem adj_mem_neighbours {z c : Int × Int} (h : Adj z c) : c ∈ neighbours z.1 z.2 := by
  rw [mem_neighbours]
  obtain ⟨z1, z2⟩ := z
  unfold Adj at h
  rcases h with h | h | h | h <;> rw [h] <;>
    simp only [ne_eq, Prod.mk.injEq, not_and] <;> omega

/-- In a consistent grid no mine sits next to a zero-count cell. -/
theorem Consistent.not_mine_of_adj {b : Board} (hc : b.Consistent) {z c : Int × Int}
    (hz : b.isValid z.1 z.2 = true) (hz0 : b.mineAt z = 0) (hadj : Adj z c)
    (hv : b.isValid c.1 c.2 = true) : b.mineAt c ≠ -1 := by
  intro hm
  have h := (consistent_iff b).1 hc z.1 z.2 hz (by rw [show b.mineAt (z.1, z.2) = 0 from hz0]; decide)
  rw [show b.mineAt (z.1, z.2) = 0 from hz0] at h
  have h0 : b.mineNeighbours z.1 z.2 = 0 := by omega
  unfold mineNeighbours at h0
  have := List.countP_eq_zero.1 h0 c (adj_mem_neighbours hadj)
  simp [hv, hm] at this

theorem ZeroConn.last {b : Board} {s c : Int × Int} (h : b.ZeroConn s c) :
    b.isValid c.1 c.2 = true ∧ b.mineAt c = 0 := by
  induction h with
  | here _ hv hz => exact ⟨hv, hz⟩
  | step _ _ _ _ _ _ _ ih => exact ih

theorem AllHidden.open {b : Board} (ha : b.AllHidden) {p : Int × Int}
    (hv : b.isValid p.1 p.2 = true) (hm : b.mineAt p ≠ -1) : b.Open p :=
  ⟨hv, hm, ha p ((mem_cellList_iff b p).2 hv)⟩

theorem AllHidden.reach_of_zeroConn {b : Board} (ha : b.AllHidden) {s c : Int × Int}
    (h : b.ZeroConn s c) : b.Reach s c := by
  induction h with
  | here p hv hz => exact Reach.here p (ha.open hv (by rw [hz]; decide))
  | step p q c hv hz hadj _ ih => exact Reach.step p q c (ha.open hv (by rw [hz]; decide)) hz hadj ih

theorem AllHidden.reach_of_border {b : Board} (ha : b.AllHidden) {s z : Int × Int}
    (h : b.ZeroConn s z) {c : Int × Int} (hadj : Adj z c) (hc : b.Open c) : b.Reach s c := by
  induction h with
  | here p hv hz =>
    exact Reach.step p c c (ha.open hv (by rw [hz]; decide)) hz hadj (Reach.here c hc)
  | step p q z hv hz hpq _ ih =>
    exact Reach.step p q c (ha.open hv (by rw [hz]; decide)) hz hpq (ih hadj)

theorem Reach.zero_or_border {b : Board} {s p : Int × Int} (h : b.Reach s p)
    (hs : b.mineAt s = 0) :
    b.ZeroConn s p ∨ (b.mineAt p ≠ 0 ∧ ∃ z, b.ZeroConn s z ∧ Adj z p) := by
  induction h with
  | here p hp => exact Or.inl (ZeroConn.here p hp.1 hs)
  | step p q c hp _ hadj hqc ih =>
    by_cases hq : b.mineAt q = 0
    · rcases ih hq with h1 | ⟨h1, z, h2, h3⟩
      · exact Or.inl (ZeroConn.step p q c hp.1 hs hadj h1)
      · exact Or.inr ⟨h1, z, ZeroConn.step p q z hp.1 hs hadj h2, h3⟩
    · cases hqc with
      | here _ _ => exact Or.inr ⟨hq, p, ZeroConn.here p hp.1 hs, hadj⟩
      | step _ _ _ _ hz _ _ => exact absurd hz hq

/-- On an all-hidden consistent board, what is reachable from a zero-count start is its
zero-count region together with the nonzero cells bordering it. -/
theorem reach_eq_region (b : Board) (hc : b.Consistent) (ha : b.AllHidden) (s : Int × Int)
    (hs : b.mineAt s = 0) :
    {p | b.Reach s p} = b.zeroRegion s ∪ b.border s := by
  ext p
  simp only [Set.mem_setOf_eq, Set.mem_union, zeroRegion, border]
  constructor
  · intro h
    rcases h.zero_or_border hs with h1 | ⟨h1, h2⟩
    · exact Or.inl h1
    · exact Or.inr ⟨h.last_open.1, h1, h2⟩
  · rintro (h | ⟨hv, _, z, hz, hadj⟩)
    · exact ha.reach_of_zeroConn h
    · exact ha.reach_of_border hz hadj
        (ha.open hv (hc.not_mine_of_adj hz.last.1 hz.last.2 hadj hv))

theorem finite_valid (b : Board) : {p : Int × Int | b.isValid p.1 p.2 = true}.Finite := by
  apply Set.Finite.subset (List.finite_toSet (cellList b._side))
  intro p hp
  exact (mem_cellList_iff b p).2 hp

theorem region_ncard (b : Board) (s : Int × Int) :
    (b.zeroRegion s ∪ b.border s).ncard = (b.zeroRegion s).ncard + (b.border s).ncard := by
  apply Set.ncard_union_eq
  · rw [Set.disjoint_left]
    intro p hz hb
    exact hb.2.1 (ZeroConn.last hz).2
  · exact (finite_valid b).subset (fun p hp => (ZeroConn.last hp).1)
  · exact (finite_valid b).subset (fun p hp => hp.1)

end Board

/-! Marking and input -/

theorem list_set_restore {α : Type} (l : List α) (i : Nat) (a d : α) (hi : i < l.length) :
    (l.set i a).set i (l.getD i d) = l := by
  rw [List.set_set]
  apply List.ext_getElem
  · simp
  · intro n h1 h2
    rw [List.getElem_set]
    split
    · next h => subst h; rw [List.getD_eq_getElem?_getD, List.getElem?_eq_getElem hi]; rfl
    · rfl

theorem Grid.set_restore (g : Grid) (r c a : Int) (h : g.InRange r c) :
    (g.set r c a).set r c (g.get r c) = g := by
  obtain ⟨h0, h1, h2, h3⟩ := h
  have h01 : 0 ≤ r ∧ 0 ≤ c := ⟨h0, h1⟩
  unfold Grid.set Grid.get
  rw [if_pos h01, if_pos h01, if_pos h01, getD_set_list, if_pos ⟨rfl, h2⟩, list_set_restore _ _ _ _ h3,
    list_set_restore _ _ _ _ h2]

namespace Board

theorem eq_of_fields {b b1 : Board} (h1 : b1._side = b._side) (h2 : b1._mines = b._mines)
    (h3 : b1._mine_board = b._mine_board) (h4 : b1._board = b._board) : b1 = b := by
  cases b
  cases b1
  simp only at h1 h2 h3 h4
  rw [h1, h2, h3, h4]

theorem wrapInt_restore (m : Int) (h0 : -2147483648 ≤ m) (h1 : m ≤ 2147483647) :
    wrapInt (wrapInt (m - 1) + 1) = m := by
  unfold wrapInt; omega

theorem playerMarkMine_side (b : Board) (row col : Int) :
    (b.playerMarkMine row col)._side = b._side := by
  unfold playerMarkMine
  split
  · rfl
  · split <;> dsimp only <;> split <;> rfl

theorem playerMarkMine_mine_board (b : Board) (row col : Int) :
    (b.playerMarkMine row col)._mine_board = b._mine_board := by
  unfold playerMarkMine
  split
  · rfl
  · split <;> dsimp only <;> split <;> rfl

/-- The symbol written by `playerMarkMine` on an in-bounds cell. -/
theorem playerMarkMine_board (b : Board) (row col : Int) (hv : b.isValid row col = true) :
    (b.playerMarkMine row col)._board =
      b._board.set row col (if b.visAt (row, col) = chMarked then chHidden else chMarked) := by
  unfold playerMarkMine visAt
  rw [hv]
  simp only [Bool.not_true, Bool.false_eq_true, if_false]
  split <;> split <;> rfl

/-- The counter after `playerMarkMine` on an in-bounds cell. -/
theorem playerMarkMine_mines (b : Board) (row col : Int) (hv : b.isValid row col = true) :
    (b.playerMarkMine row col)._mines =
      if b.mineAt (row, col) = -1 then
        (if b.visAt (row, col) = chMarked then wrapInt (b._mines + 1) else wrapInt (b._mines - 1))
      else b._mines := by
  unfold playerMarkMine visAt mineAt
  rw [hv]
  simp only [Bool.not_true, Bool.false_eq_true, if_false]
  split <;> split <;> rfl

theorem playerMarkMine_invalid (b : Board) (row col : Int) (hv : b.isValid row col = false) :
    b.playerMarkMine row col = b := by
  unfold playerMarkMine
  rw [hv]; rfl

end Board

namespace Board

theorem playerInput_ext (b : Board) (row col : Int) :
    ∃ r, b.playerInput row col = some r ∧ Ext b r.board := by
  unfold playerInput
  by_cases hv : b.isValid row col = true
  · rw [hv]
    simp only [Bool.not_true, Bool.false_eq_true, if_false]
    by_cases hk : b._board.get row col = chMarked
    · rw [if_pos hk]; exact ⟨_, rfl, Ext.refl b⟩
    · rw [if_neg hk]
      by_cases hm : b._mine_board.get row col = -1
      · rw [if_pos hm]; exact ⟨_, rfl, Ext.refl b⟩
      · rw [if_neg hm]
        obtain ⟨b1, h1, h2, -⟩ := reveal_returns b row col
        rw [h1]
        exact ⟨_, rfl, h2⟩
  · rw [Bool.not_eq_true] at hv
    rw [hv]
    exact ⟨_, rfl, Ext.refl b⟩

theorem markedMines_le (b : Board) : b.markedMines ≤ b.mineCount := by
  unfold markedMines mineCount
  apply List.countP_mono_left
  intro p _ hp
  simp only [decide_eq_true_eq] at hp ⊢
  exact hp.1

theorem countP_eq_forall {α : Type} (L : List α) (P Q : α → Bool) (himp : ∀ x, P x = true → Q x = true)
    (h : L.countP P = L.countP Q) : ∀ x ∈ L, Q x = true → P x = true := by
  induction L with
  | nil => intro x hx; simp at hx
  | cons a as ih =>
    have hle : as.countP P ≤ as.countP Q := List.countP_mono_left (fun x _ => himp x)
    rw [List.countP_cons, List.countP_cons] at h
    intro x hx hq
    by_cases hpa : P a = true
    · have hqa := himp a hpa
      rw [if_pos hpa, if_pos hqa] at h
      rcases List.mem_cons.1 hx with rfl | hx
      · exact hpa
      · exact ih (by omega) x hx hq
    · by_cases hqa : Q a = true
      · rw [if_neg hpa, if_pos hqa] at h
        omega
      · rw [if_neg hpa, if_neg hqa] at h
        rcases List.mem_cons.1 hx with rfl | hx
        · exact absurd hq hqa
        · exact ih (by omega) x hx hq

theorem mineCount_congr {b b1 : Board} (h1 : b1._side = b._side)
    (h2 : b1._mine_board = b._mine_board) : b1.mineCount = b.mineCount := by
  unfold mineCount mineAt
  rw [h1, h2]

/-- A call of `playerInput` keeps the bookkeeping invariant. -/
theorem Tracked.ext {M : Grid} {n : Int} {b b1 : Board} (h : Tracked M n b) (e : Ext b b1) :
    Tracked M n b1 := by
  obtain ⟨h1, h2, h3, h4, h5⟩ := h
  have hmc := mineCount_congr e.side e.mine_board
  refine ⟨e.side.trans h1, e.mine_board.trans h2, ?_, ?_, by rw [hmc]; exact h5⟩
  · intro x y hv
    rw [isValid_congr e.side] at hv
    exact (e.inRange x y).2 (h3 x y hv)
  · rw [hmc, e.mines, ← h4]
    congr 2
    unfold markedMines
    rw [e.side]
    apply countP_same
    intro q _
    rw [e.mineAt_eq]
    by_cases hm : b.mineAt q = -1
    · rcases e.vis q with hv | ⟨ho, _⟩
      · rw [hv]
      · exact absurd hm ho.2.1
    · simp [hm]

theorem wrapInt_small (v : Int) (h0 : -2147483648 ≤ v) (h1 : v ≤ 2147483647) : wrapInt v = v := by
  unfold wrapInt; omega

/-- A call of `playerMarkMine` keeps the bookkeeping invariant. -/
theorem Tracked.mark {M : Grid} {n : Int} {b : Board} (h : Tracked M n b) (row col : Int) :
    Tracked M n (b.playerMarkMine row col) := by
  by_cases hv : b.isValid row col = true
  · obtain ⟨h1, h2, h3, h4, h5⟩ := h
    have hside := playerMarkMine_side b row col
    have hmb := playerMarkMine_mine_board b row col
    have hmc := mineCount_congr hside hmb
    have hle := markedMines_le b
    have hr := h3 row col hv
    have hvis : ∀ q, (b.playerMarkMine row col).visAt q =
        if q = (row, col) then (if b.visAt (row, col) = chMarked then chHidden else chMarked)
        else b.visAt q := by
      intro q
      unfold visAt
      rw [playerMarkMine_board b row col hv, Grid.get_set]
      by_cases hq : q = (row, col)
      · rw [hq, if_pos ⟨rfl, rfl, hr⟩, if_pos rfl]; rfl
      · rw [if_neg hq, if_neg]
        rintro ⟨e1, e2, -⟩
        exact hq (Prod.ext e1 e2)
    have hmine : ∀ q, (b.playerMarkMine row col).mineAt q = b.mineAt q := by
      intro q; unfold mineAt; rw [hmb]
    have hin : (row, col) ∈ cellList b._side := (mem_cellList_iff b _).2 hv
    refine ⟨hside.trans h1, hmb.trans h2, ?_, ?_, by rw [hmc]; exact h5⟩
    · intro x y hxy
      rw [isValid_congr hside] at hxy
      rw [playerMarkMine_board b row col hv, Grid.inRange_set]
      exact h3 x y hxy
    · rw [hmc, playerMarkMine_mines b row col hv]
      by_cases hm : b.mineAt (row, col) = -1
      · rw [if_pos hm]
        by_cases hk : b.visAt (row, col) = chMarked
        · rw [if_pos hk]
          have hcount : b.markedMines = (b.playerMarkMine row col).markedMines + 1 := by
            unfold markedMines
            rw [hside]
            apply countP_add_point _ (nodup_cellList _) _ _ (row, col) hin
            · rw [hvis, if_pos rfl, if_pos hk]; simp
            · simp [hm, hk]
            · intro q _ hq
              rw [hvis, if_neg hq, hmine]
          rw [wrapInt_small _ (by omega) (by omega)]
          omega
        · rw [if_neg hk]
          have hcount : (b.playerMarkMine row col).markedMines = b.markedMines + 1 := by
            unfold markedMines
            rw [hside]
            apply countP_add_point _ (nodup_cellList _) _ _ (row, col) hin
            · simp [hk]
            · rw [hvis, if_pos rfl, if_neg hk, hmine]; simp [hm]
            · intro q _ hq
              rw [hvis, if_neg hq, hmine]
          rw [wrapInt_small _ (by omega) (by omega)]
          omega
      · rw [if_neg hm, ← h4]
        congr 2
        unfold markedMines
        rw [hside]
        apply countP_same
        intro q _
        rw [hmine]
        by_cases hq : q = (row, col)
        · rw [hq]; simp [hm]
        · rw [hvis, if_neg hq]
  · rw [Bool.not_eq_true] at hv
    rw [playerMarkMine_invalid b row col hv]
    exact h

/-- Every sequence of calls runs to the end and keeps the bookkeeping invariant. -/
theorem Tracked.run {M : Grid} {n : Int} (ops : List Op) :
    ∀ b : Board, Tracked M n b → ∃ b1, b.run ops = some b1 ∧ Tracked M n b1 := by
  induction ops with
  | nil => intro b h; exact ⟨b, rfl, h⟩
  | cons op ops ih =>
    intro b h
    cases op with
    | mark row col =>
      obtain ⟨b2, h2, h3⟩ := ih _ (h.mark row col)
      exact ⟨b2, by
        show ((some (b.playerMarkMine row col)).bind fun b1 => b1.run ops) = some b2
        rw [Option.some_bind]; exact h2, h3⟩
    | input row col =>
      obtain ⟨r, hr, he⟩ := playerInput_ext b row col
      obtain ⟨b2, h2, h3⟩ := ih _ (h.ext he)
      exact ⟨b2, by
        show (((b.playerInput row col).map fun r => r.board).bind fun b1 => b1.run ops) = some b2
        rw [hr, Option.map_some', Option.some_bind]; exact h2, h3⟩

/-- What the bookkeeping invariant says about the counter. -/
theorem Tracked.counter {M : Grid} {n : Int} {b : Board} (h : Tracked M n b) :
    b.getMines = (b.mineCount : Int) - (b.markedMines : Int) ∧ 0 ≤ b.getMines ∧
      b.getMines ≤ (b.mineCount : Int) ∧
      (b.getMines = 0 ↔ ∀ row col, b.isValid row col = true → b.mineAt (row, col) = -1 →
        b.visAt (row, col) = chMarked) := by
  obtain ⟨-, -, -, h4, -⟩ := h
  have hle := markedMines_le b
  unfold getMines
  refine ⟨by omega, by omega, by omega, ?_⟩
  constructor
  · intro h0 row col hv hm
    have heq : b.markedMines = b.mineCount := by omega
    have := countP_eq_forall (cellList b._side)
      (fun p => decide (b.mineAt p = -1 ∧ b.visAt p = chMarked)) (fun p => decide (b.mineAt p = -1))
      (by intro x hx; simp only [decide_eq_true_eq] at hx ⊢; exact hx.1) heq (row, col)
      ((mem_cellList_iff b _).2 hv) (by simpa using hm)
    simp only [decide_eq_true_eq] at this
    exact this.2
  · intro hall
    have heq : b.markedMines = b.mineCount := by
      unfold markedMines mineCount
      apply countP_same
      intro q hq
      have hv := (mem_cellList_iff b q).1 hq
      by_cases hm : b.mineAt q = -1
      · have := hall q.1 q.2 hv hm
        simp [hm, show b.visAt q = chMarked from this]
      · simp [hm]
    omega

end Board

namespace Board

theorem placeLoop_side_mines (draws : List Int) (b : Board) (i : Int) :
    ∀ b1, placeLoop draws b i = some b1 → b1._side = b._side ∧ b1._mines = b._mines := by
  induction draws, b, i using placeLoop.induct with
  | case1 b i hlt => intro b1 h; simp [placeLoop, hlt] at h
  | case2 b i hlt =>
    intro b1 h
    simp only [placeLoop, hlt, if_false, Option.some.injEq] at h
    rw [← h]; exact ⟨rfl, rfl⟩
  | case3 x b i hlt => intro b1 h; simp [placeLoop, hlt] at h
  | case4 x b i hlt =>
    intro b1 h
    simp only [placeLoop, hlt, if_false, Option.some.injEq] at h
    rw [← h]; exact ⟨rfl, rfl⟩
  | case5 row col rest b i hlt hmine ih =>
    intro b1 h
    rw [placeLoop, if_pos hlt, if_pos hmine] at h
    exact ih b1 h
  | case6 row col rest b i hlt hmine ih =>
    intro b1 h
    rw [placeLoop, if_pos hlt, if_neg hmine] at h
    have := ih b1 h
    rwa [placeMineHere_side, placeMineHere_mines] at this
  | case7 row col rest b i hlt =>
    intro b1 h
    simp only [placeLoop, hlt, if_false, Option.some.injEq] at h
    rw [← h]; exact ⟨rfl, rfl⟩

/-- A constructed board has the side and mine count of its difficulty. -/
theorem new_side_mines (difficulty : Int) (draws : List Int) (b : Board)
    (h : Board.new difficulty draws = some b) :
    (b._side, b._mines) = (if difficulty = 0 then ((9 : Int), (10 : Int))
      else if difficulty = 1 then (16, 40) else (24, 99)) ∧
    (difficulty = 0 ∨ difficulty = 1 ∨ difficulty = 2) := by
  unfold Board.new at h
  cases hi : init difficulty with
  | none => rw [hi] at h; simp at h
  | some b1 =>
    rw [hi] at h
    obtain ⟨s, m, rfl, hsm, hd⟩ := init_built difficulty b1 hi
    obtain ⟨h1, h2⟩ := placeLoop_side_mines draws _ 0 b h
    rw [h1, h2]
    exact ⟨hsm, hd⟩

/-- A board constructed from in-range draws is built by `placeMineHere` calls and holds
`_mines` mines. -/
theorem new_built (difficulty : Int) (draws : List Int) (b : Board)
    (h : Board.new difficulty draws = some b) (hr : ∀ x ∈ draws, 0 ≤ x ∧ x ≤ b._side - 1) :
    Built b._side b._mines b ∧ (b.mineCount : Int) = b._mines ∧ 0 ≤ b._side ∧
      0 ≤ b._mines ∧ b._mines ≤ 99 := by
  obtain ⟨hsm, hd⟩ := new_side_mines difficulty draws b h
  unfold Board.new at h
  cases hi : init difficulty with
  | none => rw [hi] at h; simp at h
  | some b1 =>
    rw [hi] at h
    obtain ⟨s, m, rfl, hsm1, -⟩ := init_built difficulty b1 hi
    obtain ⟨rfl, rfl⟩ := Prod.mk.inj (hsm.trans hsm1.symm)
    have hm0 : 0 ≤ b._mines ∧ 0 ≤ b._side ∧ b._mines ≤ 99 := by
      rcases hd with rfl | rfl | rfl <;> simp at hsm <;> omega
    obtain ⟨hb, hcount⟩ := placeLoop_inv b._side b._mines draws _ 0 Built.zero
      (by rw [blank_mineCount]; rfl) hm0.1 hr b h
    exact ⟨hb, hcount, hm0.2.1, hm0.1, hm0.2.2⟩

/-- A freshly constructed board satisfies the bookkeeping invariant. -/
theorem new_tracked (difficulty : Int) (draws : List Int) (b : Board)
    (h : Board.new difficulty draws = some b) (hr : ∀ x ∈ draws, 0 ≤ x ∧ x ≤ b._side - 1) :
    Tracked b._mine_board b._side b ∧ (b.mineCount : Int) = b._mines := by
  obtain ⟨hb, hcount, hs, hm, hm99⟩ := new_built difficulty draws b h hr
  obtain ⟨-, -, hboard, -, -⟩ := hb.inv
  have hvis : ∀ q, b.isValid q.1 q.2 = true → b.visAt q = chHidden := by
    intro q hq
    unfold visAt
    rw [hboard, Grid.get_fill, if_pos ((isValid_iff b _ _).1 hq)]
  refine ⟨⟨rfl, rfl, ?_, ?_, by omega⟩, hcount⟩
  · intro x y hxy
    rw [hboard, Grid.inRange_of_square (Grid.square_fill _ _ hs)]
    exact (isValid_iff b x y).1 hxy
  · have h0 : b.markedMines = 0 := by
      unfold markedMines
      rw [List.countP_eq_zero]
      intro q hq
      have := hvis q ((mem_cellList_iff b q).1 hq)
      simp [this]
    rw [h0, hcount]; simp

end Board

theorem list_set_self {α : Type} (l : List α) (i : Nat) (d : α) (hi : i < l.length) :
    l.set i (l.getD i d) = l := by
  apply List.ext_getElem
  · simp
  · intro n h1 h2
    rw [List.getElem_set]
    split
    · next h => subst h; rw [List.getD_eq_getElem?_getD, List.getElem?_eq_getElem hi]; rfl
    · rfl

theorem Grid.set_self (g : Grid) (r c : Int) (h : g.InRange r c) :
    g.set r c (g.get r c) = g := by
  obtain ⟨h0, h1, h2, h3⟩ := h
  have h01 : 0 ≤ r ∧ 0 ≤ c := ⟨h0, h1⟩
  unfold Grid.set Grid.get
  rw [if_pos h01, if_pos h01, list_set_self _ _ _ h3, list_set_self _ _ _ h2]

namespace Board

/-- After a flood-fill call on an open cell, that cell shows the character of its count. -/
theorem revealAux_start_vis (fuel : Nat) (b : Board) (row col : Int) (b1 : Board)
    (h : revealAux fuel b row col = some b1) (ho : b.Open (row, col)) :
    b1.visAt (row, col) = wrapChar (chZero + b.mineAt (row, col)) := by
  cases fuel with
  | zero => simp [revealAux] at h
  | succ f =>
    have hne : b.visAt (row, col) ≠ 0 := by rw [ho.2.2]; decide
    by_cases hz : b.mineAt (row, col) = 0
    · rw [revealAux_zero f b row col ho hz] at h
      obtain ⟨c1, h1, h⟩ := Option.bind_eq_some.1 h
      obtain ⟨c2, h2, h⟩ := Option.bind_eq_some.1 h
      obtain ⟨c3, h3, h4⟩ := Option.bind_eq_some.1 h
      have e := ((revealAux_ext _ _ _ _ _ h1).trans (revealAux_ext _ _ _ _ _ h2)).trans
        ((revealAux_ext _ _ _ _ _ h3).trans (revealAux_ext _ _ _ _ _ h4))
      have hv0 : visAt { b with _board := b._board.set row col chZero } (row, col) = chZero := by
        rw [visAt_write b (row, col) chZero hne, if_pos rfl]
      rcases e.vis (row, col) with hv | ⟨ho', _⟩
      · rw [hv, hv0, hz]; rfl
      · exact absurd ho'.2.2 (by rw [hv0]; decide)
    · rw [revealAux_nonzero f b row col ho hz] at h
      rw [← Option.some.inj h, visAt_write b (row, col) _ hne, if_pos rfl]

end Board

theorem Grid.get_eq_getElem (g : Grid) (i j : Nat) (hi : i < List.length g)
    (hj : j < (List.get g ⟨i, hi⟩).length) :
    Grid.get g (i : Int) (j : Int) = List.get (List.get g ⟨i, hi⟩) ⟨j, hj⟩ := by
  unfold Grid.get
  rw [if_pos ⟨Int.natCast_nonneg i, Int.natCast_nonneg j⟩, Int.toNat_ofNat, Int.toNat_ofNat]
  simp only [List.getD_eq_getElem?_getD, List.get_eq_getElem] at hj ⊢
  rw [List.getElem?_eq_getElem hi]
  simp only [Option.getD_some]
  rw [List.getElem?_eq_getElem hj]
  rfl

/-- Two square grids of the same side with the same in-bounds cells are the same grid. -/
theorem Grid.ext_square {g g1 : Grid} {n : Int} (h : g.Square n) (h1 : g1.Square n)
    (hcell : ∀ x y : Int, 0 ≤ x → x < n → 0 ≤ y → y < n → g.get x y = g1.get x y) : g = g1 := by
  obtain ⟨h0, hl, hr⟩ := h
  obtain ⟨-, hl1, hr1⟩ := h1
  apply List.ext_get
  · rw [hl, hl1]
  · intro i hi hi1
    have hrow : (List.get g ⟨i, hi⟩).length = n.toNat := hr _ (List.get_mem _ _ _)
    have hrow1 : (List.get g1 ⟨i, hi1⟩).length = n.toNat := hr1 _ (List.get_mem _ _ _)
    apply List.ext_get
    · rw [hrow, hrow1]
    · intro j hj hj1
      have := hcell (i : Int) (j : Int) (Int.natCast_nonneg i) (by omega) (Int.natCast_nonneg j)
        (by omega)
      rw [Grid.get_eq_getElem g i j hi hj, Grid.get_eq_getElem g1 i j hi1 hj1] at this
      exact this

namespace Board

theorem revealAux_square (n : Int) : ∀ (fuel : Nat) (b : Board) (row col : Int) (b1 : Board),
    revealAux fuel b row col = some b1 → b._board.Square n → b1._board.Square n := by
  intro fuel
  induction fuel with
  | zero => intro b row col b1 h; simp [revealAux] at h
  | succ f ih =>
    intro b row col b1 h hs
    by_cases ho : b.Open (row, col)
    · by_cases hz : b.mineAt (row, col) = 0
      · rw [revealAux_zero f b row col ho hz] at h
        obtain ⟨c1, h1, h⟩ := Option.bind_eq_some.1 h
        obtain ⟨c2, h2, h⟩ := Option.bind_eq_some.1 h
        obtain ⟨c3, h3, h4⟩ := Option.bind_eq_some.1 h
        exact ih _ _ _ _ h4 (ih _ _ _ _ h3 (ih _ _ _ _ h2 (ih _ _ _ _ h1
          (Grid.square_set hs _ _ _))))
      · rw [revealAux_nonzero f b row col ho hz] at h
        rw [← Option.some.inj h]
        exact Grid.square_set hs _ _ _
    · rw [revealAux_stop f b row col ho] at h
      rw [← Option.some.inj h]
      exact hs

/-- In a grid whose in-bounds cells all have count 0, any two in-bounds cells are joined by
a path of orthogonal steps. -/
theorem zeroConn_of_all_zero (b : Board)
    (hz : ∀ q : Int × Int, b.isValid q.1 q.2 = true → b.mineAt q = 0) :
    ∀ (k : Nat) (s p : Int × Int), b.isValid s.1 s.2 = true → b.isValid p.1 p.2 = true →
      (p.1 - s.1).natAbs + (p.2 - s.2).natAbs = k → b.ZeroConn s p := by
  intro k
  induction k with
  | zero =>
    intro s p hs _ hk
    have : s = p := by
      apply Prod.ext <;> omega
    rw [← this]
    exact ZeroConn.here s hs (hz s hs)
  | succ k ih =>
    intro s p hs hp hk
    have hs' := (isValid_iff b _ _).1 hs
    have hp' := (isValid_iff b _ _).1 hp
    by_cases h1 : s.1 < p.1
    · have hq : b.isValid (s.1 + 1, s.2).1 (s.1 + 1, s.2).2 = true := by
        rw [isValid_iff]; simp only; omega
      exact ZeroConn.step s (s.1 + 1, s.2) p hs (hz s hs) (Or.inl rfl)
        (ih (s.1 + 1, s.2) p hq hp (by simp only; omega))
    · by_cases h2 : p.1 < s.1
      · have hq : b.isValid (s.1 - 1, s.2).1 (s.1 - 1, s.2).2 = true := by
          rw [isValid_iff]; simp only; omega
        exact ZeroConn.step s (s.1 - 1, s.2) p hs (hz s hs) (Or.inr (Or.inr (Or.inl rfl)))
          (ih (s.1 - 1, s.2) p hq hp (by simp only; omega))
      · by_cases h3 : s.2 < p.2
        · have hq : b.isValid (s.1, s.2 + 1).1 (s.1, s.2 + 1).2 = true := by
            rw [isValid_iff]; simp only; omega
          exact ZeroConn.step s (s.1, s.2 + 1) p hs (hz s hs) (Or.inr (Or.inl rfl))
            (ih (s.1, s.2 + 1) p hq hp (by simp only; omega))
        · have hq : b.isValid (s.1, s.2 - 1).1 (s.1, s.2 - 1).2 = true := by
            rw [isValid_iff]; simp only; omega
          exact ZeroConn.step s (s.1, s.2 - 1) p hs (hz s hs) (Or.inr (Or.inr (Or.inr rfl)))
            (ih (s.1, s.2 - 1) p hq hp (by simp only; omega))

end Board

namespace Board

/-- Placing mines on distinct in-bounds cells of a built grid that are not mines yet keeps
the grid built, and the mines afterwards are the old ones and the cells of the list. -/
theorem placeAll_built (n mines : Int) (cells : List (Int × Int)) :
    ∀ b : Board, Built n mines b → cells.Nodup →
      (∀ p ∈ cells, b.isValid p.1 p.2 = true ∧ b.mineAt p ≠ -1) →
      Built n mines (placeAll cells b) ∧
        ∀ q : Int × Int, b.isValid q.1 q.2 = true →
          ((placeAll cells b).mineAt q = -1 ↔ q ∈ cells ∨ b.mineAt q = -1) := by
  induction cells with
  | nil =>
    intro b hb _ _
    exact ⟨hb, fun q _ => by simp [placeAll]⟩
  | cons c cs ih =>
    intro b hb hnd hall
    obtain ⟨hc, hcs⟩ := List.nodup_cons.1 hnd
    obtain ⟨hcv, hcm⟩ := hall c (List.mem_cons_self _ _)
    obtain ⟨hside, -, -, hcons, hsq⟩ := hb.inv
    have hn : 0 ≤ n := by
      have := (isValid_iff _ _ _).1 hcv
      omega
    have hs : b._mine_board.Square b._side := hside ▸ hsq hn
    have hb1 : Built n mines (b.placeMineHere c.1 c.2) := Built.place b c.1 c.2 hb hcv hcm
    have hiff := placeMineHere_mine_iff b c.1 c.2 hs hcons hcv
    have hall1 : ∀ p ∈ cs, (b.placeMineHere c.1 c.2).isValid p.1 p.2 = true ∧
        (b.placeMineHere c.1 c.2).mineAt p ≠ -1 := by
      intro p hp
      obtain ⟨hpv, hpm⟩ := hall p (List.mem_cons_of_mem _ hp)
      refine ⟨by rw [isValid_congr (placeMineHere_side b c.1 c.2)]; exact hpv, ?_⟩
      intro hmine
      rcases (hiff p hpv).1 hmine with h | h
      · exact hc (by rw [← show p = c from h]; exact hp)
      · exact hpm h
    obtain ⟨h1, h2⟩ := ih (b.placeMineHere c.1 c.2) hb1 hcs hall1
    refine ⟨h1, ?_⟩
    intro q hq
    have hq1 : (b.placeMineHere c.1 c.2).isValid q.1 q.2 = true := by
      rw [isValid_congr (placeMineHere_side b c.1 c.2)]; exact hq
    show (placeAll cs (b.placeMineHere c.1 c.2)).mineAt q = -1 ↔ _
    rw [h2 q hq1, hiff q hq, List.mem_cons]
    constructor
    · rintro (h | h | h)
      · exact Or.inl (Or.inr h)
      · exact Or.inl (Or.inl h)
      · exact Or.inr h
    · rintro ((h | h) | h)
      · exact Or.inr (Or.inl h)
      · exact Or.inl h
      · exact Or.inr (Or.inr h)

/-- Two built grids of the same side with the same mines are the same board. -/
theorem Built.eq_of_same_mines {n mines : Int} {b b1 : Board} (hb : Built n mines b)
    (hb1 : Built n mines b1) (hn : 0 ≤ n)
    (hm : ∀ q : Int × Int, b.isValid q.1 q.2 = true → (b.mineAt q = -1 ↔ b1.mineAt q = -1)) :
    b1 = b := by
  obtain ⟨hside, hmines, hboard, hcons, hsq⟩ := hb.inv
  obtain ⟨hside1, hmines1, hboard1, hcons1, hsq1⟩ := hb1.inv
  have hvalid : ∀ x y, b1.isValid x y = b.isValid x y :=
    fun x y => isValid_congr (hside1.trans hside.symm) x y
  have hnb : ∀ x y, b1.mineNeighbours x y = b.mineNeighbours x y := by
    intro x y
    unfold mineNeighbours
    apply countP_same
    intro q _
    rw [hvalid]
    by_cases hq : b.isValid q.1 q.2 = true
    · rw [hq, Bool.true_and, Bool.true_and, decide_eq_decide]
      exact (hm q hq).symm
    · simp [hq]
  refine eq_of_fields (hside1.trans hside.symm) (hmines1.trans hmines.symm) ?_
    (hboard1.trans hboard.symm)
  apply Grid.ext_square (hsq1 hn) (hsq hn)
  intro x y hx0 hxn hy0 hyn
  have hv : b.isValid x y = true := by rw [isValid_iff, hside]; exact ⟨hx0, hy0, hxn, hyn⟩
  have hv1 : b1.isValid x y = true := by rw [hvalid]; exact hv
  by_cases hmine : b.mineAt (x, y) = -1
  · have h1 : b1.mineAt (x, y) = -1 := (hm (x, y) hv).1 hmine
    exact h1.trans hmine.symm
  · have h1 : b1.mineAt (x, y) ≠ -1 := fun h => hmine ((hm (x, y) hv).2 h)
    have e := (consistent_iff b).1 hcons x y hv hmine
    have e1 := (consistent_iff b1).1 hcons1 x y hv1 h1
    show b1.mineAt (x, y) = b.mineAt (x, y)
    rw [e, e1, hnb]

end Board

namespace Board

theorem playerInput_square (b : Board) (row col : Int) (n : Int) (r : InputResult)
    (h : b.playerInput row col = some r) (hs : b._board.Square n) : r.board._board.Square n := by
  unfold playerInput at h
  by_cases hv : b.isValid row col = true
  · rw [hv] at h
    simp only [Bool.not_true, Bool.false_eq_true, if_false] at h
    by_cases hk : b._board.get row col = chMarked
    · rw [if_pos hk] at h
      rw [← Option.some.inj h]; exact hs
    · rw [if_neg hk] at h
      by_cases hm : b._mine_board.get row col = -1
      · rw [if_pos hm] at h
        rw [← Option.some.inj h]; exact hs
      · rw [if_neg hm] at h
        cases hrev : b.revealMineCountNearInput row col with
        | none => rw [hrev] at h; simp at h
        | some b1 =>
          rw [hrev] at h
          rw [← Option.some.inj h]
          exact revealAux_square n _ b row col b1 hrev hs
  · rw [Bool.not_eq_true] at hv
    rw [hv] at h
    rw [← Option.some.inj h]; exact hs

/-- A call of `playerMarkMine` keeps the display invariant. -/
theorem Shown.after_mark {M : Grid} {n : Int} {b : Board} (h : Shown M n b) (row col : Int) :
    Shown M n (b.playerMarkMine row col) := by
  by_cases hv : b.isValid row col = true
  · obtain ⟨h1, h2, h3, h4⟩ := h
    have hside := playerMarkMine_side b row col
    refine ⟨hside.trans h1, (playerMarkMine_mine_board b row col).trans h2, ?_, ?_⟩
    · rw [playerMarkMine_board b row col hv]
      exact Grid.square_set h3 _ _ _
    · intro p hp
      rw [isValid_congr hside] at hp
      have hmine : (b.playerMarkMine row col).mineAt p = b.mineAt p := by
        unfold mineAt; rw [playerMarkMine_mine_board]
      have hvis : (b.playerMarkMine row col).visAt p =
          if p.1 = row ∧ p.2 = col ∧ b._board.InRange row col then
            (if b.visAt (row, col) = chMarked then chHidden else chMarked)
          else b.visAt p := by
        unfold visAt
        rw [playerMarkMine_board b row col hv, Grid.get_set]
        rfl
      rw [hvis, hmine]
      by_cases hc : p.1 = row ∧ p.2 = col ∧ b._board.InRange row col
      · rw [if_pos hc]
        by_cases hk : b.visAt (row, col) = chMarked
        · rw [if_pos hk]; exact Or.inl rfl
        · rw [if_neg hk]; exact Or.inr (Or.inl rfl)
      · rw [if_neg hc]
        exact h4 p hp
  · rw [Bool.not_eq_true] at hv
    rw [playerMarkMine_invalid b row col hv]
    exact h

/-- A call of the flood fill, or of `playerInput`, keeps the display invariant when the
counts are in 0..8. -/
theorem Shown.of_ext {M : Grid} {n : Int} {b b1 : Board} (h : Shown M n b) (hd : b.DigitOk)
    (e : Ext b b1) (hs : b1._board.Square n) : Shown M n b1 := by
  obtain ⟨h1, h2, -, h4⟩ := h
  refine ⟨e.side.trans h1, e.mine_board.trans h2, hs, ?_⟩
  intro p hp
  rw [isValid_congr e.side] at hp
  rw [e.mineAt_eq]
  rcases e.vis p with hv | ⟨ho, hv⟩
  · rw [hv]; exact h4 p hp
  · have hdig := hd p ho.1 ho.2.1
    rw [hv, wrapChar_digit _ hdig.1 hdig.2]
    exact Or.inr (Or.inr ⟨ho.2.1, hdig.1, hdig.2, rfl⟩)

theorem DigitOk.congr {b b1 : Board} (hd : b.DigitOk) (h1 : b1._side = b._side)
    (h2 : b1._mine_board = b._mine_board) : b1.DigitOk := by
  intro p hv hm
  unfold mineAt at hm ⊢
  rw [h2] at hm ⊢
  rw [isValid_congr h1] at hv
  exact hd p hv hm

/-- Every sequence of calls runs to the end and keeps the display invariant. -/
theorem Shown.after_run {M : Grid} {n : Int} (ops : List Op) :
    ∀ b : Board, Shown M n b → b.DigitOk → ∃ b1, b.run ops = some b1 ∧ Shown M n b1 := by
  induction ops with
  | nil => intro b h _; exact ⟨b, rfl, h⟩
  | cons op ops ih =>
    intro b h hd
    cases op with
    | mark row col =>
      obtain ⟨b2, h2, h3⟩ := ih _ (h.after_mark row col)
        (hd.congr (playerMarkMine_side b row col) (playerMarkMine_mine_board b row col))
      exact ⟨b2, by
        show ((some (b.playerMarkMine row col)).bind fun b1 => b1.run ops) = some b2
        rw [Option.some_bind]; exact h2, h3⟩
    | input row col =>
      obtain ⟨r, hr, he⟩ := playerInput_ext b row col
      have hs := playerInput_square b row col n r hr h.2.2.1
      obtain ⟨b2, h2, h3⟩ := ih _ (h.of_ext hd he hs) (he.digitOk hd)
      exact ⟨b2, by
        show (((b.playerInput row col).map fun r => r.board).bind fun b1 => b1.run ops) = some b2
        rw [hr, Option.map_some', Option.some_bind]; exact h2, h3⟩

end Board

theorem visWrites_append (l1 l2 : List Access) :
    visWrites (l1 ++ l2) = visWrites l1 ++ visWrites l2 := by
  induction l1 with
  | nil => rfl
  | cons a as ih =>
    cases a <;> simp [visWrites, ih]

namespace Board

theorem revealLog_stop (fuel : Nat) (b : Board) (row col : Int) (h : ¬ b.Open (row, col)) :
    ∃ log, revealLog (fuel + 1) b row col = some (b, log) ∧ visWrites log = [] ∧
      ∀ a ∈ log, b.isValid a.pos.1 a.pos.2 = true := by
  rw [revealLog]
  by_cases hv : b.isValid row col = true
  · rw [hv]
    simp only [Bool.not_true, Bool.false_eq_true, if_false]
    by_cases hm : b._mine_board.get row col = -1
    · rw [if_pos hm]
      refine ⟨_, rfl, rfl, ?_⟩
      intro a ha
      simp only [List.mem_singleton] at ha
      rw [ha]; exact hv
    · rw [if_neg hm]
      have hk : b._board.get row col ≠ chHidden := fun hk => h ⟨hv, hm, hk⟩
      rw [if_pos hk]
      refine ⟨_, rfl, rfl, ?_⟩
      intro a ha
      simp only [List.mem_cons, List.mem_singleton, List.not_mem_nil, or_false] at ha
      rcases ha with ha | ha <;> rw [ha] <;> exact hv
  · rw [Bool.not_eq_true] at hv
    rw [hv]
    exact ⟨[], rfl, rfl, fun a ha => absurd ha (List.not_mem_nil _)⟩

theorem revealLog_stop_eq (fuel : Nat) (b : Board) (row col : Int) (h : ¬ b.Open (row, col)) :
    revealLog (fuel + 1) b row col = revealLog 1 b row col := by
  rw [revealLog, revealLog]
  by_cases hv : b.isValid row col = true
  · rw [hv]
    simp only [Bool.not_true, Bool.false_eq_true, if_false]
    by_cases hm : b._mine_board.get row col = -1
    · rw [if_pos hm, if_pos hm]
    · have hk : b._board.get row col ≠ chHidden := fun hk => h ⟨hv, hm, hk⟩
      rw [if_neg hm, if_neg hm, if_pos hk, if_pos hk]
  · rw [Bool.not_eq_true] at hv
    rw [hv]
    rfl

theorem revealLog_nonzero (fuel : Nat) (b : Board) (row col : Int) (h : b.Open (row, col))
    (hz : b.mineAt (row, col) ≠ 0) :
    revealLog (fuel + 1) b row col =
      some ({ b with _board := b._board.set row col (wrapChar (chZero + b.mineAt (row, col))) },
        [Access.readMine (row, col), Access.readVis (row, col), Access.readMine (row, col),
         Access.readMine (row, col), Access.writeVis (row, col)]) := by
  obtain ⟨h1, h2, h3⟩ := h
  have h2' : ¬ b._mine_board.get row col = -1 := h2
  have h3' : ¬ b._board.get row col ≠ chHidden := not_not.2 h3
  have hz' : b._mine_board.get row col ≠ 0 := hz
  simp only at h1
  rw [revealLog, h1]
  simp only [Bool.not_true, Bool.false_eq_true, if_false]
  rw [if_neg h2', if_neg h3', if_pos hz']
  rfl

theorem revealLog_zero (fuel : Nat) (b : Board) (row col : Int) (h : b.Open (row, col))
    (hz : b.mineAt (row, col) = 0) :
    revealLog (fuel + 1) b row col =
      (revealLog fuel { b with _board := b._board.set row col chZero } (row + 1) col).bind fun r1 =>
      (revealLog fuel r1.1 row (col + 1)).bind fun r2 =>
      (revealLog fuel r2.1 (row - 1) col).bind fun r3 =>
      (revealLog fuel r3.1 row (col - 1)).bind fun r4 =>
      some (r4.1, [Access.readMine (row, col), Access.readVis (row, col),
        Access.readMine (row, col), Access.writeVis (row, col)] ++ r1.2 ++ r2.2 ++ r3.2 ++ r4.2) := by
  obtain ⟨h1, h2, h3⟩ := h
  have h2' : ¬ b._mine_board.get row col = -1 := h2
  have h3' : ¬ b._board.get row col ≠ chHidden := not_not.2 h3
  have hz' : ¬ b._mine_board.get row col ≠ 0 := not_not.2 hz
  simp only at h1
  rw [revealLog, h1]
  simp only [Bool.not_true, Bool.false_eq_true, if_false]
  rw [if_neg h2', if_neg h3', if_neg hz']
  cases revealLog fuel { b with _board := b._board.set row col chZero } (row + 1) col with
  | none => rfl
  | some r1 =>
    obtain ⟨b1, l1⟩ := r1
    simp only [Option.some_bind]
    cases revealLog fuel b1 row (col + 1) with
    | none => rfl
    | some r2 =>
      obtain ⟨b2, l2⟩ := r2
      simp only [Option.some_bind]
      cases revealLog fuel b2 (row - 1) col with
      | none => rfl
      | some r3 =>
        obtain ⟨b3, l3⟩ := r3
        simp only [Option.some_bind]
        cases revealLog fuel b3 row (col - 1) with
        | none => rfl
        | some r4 => rfl

/-- The board of the logged flood fill is the board of the flood fill. -/
theorem revealLog_board : ∀ (fuel : Nat) (b : Board) (row col : Int),
    (revealLog fuel b row col).map Prod.fst = revealAux fuel b row col := by
  intro fuel
  induction fuel with
  | zero => intro b row col; rfl
  | succ f ih =>
    intro b row col
    by_cases ho : b.Open (row, col)
    · by_cases hz : b.mineAt (row, col) = 0
      · rw [revealLog_zero f b row col ho hz, revealAux_zero f b row col ho hz, ← ih]
        cases revealLog f { b with _board := b._board.set row col chZero } (row + 1) col with
        | none => rfl
        | some r1 =>
          simp only [Option.some_bind, Option.map_some']
          rw [← ih]
          cases revealLog f r1.1 row (col + 1) with
          | none => rfl
          | some r2 =>
            simp only [Option.some_bind, Option.map_some']
            rw [← ih]
            cases revealLog f r2.1 (row - 1) col with
            | none => rfl
            | some r3 =>
              simp only [Option.some_bind, Option.map_some']
              rw [← ih]
              cases revealLog f r3.1 row (col - 1) with
              | none => rfl
              | some r4 => rfl
      · rw [revealLog_nonzero f b row col ho hz, revealAux_nonzero f b row col ho hz]
        rfl
    · obtain ⟨log, h, -, -⟩ := revealLog_stop f b row col ho
      rw [h, revealAux_stop f b row col ho]
      rfl

theorem DigitOk.toWritesReveal {b : Board} (hd : b.DigitOk) : b.WritesReveal := by
  intro p hv hm
  have h := hd p hv hm
  rw [wrapChar_digit _ h.1 h.2]
  show (48 : Int) + _ ≠ 45
  omega

theorem Ext.keepsWritesReveal {b b1 : Board} (h : Ext b b1) (hw : b.WritesReveal) :
    b1.WritesReveal := by
  intro p hv hm
  rw [h.mineAt_eq] at hm ⊢
  rw [isValid_congr h.side] at hv
  exact hw p hv hm

theorem LogOk.empty (b : Board) : LogOk b b [] :=
  ⟨Ext.refl b, fun _ ha => absurd ha (List.not_mem_nil _),
    fun _ hp => absurd hp (List.not_mem_nil _),
    fun _ => ⟨List.nodup_nil, fun _ hp => absurd hp (List.not_mem_nil _)⟩⟩

theorem LogOk.append {b b1 b2 : Board} {l1 l2 : List Access} (h1 : LogOk b b1 l1)
    (h2 : LogOk b1 b2 l2) : LogOk b b2 (l1 ++ l2) := by
  refine ⟨h1.ext.trans h2.ext, ?_, ?_, ?_⟩
  · intro a ha
    rcases List.mem_append.1 ha with ha | ha
    · exact h1.valid a ha
    · rw [← isValid_congr h1.ext.side]
      exact h2.valid a ha
  · intro p hp
    rw [visWrites_append] at hp
    rcases List.mem_append.1 hp with hp | hp
    · exact h1.wasOpen p hp
    · exact h1.ext.open_mono (h2.wasOpen p hp)
  · intro hw
    obtain ⟨n1, c1⟩ := h1.once hw
    obtain ⟨n2, c2⟩ := h2.once (h1.ext.keepsWritesReveal hw)
    rw [visWrites_append]
    refine ⟨List.nodup_append.2 ⟨n1, n2, ?_⟩, ?_⟩
    · intro p hp1 hp2
      exact c1 p hp1 (h2.wasOpen p hp2)
    · intro p hp
      rcases List.mem_append.1 hp with hp | hp
      · exact fun ho => c1 p hp (h2.ext.open_mono ho)
      · exact c2 p hp

/-- Every logged flood-fill call that returns satisfies `LogOk`. -/
theorem revealLog_ok : ∀ (fuel : Nat) (b : Board) (row col : Int) (b1 : Board)
    (log : List Access), revealLog fuel b row col = some (b1, log) → LogOk b b1 log := by
  intro fuel
  induction fuel with
  | zero => intro b row col b1 log h; simp [revealLog] at h
  | succ f ih =>
    intro b row col b1 log h
    by_cases ho : b.Open (row, col)
    · have hne : b.visAt (row, col) ≠ 0 := by rw [ho.2.2]; decide
      have hpre : ∀ (c : Int) (pre : List Access), visWrites pre = [(row, col)] →
          (∀ a ∈ pre, a.pos = (row, col)) →
          Ext b { b with _board := b._board.set row col c } →
          (b.WritesReveal → c ≠ chHidden) →
          LogOk b { b with _board := b._board.set row col c } pre := by
        intro c pre hw hpos he hc
        refine ⟨he, ?_, ?_, ?_⟩
        · intro a ha
          rw [hpos a ha]; exact ho.1
        · intro p hp
          rw [hw, List.mem_singleton] at hp
          rw [hp]; exact ho
        · intro hwr
          rw [hw]
          refine ⟨List.nodup_singleton _, ?_⟩
          intro p hp
          rw [List.mem_singleton] at hp
          rw [hp]
          apply not_open_of_vis
          rw [visAt_write b (row, col) c hne, if_pos rfl]
          exact hc hwr
      by_cases hz : b.mineAt (row, col) = 0
      · rw [revealLog_zero f b row col ho hz] at h
        obtain ⟨r1, h1, h⟩ := Option.bind_eq_some.1 h
        obtain ⟨r2, h2, h⟩ := Option.bind_eq_some.1 h
        obtain ⟨r3, h3, h⟩ := Option.bind_eq_some.1 h
        obtain ⟨r4, h4, h⟩ := Option.bind_eq_some.1 h
        have hfin := Option.some.inj h
        have e1 : b1 = r4.1 := (congrArg Prod.fst hfin).symm
        have e2 : log = [Access.readMine (row, col), Access.readVis (row, col),
            Access.readMine (row, col), Access.writeVis (row, col)] ++ r1.2 ++ r2.2 ++ r3.2 ++
            r4.2 := (congrArg Prod.snd hfin).symm
        have p0 := hpre chZero [Access.readMine (row, col), Access.readVis (row, col),
          Access.readMine (row, col), Access.writeVis (row, col)] rfl
          (by
            intro a ha
            simp only [List.mem_cons, List.mem_singleton, List.not_mem_nil, or_false] at ha
            rcases ha with ha | ha | ha | ha <;> rw [ha] <;> rfl)
          (Ext.write_zero b (row, col) ho hz) (fun _ => by decide)
        rw [e1, e2]
        exact (((p0.append (ih _ _ _ r1.1 r1.2 h1)).append (ih _ _ _ r2.1 r2.2 h2)).append
          (ih _ _ _ r3.1 r3.2 h3)).append (ih _ _ _ r4.1 r4.2 h4)
      · rw [revealLog_nonzero f b row col ho hz] at h
        have hfin := Option.some.inj h
        have e1 : b1 = _ := (congrArg Prod.fst hfin).symm
        have e2 : log = _ := (congrArg Prod.snd hfin).symm
        rw [e1, e2]
        exact hpre _ _ rfl
          (by
            intro a ha
            simp only [List.mem_cons, List.mem_singleton, List.not_mem_nil, or_false] at ha
            rcases ha with ha | ha | ha | ha | ha <;> rw [ha] <;> rfl)
          (Ext.write b (row, col) ho) (fun hw => hw (row, col) ho.1 ho.2.1)
    · obtain ⟨log1, h1, hw, hvalid⟩ := revealLog_stop f b row col ho
      rw [h1] at h
      have hfin := Option.some.inj h
      have e1 : b1 = b := (congrArg Prod.fst hfin).symm
      have e2 : log = log1 := (congrArg Prod.snd hfin).symm
      rw [e1, e2]
      refine ⟨Ext.refl b, hvalid, ?_, ?_⟩
      · intro p hp
        rw [hw] at hp
        exact absurd hp (List.not_mem_nil _)
      · intro _
        rw [hw]
        exact ⟨List.nodup_nil, fun p hp => absurd hp (List.not_mem_nil _)⟩

/-- The logged flood fill returns whenever the flood fill does, with the same board. -/
theorem revealLog_of_revealAux (fuel : Nat) (b : Board) (row col : Int) (b1 : Board)
    (h : revealAux fuel b row col = some b1) :
    ∃ log, revealLog fuel b row col = some (b1, log) := by
  have hb := revealLog_board fuel b row col
  rw [h] at hb
  cases hr : revealLog fuel b row col with
  | none => rw [hr] at hb; simp at hb
  | some r =>
    rw [hr] at hb
    simp only [Option.map_some', Option.some.injEq] at hb
    exact ⟨r.2, by rw [← hb]⟩

/-- The log does not depend on the budget once the budget suffices. -/
theorem revealLog_mono : ∀ (fuel : Nat) (b : Board) (row col : Int) (r : Board × List Access),
    revealLog fuel b row col = some r → ∀ k, revealLog (fuel + k) b row col = some r := by
  intro fuel
  induction fuel with
  | zero => intro b row col r h; simp [revealLog] at h
  | succ f ih =>
    intro b row col r h k
    rw [show f + 1 + k = (f + k) + 1 by omega]
    by_cases ho : b.Open (row, col)
    · by_cases hz : b.mineAt (row, col) = 0
      · rw [revealLog_zero f b row col ho hz] at h
        obtain ⟨r1, h1, h⟩ := Option.bind_eq_some.1 h
        obtain ⟨r2, h2, h⟩ := Option.bind_eq_some.1 h
        obtain ⟨r3, h3, h⟩ := Option.bind_eq_some.1 h
        obtain ⟨r4, h4, h⟩ := Option.bind_eq_some.1 h
        rw [revealLog_zero (f + k) b row col ho hz, ih _ _ _ _ h1 k, Option.some_bind,
          ih _ _ _ _ h2 k, Option.some_bind, ih _ _ _ _ h3 k, Option.some_bind,
          ih _ _ _ _ h4 k, Option.some_bind, h]
      · rw [revealLog_nonzero f b row col ho hz] at h
        rw [revealLog_nonzero (f + k) b row col ho hz, h]
    · rw [revealLog_stop_eq f b row col ho] at h
      rw [revealLog_stop_eq (f + k) b row col ho, h]

end Board

namespace Board

theorem inGrid_of_valid {b : Board} {p : Int × Int} (h : b.isValid p.1 p.2 = true) : b.InGrid p := by
  have := (isValid_iff b p.1 p.2).1 h
  exact ⟨h, ⟨this.1, this.2.2.1⟩, ⟨this.2.1, this.2.2.2⟩⟩

theorem incrementCountLog_fst (b : Board) (row col : Int) :
    (b.incrementCountLog row col).1 = b.incrementCount row col := by
  unfold incrementCountLog incrementCount
  by_cases hv : b.isValid row col = true
  · rw [hv]
    simp only [if_true, Bool.true_and]
    split <;> rfl
  · rw [Bool.not_eq_true] at hv
    rw [hv]
    rfl

theorem incrementCountLog_valid (b : Board) (row col : Int) :
    ∀ a ∈ (b.incrementCountLog row col).2, b.isValid a.pos.1 a.pos.2 = true := by
  unfold incrementCountLog
  by_cases hv : b.isValid row col = true
  · rw [hv]
    simp only [if_true]
    split
    · intro a ha
      simp only [List.mem_cons, List.mem_singleton, List.not_mem_nil, or_false] at ha
      rcases ha with ha | ha | ha <;> rw [ha] <;> exact hv
    · intro a ha
      simp only [List.mem_singleton] at ha
      rw [ha]; exact hv
  · rw [Bool.not_eq_true] at hv
    rw [hv]
    intro a ha
    exact absurd ha (List.not_mem_nil _)

theorem placeMineHereLog_eq (b : Board) (row col : Int) :
    b.placeMineHereLog row col =
      incAllLog (block row col)
        ({ b with _mine_board := b._mine_board.set row col (-1) }, [Access.writeMine (row, col)]) :=
  rfl

theorem incAllLog_spec (ps : List (Int × Int)) :
    ∀ acc : Board × List Access, (∀ a ∈ acc.2, acc.1.isValid a.pos.1 a.pos.2 = true) →
      (incAllLog ps acc).1 = incAll ps acc.1 ∧
        ∀ a ∈ (incAllLog ps acc).2, acc.1.isValid a.pos.1 a.pos.2 = true := by
  induction ps with
  | nil => intro acc h; exact ⟨rfl, h⟩
  | cons q qs ih =>
    intro acc h
    have hside : (acc.1.incrementCountLog q.1 q.2).1._side = acc.1._side := by
      rw [incrementCountLog_fst, incrementCount_side]
    have hstep : ∀ a ∈ acc.2 ++ (acc.1.incrementCountLog q.1 q.2).2,
        (acc.1.incrementCountLog q.1 q.2).1.isValid a.pos.1 a.pos.2 = true := by
      intro a ha
      rw [isValid_congr hside]
      rcases List.mem_append.1 ha with ha | ha
      · exact h a ha
      · exact incrementCountLog_valid acc.1 q.1 q.2 a ha
    obtain ⟨h1, h2⟩ := ih ((acc.1.incrementCountLog q.1 q.2).1,
      acc.2 ++ (acc.1.incrementCountLog q.1 q.2).2) hstep
    constructor
    · show (incAllLog qs _).1 = incAll qs (acc.1.incrementCount q.1 q.2)
      rw [h1, incrementCountLog_fst]
    · intro a ha
      rw [← isValid_congr hside]
      exact h2 a ha

theorem playerMarkMineLog_fst (b : Board) (row col : Int) :
    (b.playerMarkMineLog row col).1 = b.playerMarkMine row col := by
  unfold playerMarkMineLog playerMarkMine
  split
  · rfl
  · split <;> dsimp only <;> split <;> rfl

theorem playerMarkMineLog_valid (b : Board) (row col : Int) :
    ∀ a ∈ (b.playerMarkMineLog row col).2, b.isValid a.pos.1 a.pos.2 = true := by
  unfold playerMarkMineLog
  by_cases hv : b.isValid row col = true
  · have hthree : ∀ a ∈ [Access.readVis (row, col), Access.writeVis (row, col),
        Access.readMine (row, col)], b.isValid a.pos.1 a.pos.2 = true := by
      intro a ha
      simp only [List.mem_cons, List.mem_singleton, List.not_mem_nil, or_false] at ha
      rcases ha with ha | ha | ha <;> rw [ha] <;> exact hv
    rw [hv]
    simp only [Bool.not_true, Bool.false_eq_true, if_false]
    split <;> split <;> exact hthree
  · rw [Bool.not_eq_true] at hv
    rw [hv]
    intro a ha
    exact absurd ha (List.not_mem_nil _)

theorem revealMineCountNearInputLog_spec (b : Board) (row col : Int) :
    ∃ r, b.revealMineCountNearInputLog row col = some r ∧
      b.revealMineCountNearInput row col = some r.1 ∧
      ∀ a ∈ r.2, b.isValid a.pos.1 a.pos.2 = true := by
  obtain ⟨b1, h, -, -⟩ := reveal_returns b row col
  obtain ⟨log, hlog⟩ := revealLog_of_revealAux _ b row col b1 h
  exact ⟨(b1, log), hlog, h, (revealLog_ok _ b row col b1 log hlog).valid⟩

theorem playerInputLog_spec (b : Board) (row col : Int) :
    ∃ r, b.playerInputLog row col = some r ∧ b.playerInput row col = some r.1 ∧
      ∀ a ∈ r.2, b.isValid a.pos.1 a.pos.2 = true := by
  unfold playerInputLog playerInput
  by_cases hv : b.isValid row col = true
  · rw [hv]
    simp only [Bool.not_true, Bool.false_eq_true, if_false]
    by_cases hk : b._board.get row col = chMarked
    · rw [if_pos hk, if_pos hk]
      refine ⟨_, rfl, rfl, ?_⟩
      intro a ha
      simp only [List.mem_singleton] at ha
      rw [ha]; exact hv
    · rw [if_neg hk, if_neg hk]
      by_cases hm : b._mine_board.get row col = -1
      · rw [if_pos hm, if_pos hm]
        refine ⟨_, rfl, rfl, ?_⟩
        intro a ha
        simp only [List.mem_cons, List.mem_singleton, List.not_mem_nil, or_false] at ha
        rcases ha with ha | ha <;> rw [ha] <;> exact hv
      · rw [if_neg hm, if_neg hm]
        obtain ⟨r, h1, h2, h3⟩ := revealMineCountNearInputLog_spec b row col
        rw [h1, h2]
        refine ⟨_, rfl, rfl, ?_⟩
        intro a ha
        rcases List.mem_append.1 ha with ha | ha
        · simp only [List.mem_cons, List.mem_singleton, List.not_mem_nil, or_false] at ha
          rcases ha with ha | ha <;> rw [ha] <;> exact hv
        · exact h3 a ha
  · rw [Bool.not_eq_true] at hv
    rw [hv]
    exact ⟨_, rfl, rfl, fun a ha => absurd ha (List.not_mem_nil _)⟩

end Board

/-! The claims -/

/-- C1: for difficulty 0, 1 or 2 and in-range draws on which the placement loop finishes,
the constructed MineGrid is side x side with (side, mineCount) = (9,10), (16,40), (24,99)
and holds exactly mineCount cells equal to -1, counted over the in-bounds positions and
over the stored entries alike; a draw that lands on a mine leaves the grid and the
placement count as they are. -/
theorem C1_construction_places_exact_mines (difficulty : Int)
    (hd : difficulty = 0 ∨ difficulty = 1 ∨ difficulty = 2) (side mines : Int)
    (hsm : (side, mines) = (if difficulty = 0 then ((9 : Int), (10 : Int))
        else if difficulty = 1 then (16, 40) else (24, 99)))
    (draws : List Int) (hr : ∀ x ∈ draws, 0 ≤ x ∧ x ≤ side - 1)
    (b : Board) (h : Board.new difficulty draws = some b) :
    b._side = side ∧ b._mines = mines ∧ b._mine_board.Square side ∧
      (b.mineCount : Int) = mines ∧ (b.storedMines : Int) = mines ∧
      (∀ (b0 : Board) (i row col : Int) (rest : List Int), i < b0._mines →
        b0._mine_board.get row col = -1 →
        Board.placeLoop (row :: col :: rest) b0 i = Board.placeLoop rest b0 i) := by
  unfold Board.new at h
  cases hi : Board.init difficulty with
  | none => rw [hi] at h; simp at h
  | some b1 =>
    rw [hi] at h
    obtain ⟨s, m, rfl, hsm', -⟩ := Board.init_built difficulty b1 hi
    have hpair : (side, mines) = (s, m) := hsm.trans hsm'.symm
    obtain ⟨rfl, rfl⟩ := Prod.mk.inj hpair
    have hm0 : 0 ≤ mines ∧ 0 ≤ side := by
      rcases hd with rfl | rfl | rfl <;> simp at hsm <;> omega
    have hb0 : Board.Built side mines (Board.blank side mines) := Board.Built.zero
    obtain ⟨hb, hcount⟩ := Board.placeLoop_inv side mines draws _ 0 hb0
      (by rw [Board.blank_mineCount]; rfl) hm0.1 hr b h
    obtain ⟨h1, h2, -, -, h5⟩ := hb.inv
    have hstored := Board.mineCount_eq_storedMines b (h1 ▸ h5 hm0.2)
    refine ⟨h1, h2, h5 hm0.2, hcount, by rw [← hstored]; exact hcount, ?_⟩
    intro b0 i row col rest hlt hmine
    rw [Board.placeLoop, if_pos hlt, if_pos hmine]
    congr 1
    omega

/-- Witness for C1: the beginner board built from `beginnerDraws`, whose second pair of
draws lands on the mine just placed at (0,0). -/
theorem C1_construction_places_exact_mines_witness :
    (∀ x ∈ beginnerDraws, 0 ≤ x ∧ x ≤ 9 - 1) ∧ Board.new 0 beginnerDraws = some beginnerBoard ∧
      beginnerBoard._side = 9 ∧ beginnerBoard._mines = 10 ∧
      beginnerBoard._mine_board.Square 9 ∧ (beginnerBoard.mineCount : Int) = 10 ∧
      (beginnerBoard.storedMines : Int) = 10 ∧
      Board.placeLoop (0 :: 0 :: beginnerDraws.drop 4) ((Board.blank 9 10).placeMineHere 0 0) 1 =
        Board.placeLoop (beginnerDraws.drop 4) ((Board.blank 9 10).placeMineHere 0 0) 1 :=
  have hr : ∀ x ∈ beginnerDraws, (0 : Int) ≤ x ∧ x ≤ 9 - 1 := by decide
  have hn : Board.new 0 beginnerDraws = some beginnerBoard := by decide
  have h := C1_construction_places_exact_mines 0 (Or.inl rfl) 9 10 rfl beginnerDraws hr
    beginnerBoard hn
  ⟨hr, hn, h.1, h.2.1, h.2.2.1, h.2.2.2.1, h.2.2.2.2.1,
    h.2.2.2.2.2 ((Board.blank 9 10).placeMineHere 0 0) 1 0 0 (beginnerDraws.drop 4)
      (by decide) (by decide)⟩

/-- C2: in every MineGrid built from the all-zero grid by `placeMineHere` calls, each on an
in-bounds cell that is not yet a mine, every in-bounds non-mine cell holds the number of
mines among its up-to-8 in-bounds neighbours in the final grid, and so a value in 0..8. -/
theorem C2_counts_match_neighbours (n mines : Int) (b : Board) (hb : Board.Built n mines b)
    (row col : Int) (hv : b.isValid row col = true) (hm : b.mineAt (row, col) ≠ -1) :
    b.mineAt (row, col) = (b.mineNeighbours row col : Int) ∧
      0 ≤ b.mineAt (row, col) ∧ b.mineAt (row, col) ≤ 8 := by
  have h := (Board.consistent_iff b).1 hb.inv.2.2.2.1 row col hv hm
  have hle := Board.mineNeighbours_le b row col
  refine ⟨h, ?_, ?_⟩ <;> omega

/-- Witness for C2: the 3 x 3 grid with one mine placed at (1,1), read at the corner (0,0). -/
theorem C2_counts_match_neighbours_witness :
    demo.mineAt (0, 0) = (demo.mineNeighbours 0 0 : Int) ∧
      0 ≤ demo.mineAt (0, 0) ∧ demo.mineAt (0, 0) ≤ 8 :=
  C2_counts_match_neighbours 3 1 demo
    (Board.Built.place _ 1 1 Board.Built.zero (by decide) (by decide)) 0 0 (by decide) (by decide)

/-- C3: on a board whose MineGrid holds the neighbour counts, `revealMineCountNearInput`
returns and changes exactly the cells reachable from the start by a path of orthogonally
adjacent, in-bounds, hidden, non-mine cells whose cells before the last have count 0.  Each
such cell then shows the digit of its own count, every other cell keeps its symbol, and
MineGrid, the counter and the side are untouched.  On an all-hidden board with a zero-count
start these cells are the 4-connected zero-count region of the start plus the nonzero cells
bordering it, and their number is the number of cells turned from hidden to a digit. -/
theorem C3_flood_fill_reveals_reachable (b : Board) (hc : b.Consistent) (row col : Int) :
    ∃ b1, b.revealMineCountNearInput row col = some b1 ∧
      b1._mine_board = b._mine_board ∧ b1._mines = b._mines ∧ b1._side = b._side ∧
      (∀ x y, b1._board.InRange x y ↔ b._board.InRange x y) ∧
      (∀ p, b.Reach (row, col) p ↔ ∃ path, b.IsPath (row, col) p path) ∧
      (∀ p, b.Reach (row, col) p →
        b1.visAt p ≠ b.visAt p ∧ b1.visAt p = chZero + b.mineAt p ∧
          0 ≤ b.mineAt p ∧ b.mineAt p ≤ 8) ∧
      (∀ p, ¬ b.Reach (row, col) p → b1.visAt p = b.visAt p) ∧
      (b.AllHidden → b.isValid row col = true → b.mineAt (row, col) = 0 →
        {p | b.Reach (row, col) p} = b.zeroRegion (row, col) ∪ b.border (row, col) ∧
        {p | b.visAt p = chHidden ∧ chZero ≤ b1.visAt p ∧ b1.visAt p ≤ chZero + 8}.ncard =
          (b.zeroRegion (row, col)).ncard + (b.border (row, col)).ncard) := by
  obtain ⟨b1, h, -, -⟩ := Board.reveal_returns b row col
  have ok := Board.revealAux_ok _ b row col b1 hc.toDigitOk h
  have hreach : ∀ p, b.Reach (row, col) p →
      b1.visAt p ≠ b.visAt p ∧ b1.visAt p = chZero + b.mineAt p ∧
        0 ≤ b.mineAt p ∧ b.mineAt p ≤ 8 := by
    intro p hp
    have hopen := hp.last_open
    have hdig := hc.toDigitOk p hopen.1 hopen.2.1
    have hne : b1.visAt p ≠ b.visAt p := fun he => ok.complete hp (ok.ext.open_of_same hopen he)
    rcases ok.ext.vis p with hv | ⟨_, hv⟩
    · exact absurd hv hne
    · exact ⟨hne, by rw [hv, Board.wrapChar_digit _ hdig.1 hdig.2], hdig.1, hdig.2⟩
  have hout : ∀ p, ¬ b.Reach (row, col) p → b1.visAt p = b.visAt p := by
    intro p hp
    by_contra hne
    exact hp (ok.sound p hne)
  refine ⟨b1, h, ok.ext.mine_board, ok.ext.mines, ok.ext.side, ok.ext.inRange,
    fun p => Board.reach_iff_path b (row, col) p, hreach, hout, ?_⟩
  intro ha _ hz
  have hset := Board.reach_eq_region b hc ha (row, col) hz
  refine ⟨hset, ?_⟩
  rw [← Board.region_ncard, ← hset]
  congr 1
  ext p
  simp only [Set.mem_setOf_eq]
  constructor
  · rintro ⟨h1, h2, _⟩
    by_contra hp
    rw [hout p hp, h1] at h2
    exact absurd h2 (by decide)
  · intro hp
    obtain ⟨_, h2, h3, h4⟩ := hreach p hp
    refine ⟨hp.last_open.2.2, ?_, ?_⟩ <;> rw [h2] <;> omega

/-- Witness for C3: revealing the far corner (2,2) of the all-hidden 3 x 3 board with a mine
at (0,0).  The cell (0,1) is reached along the right and top edges and shows '1'. -/
theorem C3_flood_fill_reveals_reachable_witness :
    corner.Consistent ∧ corner.AllHidden ∧ corner.isValid 2 2 = true ∧ corner.mineAt (2, 2) = 0 ∧
      ∃ b1, corner.revealMineCountNearInput 2 2 = some b1 ∧
        b1._mine_board = corner._mine_board ∧ b1.visAt (0, 1) = chZero + 1 ∧
        (∀ p, ¬ corner.Reach (2, 2) p → b1.visAt p = corner.visAt p) ∧
        {p | corner.visAt p = chHidden ∧ chZero ≤ b1.visAt p ∧ b1.visAt p ≤ chZero + 8}.ncard =
          (corner.zeroRegion (2, 2)).ncard + (corner.border (2, 2)).ncard :=
  have hc : corner.Consistent := by decide
  have ha : corner.AllHidden := by decide
  have hv : corner.isValid 2 2 = true := by decide
  have hz : corner.mineAt (2, 2) = 0 := by decide
  have hpath : corner.IsPath (2, 2) (0, 1) [(2, 2), (1, 2), (0, 2), (0, 1)] :=
    ⟨rfl, rfl,
      List.Chain'.cons (by decide) (List.Chain'.cons (by decide)
        (List.Chain'.cons (by decide) (List.chain'_singleton _))),
      by decide, by decide⟩
  have ⟨b1, h1, h2, _, _, _, h6, h7, h8, h9⟩ := C3_flood_fill_reveals_reachable corner hc 2 2
  ⟨hc, ha, hv, hz, b1, h1, h2, (h7 (0, 1) ((h6 (0, 1)).2 ⟨_, hpath⟩)).2.1, h8, (h9 ha hv hz).2⟩

/-- C4: on an in-bounds position that is not marked and holds a mine, `playerInput`
returns 1 (Detonated) and leaves the whole board, so VisibleGrid, MineGrid and the counter,
as it was. -/
theorem C4_reveal_mine_detonates (b : Board) (row col : Int) (hv : b.isValid row col = true)
    (hnm : b.visAt (row, col) ≠ chMarked) (hm : b.mineAt (row, col) = -1) :
    b.playerInput row col = some { ret := 1, out := [Board.msgMine], board := b } := by
  unfold Board.visAt at hnm
  unfold Board.mineAt at hm
  unfold Board.playerInput
  rw [hv]
  simp only [Bool.not_true, Bool.false_eq_true, if_false]
  rw [if_neg hnm, if_pos hm]

/-- Witness for C4: the mine in the middle of the 3 x 3 board. -/
theorem C4_reveal_mine_detonates_witness :
    demo.playerInput 1 1 = some { ret := 1, out := [Board.msgMine], board := demo } :=
  C4_reveal_mine_detonates demo 1 1 (by decide) (by decide) (by decide)

/-- C5 fails as stated: on the marked mine of the 3 x 3 board `playerInput` returns 0
(Continue), not 1 (Detonated). -/
theorem C5_counterexample :
    (demo.playerMarkMine 1 1).isValid 1 1 = true ∧ (demo.playerMarkMine 1 1).mineAt (1, 1) = -1 ∧
      (demo.playerMarkMine 1 1).visAt (1, 1) = chMarked ∧
      ((demo.playerMarkMine 1 1).playerInput 1 1).map (fun r => r.ret) = some 0 := by
  decide

/-- C5 as amended: on an in-bounds mine cell `playerInput` leaves the whole board as it
was; it returns 1 (Detonated) when the cell is not marked and 0 (Continue) when it is
marked. -/
theorem C5_reveal_mine_hidden_or_marked (b : Board) (row col : Int)
    (hv : b.isValid row col = true) (hm : b.mineAt (row, col) = -1) :
    b.playerInput row col =
      some { ret := if b.visAt (row, col) = chMarked then 0 else 1,
             out := if b.visAt (row, col) = chMarked then [Board.msgMarked] else [Board.msgMine],
             board := b } := by
  unfold Board.mineAt at hm
  unfold Board.playerInput Board.visAt
  rw [hv]
  simp only [Bool.not_true, Bool.false_eq_true, if_false]
  by_cases hk : b._board.get row col = chMarked
  · rw [if_pos hk, if_pos hk, if_pos hk]
  · rw [if_neg hk, if_neg hk, if_neg hk, if_pos hm]

/-- Witness for C5 as amended: the hidden mine in the middle of the 3 x 3 board. -/
theorem C5_reveal_mine_hidden_or_marked_witness :
    demo.playerInput 1 1 =
      some { ret := if demo.visAt (1, 1) = chMarked then 0 else 1,
             out := if demo.visAt (1, 1) = chMarked then [Board.msgMarked] else [Board.msgMine],
             board := demo } :=
  C5_reveal_mine_hidden_or_marked demo 1 1 (by decide) (by decide)

/-- C6: in every state reached from a freshly constructed board by `playerMarkMine` and
`playerInput` calls with arbitrary integer coordinates, `getMines()` is the mine count minus
the number of mine cells currently marked; so it lies between 0 and the mine count, and it
is 0 exactly when every mine cell is marked, whatever is marked besides. -/
theorem C6_counter_tracks_marked_mines (difficulty : Int) (draws : List Int) (b0 : Board)
    (h0 : Board.new difficulty draws = some b0) (hr : ∀ x ∈ draws, 0 ≤ x ∧ x ≤ b0._side - 1)
    (ops : List Op) :
    ∃ b, b0.run ops = some b ∧
      b.getMines = b0._mines - (b.markedMines : Int) ∧ 0 ≤ b.getMines ∧ b.getMines ≤ b0._mines ∧
      (b.getMines = 0 ↔ ∀ row col, b.isValid row col = true → b.mineAt (row, col) = -1 →
        b.visAt (row, col) = chMarked) := by
  obtain ⟨ht, hcount⟩ := Board.new_tracked difficulty draws b0 h0 hr
  obtain ⟨b, hrun, hb⟩ := Board.Tracked.run ops b0 ht
  have hmc : b.mineCount = b0.mineCount := Board.mineCount_congr hb.1 hb.2.1
  obtain ⟨c1, c2, c3, c4⟩ := hb.counter
  rw [hmc, hcount] at c1 c3
  exact ⟨b, hrun, c1, c2, c3, c4⟩

/-- Witness for C6: on the beginner board, mark the mine at (0,0), reveal (8,0), mark the
non-mine cell (0,1). -/
theorem C6_counter_tracks_marked_mines_witness :
    (∀ x ∈ beginnerDraws, 0 ≤ x ∧ x ≤ beginnerBoard._side - 1) ∧
      Board.new 0 beginnerDraws = some beginnerBoard ∧
      ∃ b, beginnerBoard.run [Op.mark 0 0, Op.input 8 0, Op.mark 0 1] = some b ∧
        b.getMines = beginnerBoard._mines - (b.markedMines : Int) :=
  have hr : ∀ x ∈ beginnerDraws, 0 ≤ x ∧ x ≤ beginnerBoard._side - 1 := by decide
  have hn : Board.new 0 beginnerDraws = some beginnerBoard := by decide
  have ⟨b, h1, h2, _⟩ := C6_counter_tracks_marked_mines 0 beginnerDraws beginnerBoard hn hr
    [Op.mark 0 0, Op.input 8 0, Op.mark 0 1]
  ⟨hr, hn, b, h1, h2⟩

/-- C7: on an in-bounds hidden cell, two `playerMarkMine` calls in a row give back the board
they started from: VisibleGrid, the counter and MineGrid are all as before. -/
theorem C7_toggle_twice_restores (b : Board) (row col : Int) (hv : b.isValid row col = true)
    (hh : b.visAt (row, col) = chHidden)
    (hint : -2147483648 ≤ b._mines ∧ b._mines ≤ 2147483647) :
    (b.playerMarkMine row col).playerMarkMine row col = b := by
  have hr : b._board.InRange row col :=
    Grid.get_ne_zero (by rw [show b._board.get row col = chHidden from hh]; decide)
  have hv1 : (b.playerMarkMine row col).isValid row col = true := by
    rw [Board.isValid_congr (Board.playerMarkMine_side b row col)]; exact hv
  have hb1 : (b.playerMarkMine row col)._board = b._board.set row col chMarked := by
    rw [Board.playerMarkMine_board b row col hv, hh]; rfl
  have hvis1 : (b.playerMarkMine row col).visAt (row, col) = chMarked := by
    unfold Board.visAt
    rw [hb1, Grid.get_set, if_pos ⟨rfl, rfl, hr⟩]
  have hmine1 : (b.playerMarkMine row col).mineAt (row, col) = b.mineAt (row, col) := by
    unfold Board.mineAt; rw [Board.playerMarkMine_mine_board]
  have e1 := (Board.playerMarkMine_side (b.playerMarkMine row col) row col).trans
    (Board.playerMarkMine_side b row col)
  have e2 := (Board.playerMarkMine_mine_board (b.playerMarkMine row col) row col).trans
    (Board.playerMarkMine_mine_board b row col)
  have e3 := Board.playerMarkMine_board (b.playerMarkMine row col) row col hv1
  have e4 := Board.playerMarkMine_mines (b.playerMarkMine row col) row col hv1
  rw [hvis1, if_pos rfl, hb1] at e3
  have e3' : ((b.playerMarkMine row col).playerMarkMine row col)._board = b._board := by
    rw [e3]
    have := Grid.set_restore b._board row col chMarked hr
    rwa [show b._board.get row col = chHidden from hh] at this
  rw [hvis1, if_pos rfl, hmine1, Board.playerMarkMine_mines b row col hv, hh] at e4
  have e4' : ((b.playerMarkMine row col).playerMarkMine row col)._mines = b._mines := by
    rw [e4]
    by_cases hm : b.mineAt (row, col) = -1
    · rw [if_pos hm, if_pos hm, if_neg (by decide)]
      exact Board.wrapInt_restore _ hint.1 hint.2
    · rw [if_neg hm, if_neg hm]
  exact Board.eq_of_fields e1 e4' e2 e3'

/-- Witness for C7: toggling the hidden mine of the 3 x 3 board twice. -/
theorem C7_toggle_twice_restores_witness :
    (demo.playerMarkMine 1 1).playerMarkMine 1 1 = demo :=
  C7_toggle_twice_restores demo 1 1 (by decide) (by decide) (by decide)

/-- C8 fails as stated: on the 3 x 3 board, (0,0) is revealed as '1' by `playerInput`, then
becomes marked by `playerMarkMine`, then hidden by a second `playerMarkMine`. -/
theorem C8_counterexample :
    (demo.run [Op.input 0 0]).map (fun b => b.visAt (0, 0)) = some (chZero + 1) ∧
      (demo.run [Op.input 0 0, Op.mark 0 0]).map (fun b => b.visAt (0, 0)) = some chMarked ∧
      (demo.run [Op.input 0 0, Op.mark 0 0, Op.mark 0 0]).map (fun b => b.visAt (0, 0)) =
        some chHidden := by
  decide

/-- C8 as amended: along every sequence of `playerMarkMine` and `playerInput` calls in which
`playerMarkMine` is never called on the cell itself, a cell that shows a digit keeps
showing that digit; `playerMarkMine` called on an in-bounds cell that shows a digit turns
it to marked. -/
theorem C8_revealed_stays_unless_marked (b : Board) (p : Int × Int)
    (hdig : chZero ≤ b.visAt p ∧ b.visAt p ≤ chZero + 8) (ops : List Op)
    (hops : ∀ op ∈ ops, op ≠ Op.mark p.1 p.2) :
    (∃ b1, b.run ops = some b1 ∧ b1.visAt p = b.visAt p) ∧
      (b.isValid p.1 p.2 = true → (b.playerMarkMine p.1 p.2).visAt p = chMarked) := by
  constructor
  · induction ops generalizing b with
    | nil => exact ⟨b, rfl, rfl⟩
    | cons op ops ih =>
      have hrest : ∀ o ∈ ops, o ≠ Op.mark p.1 p.2 :=
        fun o ho => hops o (List.mem_cons_of_mem _ ho)
      have hop := hops op (List.mem_cons_self _ _)
      cases op with
      | mark row col =>
        have hne : ¬ (p.1 = row ∧ p.2 = col) := by
          rintro ⟨rfl, rfl⟩
          exact hop rfl
        have hsame : (b.playerMarkMine row col).visAt p = b.visAt p := by
          by_cases hv : b.isValid row col = true
          · unfold Board.visAt
            rw [Board.playerMarkMine_board b row col hv, Grid.get_set, if_neg]
            exact fun h => hne ⟨h.1, h.2.1⟩
          · rw [Bool.not_eq_true] at hv
            rw [Board.playerMarkMine_invalid b row col hv]
        obtain ⟨b2, h2, h3⟩ := ih (b.playerMarkMine row col) (by rw [hsame]; exact hdig) hrest
        exact ⟨b2, by
          show ((some (b.playerMarkMine row col)).bind fun b1 => b1.run ops) = some b2
          rw [Option.some_bind]; exact h2, h3.trans hsame⟩
      | input row col =>
        obtain ⟨r, hr, he⟩ := Board.playerInput_ext b row col
        have hsame : r.board.visAt p = b.visAt p := by
          rcases he.vis p with hv | ⟨ho, _⟩
          · exact hv
          · have := ho.2.2
            rw [this] at hdig
            exact absurd hdig.1 (by decide)
        obtain ⟨b2, h2, h3⟩ := ih r.board (by rw [hsame]; exact hdig) hrest
        exact ⟨b2, by
          show (((b.playerInput row col).map fun r => r.board).bind fun b1 => b1.run ops) =
            some b2
          rw [hr, Option.map_some', Option.some_bind]; exact h2, h3.trans hsame⟩
  · intro hv
    have hne0 : b.visAt p ≠ 0 := by
      intro h0
      rw [h0] at hdig
      exact absurd hdig.1 (by decide)
    have hnm : b.visAt (p.1, p.2) ≠ chMarked := by
      intro hk
      have hk' : b.visAt p = chMarked := hk
      rw [hk'] at hdig
      exact absurd hdig.1 (by decide)
    have hr : b._board.InRange p.1 p.2 := Grid.get_ne_zero hne0
    unfold Board.visAt
    rw [Board.playerMarkMine_board b p.1 p.2 hv, Grid.get_set, if_pos ⟨rfl, rfl, hr⟩, if_neg hnm]

/-- Witness for C8 as amended: after (0,0) of the 3 x 3 board is revealed, marking (0,1)
and revealing (2,2) leave it revealed, and marking (0,0) itself turns it to marked. -/
theorem C8_revealed_stays_unless_marked_witness :
    (∃ b1, Board.run
        { demo with _board := [[chZero + 1, chHidden, chHidden], [chHidden, chHidden, chHidden],
                                 [chHidden, chHidden, chHidden]] }
        [Op.mark 0 1, Op.input 2 2] = some b1 ∧ b1.visAt (0, 0) = chZero + 1) ∧
      (Board.playerMarkMine
        { demo with _board := [[chZero + 1, chHidden, chHidden], [chHidden, chHidden, chHidden],
                                 [chHidden, chHidden, chHidden]] } 0 0).visAt (0, 0) = chMarked :=
  have h := C8_revealed_stays_unless_marked
    { demo with _board := [[chZero + 1, chHidden, chHidden], [chHidden, chHidden, chHidden],
                             [chHidden, chHidden, chHidden]] }
    (0, 0) (by decide) [Op.mark 0 1, Op.input 2 2] (by decide)
  ⟨h.1, h.2 (by decide)⟩

/-- C9: on a position that is out of bounds, or whose VisibleGrid entry is marked,
`playerInput` returns 0 (Continue) and leaves the whole board as it was. -/
theorem C9_reveal_out_of_bounds_or_marked (b : Board) (row col : Int)
    (h : b.isValid row col = false ∨ b.visAt (row, col) = chMarked) :
    (b.playerInput row col).map (fun r => (r.ret, r.board)) = some (0, b) := by
  unfold Board.playerInput
  by_cases hv : b.isValid row col = true
  · have hk : b._board.get row col = chMarked := by
      rcases h with h | h
      · rw [hv] at h; exact absurd h (by decide)
      · exact h
    rw [hv]
    simp only [Bool.not_true, Bool.false_eq_true, if_false]
    rw [if_pos hk]
    rfl
  · rw [Bool.not_eq_true] at hv
    rw [hv]
    rfl

/-- Witness for C9: a position outside the 3 x 3 board. -/
theorem C9_reveal_out_of_bounds_or_marked_witness :
    (demo.playerInput (-1) 3).map (fun r => (r.ret, r.board)) = some (0, demo) :=
  C9_reveal_out_of_bounds_or_marked demo (-1) 3 (Or.inl (by decide))

/-- C10 fails as stated: on the 3 x 3 board an out-of-bounds position, a marked cell and a
hidden non-mine cell all make `playerInput` return the same value 0. -/
theorem C10_counterexample :
    demo.isValid 5 5 = false ∧ (demo.playerInput 5 5).map (fun r => r.ret) = some 0 ∧
      (demo.playerMarkMine 0 0).visAt (0, 0) = chMarked ∧
      ((demo.playerMarkMine 0 0).playerInput 0 0).map (fun r => r.ret) = some 0 ∧
      demo.Open (0, 0) ∧ (demo.playerInput 0 0).map (fun r => r.ret) = some 0 := by
  decide

/-- C10 as amended: `playerInput` always returns; its value is 1 exactly on an in-bounds
unmarked mine and 0 otherwise, so out-of-bounds, marked and successful reveals all return 0.
They are told apart by what is printed only: the out-of-bounds line, the marked line, or
nothing, which are pairwise different. -/
theorem C10_outcomes_differ_in_output_only (b : Board) (row col : Int) :
    ∃ r, b.playerInput row col = some r ∧
      r.ret = (if b.isValid row col = true ∧ b.visAt (row, col) ≠ chMarked ∧
        b.mineAt (row, col) = -1 then 1 else 0) ∧
      r.out = (if b.isValid row col = false then [Board.msgOutOfBounds]
        else if b.visAt (row, col) = chMarked then [Board.msgMarked]
        else if b.mineAt (row, col) = -1 then [Board.msgMine] else []) ∧
      [Board.msgOutOfBounds] ≠ [Board.msgMarked] ∧ [Board.msgOutOfBounds] ≠ ([] : List String) ∧
      [Board.msgMarked] ≠ ([] : List String) := by
  have hmsg : [Board.msgOutOfBounds] ≠ [Board.msgMarked] ∧
      [Board.msgOutOfBounds] ≠ ([] : List String) ∧ [Board.msgMarked] ≠ ([] : List String) := by
    decide
  unfold Board.playerInput Board.visAt Board.mineAt
  by_cases hv : b.isValid row col = true
  · rw [hv]
    simp only [Bool.not_true, Bool.false_eq_true, if_false, true_and]
    by_cases hk : b._board.get row col = chMarked
    · rw [if_pos hk]
      exact ⟨_, rfl, by simp [hk], by simp [hk], hmsg⟩
    · rw [if_neg hk]
      by_cases hm : b._mine_board.get row col = -1
      · rw [if_pos hm]
        exact ⟨_, rfl, by simp [hk, hm], by simp [hk, hm], hmsg⟩
      · rw [if_neg hm]
        obtain ⟨b1, h1, -⟩ := Board.reveal_returns b row col
        rw [h1]
        exact ⟨_, rfl, by simp [hk, hm], by simp [hk, hm], hmsg⟩
  · rw [Bool.not_eq_true] at hv
    rw [hv]
    exact ⟨_, rfl, by simp, by simp, hmsg⟩

/-- C11: for every board and every out-of-bounds pair of integers, `playerMarkMine` gives
back the board it was called on: VisibleGrid, MineGrid and the counter are unchanged. -/
theorem C11_mark_out_of_bounds_is_noop (b : Board) (row col : Int)
    (hv : b.isValid row col = false) : b.playerMarkMine row col = b := by
  unfold Board.playerMarkMine
  rw [hv]
  rfl

/-- Witness for C11: marking row 3 of the 3 x 3 board. -/
theorem C11_mark_out_of_bounds_is_noop_witness : demo.playerMarkMine 3 0 = demo :=
  C11_mark_out_of_bounds_is_noop demo 3 0 (by decide)

/-- C12: on an in-bounds non-mine cell, `playerInput` returns 0 (Continue), and a second
`playerInput` on the same cell right after it returns 0 again and leaves the whole board
exactly as the first call left it. -/
theorem C12_reveal_twice_is_idempotent (b : Board) (row col : Int)
    (hv : b.isValid row col = true) (hm : b.mineAt (row, col) ≠ -1) :
    ∃ r1 r2, b.playerInput row col = some r1 ∧ r1.ret = 0 ∧
      r1.board.playerInput row col = some r2 ∧ r2.ret = 0 ∧ r2.board = r1.board := by
  have hm' : ¬ b._mine_board.get row col = -1 := hm
  by_cases hk : b._board.get row col = chMarked
  · have h1 : b.playerInput row col = some { ret := 0, out := [Board.msgMarked], board := b } := by
      unfold Board.playerInput
      rw [hv]
      simp only [Bool.not_true, Bool.false_eq_true, if_false]
      rw [if_pos hk]
    exact ⟨_, _, h1, rfl, h1, rfl, rfl⟩
  · have hform : ∀ (b' : Board), b'.isValid row col = true → ¬ b'._board.get row col = chMarked →
        ¬ b'._mine_board.get row col = -1 → ∀ b1, b'.revealMineCountNearInput row col = some b1 →
        b'.playerInput row col = some { ret := 0, out := [], board := b1 } := by
      intro b' hv' hk' hm1 b1 hb1
      unfold Board.playerInput
      rw [hv']
      simp only [Bool.not_true, Bool.false_eq_true, if_false]
      rw [if_neg hk', if_neg hm1, hb1]
    by_cases ho : b.Open (row, col)
    · obtain ⟨b1, hb1, he, -⟩ := Board.reveal_returns b row col
      have hvis := Board.revealAux_start_vis _ b row col b1 hb1 ho
      have hv1 : b1.isValid row col = true := by rw [Board.isValid_congr he.side]; exact hv
      have hm1 : ¬ b1._mine_board.get row col = -1 := by rw [he.mine_board]; exact hm'
      have h1 := hform b hv hk hm' b1 hb1
      by_cases hk1 : b1._board.get row col = chMarked
      · have h2 : b1.playerInput row col = some { ret := 0, out := [Board.msgMarked], board := b1 } := by
          unfold Board.playerInput
          rw [hv1]
          simp only [Bool.not_true, Bool.false_eq_true, if_false]
          rw [if_pos hk1]
        exact ⟨_, _, h1, rfl, h2, rfl, rfl⟩
      · have hrev : b1.revealMineCountNearInput row col = some b1 := by
          by_cases ho1 : b1.Open (row, col)
          · have hz1 : b1.mineAt (row, col) ≠ 0 := by
              intro hz
              rw [he.mineAt_eq] at hz
              rw [hz] at hvis
              have := ho1.2.2
              rw [hvis] at this
              exact absurd this (by decide)
            unfold Board.revealMineCountNearInput
            rw [Board.revealAux_nonzero _ b1 row col ho1 hz1]
            congr 1
            have hr : b1._board.InRange row col :=
              Grid.get_ne_zero (by rw [show b1._board.get row col = chHidden from ho1.2.2]; decide)
            have hval : wrapChar (chZero + b1.mineAt (row, col)) = b1._board.get row col := by
              rw [he.mineAt_eq, ← hvis]; rfl
            rw [hval, Grid.set_self _ _ _ hr]
          · exact Board.revealAux_stop _ b1 row col ho1
        exact ⟨_, _, h1, rfl, hform b1 hv1 hk1 hm1 b1 hrev, rfl, rfl⟩
    · have hrev : b.revealMineCountNearInput row col = some b := Board.revealAux_stop _ b row col ho
      have h1 := hform b hv hk hm' b hrev
      exact ⟨_, _, h1, rfl, h1, rfl, rfl⟩

/-- Witness for C12: revealing (0,0) of the 3 x 3 board twice. -/
theorem C12_reveal_twice_is_idempotent_witness :
    ∃ r1 r2, demo.playerInput 0 0 = some r1 ∧ r1.ret = 0 ∧
      r1.board.playerInput 0 0 = some r2 ∧ r2.ret = 0 ∧ r2.board = r1.board :=
  C12_reveal_twice_is_idempotent demo 0 0 (by decide) (by decide)

/-- C13: `isValid(row, col)` is true exactly when `0 <= row < _side` and `0 <= col < _side`.
It is a function of the board and the two integers that returns a truth value only, so it
leaves the board as it is. -/
theorem C13_isValid_is_bounds_check (b : Board) (row col : Int) :
    b.isValid row col = true ↔ (0 ≤ row ∧ row < b._side) ∧ (0 ≤ col ∧ col < b._side) := by
  unfold Board.isValid
  simp only [Bool.and_eq_true, decide_eq_true_eq, ge_iff_le]
  tauto

/-- C14 fails as stated: on a 2 x 2 board whose MineGrid holds -3 at (0,1), the flood fill
started at (0,0) writes the VisibleGrid cell (0,1) twice, since the character it writes
there, `'0' + (-3)`, is the hidden symbol itself. -/
theorem C14_counterexample :
    dashBoard.isValid 0 1 = true ∧ dashBoard.mineAt (0, 1) = -3 ∧
      wrapChar (chZero + dashBoard.mineAt (0, 1)) = chHidden ∧
      (dashBoard.revealMineCountNearInputLog 0 0).map
        (fun r => (visWrites r.2).count (0, 1)) = some 2 := by
  decide

/-- C14 as amended: for every board and every integer start position the flood fill
terminates, with a result that no larger budget changes and with no more hidden cells than
before.  It makes nested calls only on an in-bounds hidden non-mine cell of count 0, and
then only after that cell has been written '0': every nested call starts on a board with
strictly fewer hidden cells than the calling one.  Each VisibleGrid cell is written at most
once provided no in-bounds non-mine MineGrid value `v` has `'0' + v = '-'`, which holds
when these values are counts in 0..8. -/
theorem C14_flood_fill_terminates (b : Board) (row col : Int) :
    ∃ b1 log,
      b.revealMineCountNearInput row col = some b1 ∧
      b.revealMineCountNearInputLog row col = some (b1, log) ∧
      (∀ fuel, b.hiddenCount < fuel →
        Board.revealAux fuel b row col = some b1 ∧
          Board.revealLog fuel b row col = some (b1, log)) ∧
      b1.hiddenCount ≤ b.hiddenCount ∧
      (¬ (b.Open (row, col) ∧ b.mineAt (row, col) = 0) →
        Board.revealAux 1 b row col = some b1) ∧
      (b.Open (row, col) → b.mineAt (row, col) = 0 → ∀ fuel, b.hiddenCount ≤ fuel →
        ∃ c1 c2 c3,
          Board.visAt { b with _board := b._board.set row col chZero } (row, col) = chZero ∧
          Board.hiddenCount { b with _board := b._board.set row col chZero } + 1 =
            b.hiddenCount ∧
          Board.revealAux fuel { b with _board := b._board.set row col chZero } (row + 1) col =
            some c1 ∧
          Board.revealAux fuel c1 row (col + 1) = some c2 ∧
          Board.revealAux fuel c2 (row - 1) col = some c3 ∧
          Board.revealAux fuel c3 row (col - 1) = some b1 ∧
          c1.hiddenCount < b.hiddenCount ∧ c2.hiddenCount < b.hiddenCount ∧
          c3.hiddenCount < b.hiddenCount) ∧
      (b.WritesReveal → (visWrites log).Nodup) ∧
      (b.DigitOk → b.WritesReveal) := by
  obtain ⟨b1, h, he, hfuel⟩ := Board.reveal_returns b row col
  obtain ⟨log, hlog⟩ := Board.revealLog_of_revealAux _ b row col b1 h
  have hlogfuel : ∀ fuel, b.hiddenCount < fuel → Board.revealLog fuel b row col = some (b1, log) := by
    intro fuel hf
    have := Board.revealLog_mono _ b row col _ hlog (fuel - (b.hiddenCount + 1))
    rwa [show b.hiddenCount + 1 + (fuel - (b.hiddenCount + 1)) = fuel by omega] at this
  refine ⟨b1, log, h, hlog, fun fuel hf => ⟨hfuel fuel hf, hlogfuel fuel hf⟩, he.hidden, ?_, ?_,
    fun hw => ((Board.revealLog_ok _ b row col b1 log hlog).once hw).1,
    fun hd => hd.toWritesReveal⟩
  · intro hno
    have h1 := hfuel (b.hiddenCount + 1) (Nat.lt_succ_self _)
    by_cases ho : b.Open (row, col)
    · have hz : b.mineAt (row, col) ≠ 0 := fun hz => hno ⟨ho, hz⟩
      rw [Board.revealAux_nonzero _ b row col ho hz] at h1
      rw [Board.revealAux_nonzero 0 b row col ho hz, h1]
    · rw [Board.revealAux_stop _ b row col ho] at h1
      rw [Board.revealAux_stop 0 b row col ho, h1]
  · intro ho hz fuel hf
    have h1 := hfuel (fuel + 1) (by omega)
    rw [Board.revealAux_zero fuel b row col ho hz] at h1
    obtain ⟨c1, e1, h1⟩ := Option.bind_eq_some.1 h1
    obtain ⟨c2, e2, h1⟩ := Option.bind_eq_some.1 h1
    obtain ⟨c3, e3, e4⟩ := Option.bind_eq_some.1 h1
    have hne : b.visAt (row, col) ≠ 0 := by rw [ho.2.2]; decide
    have hw := Board.hiddenCount_write b (row, col) chZero ho.2.2
    rw [if_neg (by decide)] at hw
    simp only at hw
    have k1 := (Board.revealAux_ext _ _ _ _ _ e1).hidden
    have k2 := (Board.revealAux_ext _ _ _ _ _ e2).hidden
    have k3 := (Board.revealAux_ext _ _ _ _ _ e3).hidden
    refine ⟨c1, c2, c3, ?_, by omega, e1, e2, e3, e4, by omega, by omega, by omega⟩
    rw [Board.visAt_write b (row, col) chZero hne, if_pos rfl]

/-- Witness for C14 as amended: the flood fill started at (2,2) of the 3 x 3 board with a
mine at (0,0), a hidden cell of count 0 on a grid of counts. -/
theorem C14_flood_fill_terminates_witness :
    corner.Open (2, 2) ∧ corner.mineAt (2, 2) = 0 ∧
      ∃ b1 log, corner.revealMineCountNearInput 2 2 = some b1 ∧
        corner.revealMineCountNearInputLog 2 2 = some (b1, log) ∧
        b1.hiddenCount ≤ corner.hiddenCount ∧ (visWrites log).Nodup :=
  have ho : corner.Open (2, 2) := by decide
  have hz : corner.mineAt (2, 2) = 0 := by decide
  have hc : corner.Consistent := by decide
  have ⟨b1, log, h1, h2, _, h4, _, _, h7, h8⟩ := C14_flood_fill_terminates corner 2 2
  ⟨ho, hz, b1, log, h1, h2, h4, h7 (h8 hc.toDigitOk)⟩

/-- C15: for every side n >= 1, on the all-hidden n x n board with no mines, `playerInput`
on any in-bounds cell returns 0 (Continue) without printing, and the board it leaves has
every one of its n*n VisibleGrid cells equal to '0' and is otherwise as before. -/
theorem C15_reveal_on_empty_grid_reveals_all (n mines : Int) (hn : 1 ≤ n) (row col : Int)
    (hrow : 0 ≤ row ∧ row < n) (hcol : 0 ≤ col ∧ col < n) :
    (Board.blank n mines).playerInput row col =
      some { ret := 0, out := [],
             board := { Board.blank n mines with _board := Grid.fill n chZero } } := by
  have hvalid : ∀ q : Int × Int, (Board.blank n mines).isValid q.1 q.2 = true ↔
      0 ≤ q.1 ∧ 0 ≤ q.2 ∧ q.1 < n ∧ q.2 < n := fun q => Board.isValid_iff _ _ _
  have hv : (Board.blank n mines).isValid row col = true := (hvalid (row, col)).2 (by simp only; omega)
  have hzero : ∀ q : Int × Int, (Board.blank n mines).isValid q.1 q.2 = true →
      (Board.blank n mines).mineAt q = 0 := fun q hq => Board.blank_mineAt n mines q hq
  have hhid : ∀ q : Int × Int, (Board.blank n mines).isValid q.1 q.2 = true →
      (Board.blank n mines).visAt q = chHidden := by
    intro q hq
    show (Grid.fill n chHidden).get q.1 q.2 = chHidden
    rw [Grid.get_fill, if_pos ((hvalid q).1 hq)]
  have ha : (Board.blank n mines).AllHidden := fun q hq =>
    hhid q ((Board.mem_cellList_iff _ q).1 hq)
  obtain ⟨b1, hb1, he, -⟩ := Board.reveal_returns (Board.blank n mines) row col
  have ok := Board.revealAux_ok _ _ row col b1 (Board.blank_consistent n mines).toDigitOk hb1
  have hsq : b1._board.Square n :=
    Board.revealAux_square n _ _ row col b1 hb1 (Grid.square_fill n chHidden (by omega))
  have hcell : ∀ q : Int × Int, (Board.blank n mines).isValid q.1 q.2 = true →
      b1.visAt q = chZero := by
    intro q hq
    have hreach : (Board.blank n mines).Reach (row, col) q :=
      ha.reach_of_zeroConn (Board.zeroConn_of_all_zero _ hzero _ (row, col) q hv hq rfl)
    have hno := ok.complete hreach
    rcases he.vis q with hsame | ⟨_, hnew⟩
    · exact absurd (he.open_of_same hreach.last_open hsame) hno
    · rw [hnew, hzero q hq]; rfl
  have hboard : b1._board = Grid.fill n chZero := by
    apply Grid.ext_square hsq (Grid.square_fill n chZero (by omega))
    intro x y hx0 hxn hy0 hyn
    have := hcell (x, y) ((hvalid (x, y)).2 ⟨hx0, hy0, hxn, hyn⟩)
    rw [Grid.get_fill, if_pos ⟨hx0, hy0, hxn, hyn⟩]
    exact this
  have hfinal : b1 = { Board.blank n mines with _board := Grid.fill n chZero } :=
    Board.eq_of_fields he.side he.mines he.mine_board hboard
  have hnk : ¬ (Board.blank n mines)._board.get row col = chMarked := by
    have := hhid (row, col) hv
    rw [show (Board.blank n mines)._board.get row col = chHidden from this]
    decide
  have hnm : ¬ (Board.blank n mines)._mine_board.get row col = -1 := by
    have := hzero (row, col) hv
    rw [show (Board.blank n mines)._mine_board.get row col = 0 from this]
    decide
  unfold Board.playerInput
  rw [hv]
  simp only [Bool.not_true, Bool.false_eq_true, if_false]
  rw [if_neg hnk, if_neg hnm, hb1, hfinal]

/-- Witness for C15: revealing the middle of the empty 3 x 3 board. -/
theorem C15_reveal_on_empty_grid_reveals_all_witness :
    (Board.blank 3 0).playerInput 1 1 =
      some { ret := 0, out := [],
             board := { Board.blank 3 0 with _board := Grid.fill 3 chZero } } :=
  C15_reveal_on_empty_grid_reveals_all 3 0 (by decide) 1 1 (by decide) (by decide)

/-- C16: on an in-bounds hidden non-mine cell whose count is nonzero (a value in 1..8),
`playerInput` returns 0 (Continue) without printing and its only effect is the write of
the digit of that count to that cell: the cell changes and no other cell does.  On the
3 x 3 grid with a single mine placed at (1,1) every other cell has count 1, and revealing
(0,0) reveals only (0,0), as '1'. -/
theorem C16_reveal_nonzero_reveals_one_cell (b : Board) (row col : Int)
    (hv : b.isValid row col = true) (hh : b.visAt (row, col) = chHidden)
    (hm : b.mineAt (row, col) ≠ -1) (hz : b.mineAt (row, col) ≠ 0)
    (hr : 0 ≤ b.mineAt (row, col) ∧ b.mineAt (row, col) ≤ 8) :
    (b.playerInput row col =
        some { ret := 0, out := [],
               board := { b with _board := b._board.set row col (chZero + b.mineAt (row, col)) } } ∧
      Board.visAt { b with _board := b._board.set row col (chZero + b.mineAt (row, col)) }
          (row, col) = chZero + b.mineAt (row, col) ∧
      chZero + b.mineAt (row, col) ≠ b.visAt (row, col) ∧
      ∀ p, p ≠ (row, col) →
        Board.visAt { b with _board := b._board.set row col (chZero + b.mineAt (row, col)) } p =
          b.visAt p) ∧
    (demo._mine_board = [[1, 1, 1], [1, -1, 1], [1, 1, 1]] ∧
      demo.playerInput 0 0 =
        some { ret := 0, out := [],
               board := { demo with _board := [[chZero + 1, chHidden, chHidden],
                 [chHidden, chHidden, chHidden], [chHidden, chHidden, chHidden]] } }) := by
  have ho : b.Open (row, col) := ⟨hv, hm, hh⟩
  have hne : b.visAt (row, col) ≠ 0 := by rw [hh]; decide
  have hk : ¬ b._board.get row col = chMarked := by
    rw [show b._board.get row col = chHidden from hh]; decide
  have hm1 : ¬ b._mine_board.get row col = -1 := hm
  have hrev : b.revealMineCountNearInput row col =
      some { b with _board := b._board.set row col (chZero + b.mineAt (row, col)) } := by
    unfold Board.revealMineCountNearInput
    rw [Board.revealAux_nonzero _ b row col ho hz, Board.wrapChar_digit _ hr.1 hr.2]
  refine ⟨⟨?_, ?_, ?_, ?_⟩, by decide, by decide⟩
  · unfold Board.playerInput
    rw [hv]
    simp only [Bool.not_true, Bool.false_eq_true, if_false]
    rw [if_neg hk, if_neg hm1, hrev]
  · rw [Board.visAt_write b (row, col) _ hne, if_pos rfl]
  · rw [hh]
    show (48 : Int) + _ ≠ 45
    omega
  · intro p hp
    rw [Board.visAt_write b (row, col) _ hne, if_neg hp]

/-- Witness for C16: revealing the corner (0,0) of the 3 x 3 board with a mine at (1,1). -/
theorem C16_reveal_nonzero_reveals_one_cell_witness :
    demo.playerInput 0 0 =
      some { ret := 0, out := [],
             board := { demo with _board := demo._board.set 0 0 (chZero + demo.mineAt (0, 0)) } } :=
  (C16_reveal_nonzero_reveals_one_cell demo 0 0 (by decide) (by decide) (by decide) (by decide)
    (by decide)).1.1

/-- C17: mine placement is order-independent.  For every list of pairwise distinct
in-bounds cells and every permutation of it, applying `placeMineHere` to the cells of the
one and of the other in turn, starting from the all-zero grid, gives the same board, and so
the same MineGrid. -/
theorem C17_placement_is_order_independent (n mines : Int) (cells cells1 : List (Int × Int))
    (hnd : cells.Nodup)
    (hin : ∀ p ∈ cells, (0 ≤ p.1 ∧ p.1 < n) ∧ (0 ≤ p.2 ∧ p.2 < n))
    (hperm : cells.Perm cells1) :
    Board.placeAll cells1 (Board.blank n mines) = Board.placeAll cells (Board.blank n mines) ∧
      (Board.placeAll cells1 (Board.blank n mines))._mine_board =
        (Board.placeAll cells (Board.blank n mines))._mine_board := by
  have key : Board.placeAll cells1 (Board.blank n mines) =
      Board.placeAll cells (Board.blank n mines) := by
    cases hc : cells with
    | nil =>
      rw [hc] at hperm
      rw [List.Perm.nil_eq hperm]
    | cons c cs =>
      have hcn := hin c (by rw [hc]; exact List.mem_cons_self _ _)
      have hn : 0 ≤ n := by omega
      rw [← hc]
      have hpre : ∀ l : List (Int × Int), (∀ p ∈ l, p ∈ cells) →
          ∀ p ∈ l, (Board.blank n mines).isValid p.1 p.2 = true ∧
            (Board.blank n mines).mineAt p ≠ -1 := by
        intro l hl p hp
        have hv : (Board.blank n mines).isValid p.1 p.2 = true := by
          rw [Board.isValid_iff]
          have := hin p (hl p hp)
          exact ⟨this.1.1, this.2.1, this.1.2, this.2.2⟩
        refine ⟨hv, ?_⟩
        rw [Board.blank_mineAt n mines p hv]
        decide
      obtain ⟨hb, hm⟩ := Board.placeAll_built n mines cells (Board.blank n mines)
        Board.Built.zero hnd (hpre cells (fun _ h => h))
      obtain ⟨hb1, hm1⟩ := Board.placeAll_built n mines cells1 (Board.blank n mines)
        Board.Built.zero (hperm.nodup_iff.1 hnd) (hpre cells1 (fun p h => hperm.mem_iff.2 h))
      apply Board.Built.eq_of_same_mines hb hb1 hn
      intro q hq
      have hq0 : (Board.blank n mines).isValid q.1 q.2 = true := by
        rw [← Board.isValid_congr hb.inv.1]
        exact hq
      rw [hm q hq0, hm1 q hq0, hperm.mem_iff]
  exact ⟨key, by rw [key]⟩

/-- Witness for C17: three mines on the 3 x 3 grid, placed in two different orders. -/
theorem C17_placement_is_order_independent_witness :
    Board.placeAll [(2, 2), (0, 0), (0, 1)] (Board.blank 3 3) =
      Board.placeAll [(0, 0), (0, 1), (2, 2)] (Board.blank 3 3) :=
  (C17_placement_is_order_independent 3 3 [(0, 0), (0, 1), (2, 2)] [(2, 2), (0, 0), (0, 1)]
    (by decide) (by decide) (by decide)).1

/-- C18: in every state reached from a freshly constructed board by `playerMarkMine` and
`playerInput` calls, VisibleGrid is still side x side and every cell of it is hidden '-',
marked '#', or a digit '0'..'8'; and a cell that shows a digit is not a mine and shows the
digit of its MineGrid value, which is the number of mines among its neighbours. -/
theorem C18_visible_symbols_invariant (difficulty : Int) (draws : List Int) (b0 : Board)
    (h0 : Board.new difficulty draws = some b0) (hr : ∀ x ∈ draws, 0 ≤ x ∧ x ≤ b0._side - 1)
    (ops : List Op) :
    ∃ b, b0.run ops = some b ∧ b._board.Square b0._side ∧ b._side = b0._side ∧
      ∀ row col, b.isValid row col = true →
        (b.visAt (row, col) = chHidden ∨ b.visAt (row, col) = chMarked ∨
          (chZero ≤ b.visAt (row, col) ∧ b.visAt (row, col) ≤ chZero + 8)) ∧
        (chZero ≤ b.visAt (row, col) ∧ b.visAt (row, col) ≤ chZero + 8 →
          b.mineAt (row, col) ≠ -1 ∧ b.visAt (row, col) = chZero + b.mineAt (row, col) ∧
            b.mineAt (row, col) = (b.mineNeighbours row col : Int)) := by
  obtain ⟨hb, -, hs0, -, -⟩ := Board.new_built difficulty draws b0 h0 hr
  obtain ⟨-, -, hboard, hcons, -⟩ := hb.inv
  have hshown : Board.Shown b0._mine_board b0._side b0 := by
    refine ⟨rfl, rfl, by rw [hboard]; exact Grid.square_fill _ _ hs0, ?_⟩
    intro p hp
    left
    show b0._board.get p.1 p.2 = chHidden
    rw [hboard, Grid.get_fill, if_pos ((Board.isValid_iff b0 _ _).1 hp)]
  obtain ⟨b, hrun, h1, h2, h3, h4⟩ := Board.Shown.after_run ops b0 hshown hcons.toDigitOk
  have hcb : b.Consistent := by
    rw [Board.consistent_iff]
    intro x y hv hm
    have hv0 : b0.isValid x y = true := by rw [← Board.isValid_congr h1]; exact hv
    have e := (Board.consistent_iff b0).1 hcons x y hv0 (by
      unfold Board.mineAt at hm ⊢; rw [← h2]; exact hm)
    have hnb : b.mineNeighbours x y = b0.mineNeighbours x y := by
      unfold Board.mineNeighbours Board.mineAt
      rw [h2]
      apply Board.countP_same
      intro q _
      rw [Board.isValid_congr h1]
    unfold Board.mineAt at e ⊢
    rw [h2, hnb]
    exact e
  refine ⟨b, hrun, h3, h1, ?_⟩
  intro row col hv
  have hcase := h4 (row, col) hv
  constructor
  · rcases hcase with h | h | ⟨_, hlo, hhi, hvis⟩
    · exact Or.inl h
    · exact Or.inr (Or.inl h)
    · right; right
      rw [hvis]
      constructor <;> omega
  · intro hdig
    rcases hcase with h | h | ⟨hm, _, _, hvis⟩
    · rw [h] at hdig; exact absurd hdig.1 (by decide)
    · rw [h] at hdig; exact absurd hdig.1 (by decide)
    · exact ⟨hm, hvis, (Board.consistent_iff b).1 hcb row col hv hm⟩

/-- Witness for C18: on the beginner board, reveal (8,0), mark (8,0), mark the mine (0,0). -/
theorem C18_visible_symbols_invariant_witness :
    (∀ x ∈ beginnerDraws, 0 ≤ x ∧ x ≤ beginnerBoard._side - 1) ∧
      Board.new 0 beginnerDraws = some beginnerBoard ∧
      ∃ b, beginnerBoard.run [Op.input 8 0, Op.mark 8 0, Op.mark 0 0] = some b ∧
        b._board.Square beginnerBoard._side :=
  have hr : ∀ x ∈ beginnerDraws, 0 ≤ x ∧ x ≤ beginnerBoard._side - 1 := by decide
  have hn : Board.new 0 beginnerDraws = some beginnerBoard := by decide
  have ⟨b, h1, h2, _⟩ := C18_visible_symbols_invariant 0 beginnerDraws beginnerBoard hn hr
    [Op.input 8 0, Op.mark 8 0, Op.mark 0 0]
  ⟨hr, hn, b, h1, h2⟩

/-- C19: for arbitrary integers `row` and `col`, every grid cell that `playerMarkMine`,
`playerInput`, `revealMineCountNearInput` (nested calls included) and `incrementCount`
read or write lies in `[0, _side) x [0, _side)`, where `isValid` is true; so does every
cell `placeMineHere` indexes when it is called on an in-bounds cell.  The logged operations
compute the same boards as the plain ones, and on side x side grids the in-bounds positions
are stored cells of both grids. -/
theorem C19_no_access_out_of_bounds (b : Board) (row col : Int) :
    ((b.playerMarkMineLog row col).1 = b.playerMarkMine row col ∧
      ∀ a ∈ (b.playerMarkMineLog row col).2, b.InGrid a.pos) ∧
    (∃ r, b.playerInputLog row col = some r ∧ b.playerInput row col = some r.1 ∧
      ∀ a ∈ r.2, b.InGrid a.pos) ∧
    (∃ r, b.revealMineCountNearInputLog row col = some r ∧
      b.revealMineCountNearInput row col = some r.1 ∧ ∀ a ∈ r.2, b.InGrid a.pos) ∧
    ((b.incrementCountLog row col).1 = b.incrementCount row col ∧
      ∀ a ∈ (b.incrementCountLog row col).2, b.InGrid a.pos) ∧
    ((b.placeMineHereLog row col).1 = b.placeMineHere row col ∧
      (b.isValid row col = true → ∀ a ∈ (b.placeMineHereLog row col).2, b.InGrid a.pos)) ∧
    (b._mine_board.Square b._side → b._board.Square b._side → ∀ p, b.InGrid p →
      b._mine_board.InRange p.1 p.2 ∧ b._board.InRange p.1 p.2) := by
  refine ⟨⟨Board.playerMarkMineLog_fst b row col,
      fun a ha => Board.inGrid_of_valid (Board.playerMarkMineLog_valid b row col a ha)⟩, ?_, ?_,
    ⟨Board.incrementCountLog_fst b row col,
      fun a ha => Board.inGrid_of_valid (Board.incrementCountLog_valid b row col a ha)⟩, ?_, ?_⟩
  · obtain ⟨r, h1, h2, h3⟩ := Board.playerInputLog_spec b row col
    exact ⟨r, h1, h2, fun a ha => Board.inGrid_of_valid (h3 a ha)⟩
  · obtain ⟨r, h1, h2, h3⟩ := Board.revealMineCountNearInputLog_spec b row col
    exact ⟨r, h1, h2, fun a ha => Board.inGrid_of_valid (h3 a ha)⟩
  · have hinit : ∀ a ∈ [Access.writeMine (row, col)], b.isValid row col = true →
        Board.isValid { b with _mine_board := b._mine_board.set row col (-1) } a.pos.1 a.pos.2 =
          true := by
      intro a ha hv
      simp only [List.mem_singleton] at ha
      rw [ha]; exact hv
    constructor
    · have hgen : ∀ (ps : List (Int × Int)) (acc : Board × List Access),
          (Board.incAllLog ps acc).1 = Board.incAll ps acc.1 := by
        intro ps
        induction ps with
        | nil => intro acc; rfl
        | cons q qs ih =>
          intro acc
          show (Board.incAllLog qs _).1 = Board.incAll qs (acc.1.incrementCount q.1 q.2)
          rw [ih, Board.incrementCountLog_fst]
      rw [Board.placeMineHereLog_eq, Board.placeMineHere_eq]
      exact hgen _ _
    · intro hv a ha
      rw [Board.placeMineHereLog_eq] at ha
      exact Board.inGrid_of_valid
        ((Board.incAllLog_spec (block row col) _ (fun a ha => hinit a ha hv)).2 a ha)
  · intro hs1 hs2 p hp
    have hb := (Board.isValid_iff b p.1 p.2).1 hp.1
    exact ⟨(Grid.inRange_of_square hs1 p.1 p.2).2 hb, (Grid.inRange_of_square hs2 p.1 p.2).2 hb⟩

/-- Witness for C19: the accesses of `placeMineHere` on the corner (0,0) of the 3 x 3 board,
five of whose nine surrounding positions are out of bounds, and those of `playerInput` on
(2,2) of the board with a mine at (0,0), whose flood fill runs into the edges. -/
theorem C19_no_access_out_of_bounds_witness :
    demo.isValid 0 0 = true ∧ (∀ a ∈ (demo.placeMineHereLog 0 0).2, demo.InGrid a.pos) ∧
      ∃ r, corner.playerInputLog 2 2 = some r ∧ corner.playerInput 2 2 = some r.1 ∧
        ∀ a ∈ r.2, corner.InGrid a.pos :=
  have hv : demo.isValid 0 0 = true := by decide
  have h := C19_no_access_out_of_bounds demo 0 0
  have h1 := C19_no_access_out_of_bounds corner 2 2
  have ⟨r, e1, e2, e3⟩ := h1.2.1
  ⟨hv, h.2.2.2.2.1.2 hv, r, e1, e2, e3⟩

end Minesweeper
